import Mathlib

/-! # Question paper generator: scoring and question synthesis

A shallow embedding of the text-scoring and question-synthesis pipeline of the
question paper generator (`preprocessor.cpp`, `keyword_extractor.cpp`,
`line_scorer.cpp`, `question_generator.cpp`) and of the path helper of
`paper_exporter.cpp`, followed by theorems about it.

Modelling conventions.

* A `std::string` is the list of its `char`s (`Str`); a string literal of the source
  is written `"...".toList`.
* `std::size_t` values are natural numbers: no count or index of the pipeline can
  reach `2^64`, since each is bounded by the size of a vector held in memory.
* A `std::unordered_map<std::string, std::size_t>` is the list of its entries in
  iteration order (`FrequencyMap`); a well-formed map has pairwise distinct keys
  (`NodupKeys`), and the iteration order is otherwise arbitrary.
* A `double` is a `Dbl`: a finite value held as an exact rational (rounding is not
  modelled), an infinity, or NaN, with the IEEE 754 outcomes of a division by zero and
  of arithmetic and comparisons on NaN.
* `std::mt19937` is a supply of natural numbers (`Rng`) threaded through the code;
  an exhausted supply yields `0`.
* An exception is an `Except` error value.
* The character classes `isalnum`, `isspace` and `tolower` are those of the default
  locale, which the program never changes.
-/

namespace QPG

/-! ## Floating point (`double`) -/

/-- A `double`: a finite value, held as an exact rational (rounding is not modelled), an
infinity, or NaN. Zero carries no sign: every zero that the line scorer computes or
divides by is `+0.0`, its quantities being converted from unsigned integers. -/
inductive Dbl where
  | fin (q : ℚ)
  | posInf
  | negInf
  | nan
  deriving DecidableEq, Repr

/-- The conversion of a `std::size_t` to `double`. -/
def Dbl.ofNat (n : Nat) : Dbl := Dbl.fin (n : ℚ)

/-- The sum `a + b` of two `double`s. -/
def Dbl.add : Dbl → Dbl → Dbl
  | .nan, _ => .nan
  | _, .nan => .nan
  | .fin a, .fin b => .fin (a + b)
  | .posInf, .negInf => .nan
  | .negInf, .posInf => .nan
  | .posInf, _ => .posInf
  | _, .posInf => .posInf
  | .negInf, _ => .negInf
  | _, .negInf => .negInf

/-- The product of an infinity, positive when `positive` holds, and the finite `q`. -/
def Dbl.infTimes (positive : Bool) (q : ℚ) : Dbl :=
  if q = 0 then .nan
  else if decide (0 < q) = positive then .posInf else .negInf

/-- The product `a * b` of two `double`s. -/
def Dbl.mul : Dbl → Dbl → Dbl
  | .nan, _ => .nan
  | _, .nan => .nan
  | .fin a, .fin b => .fin (a * b)
  | .fin a, .posInf => Dbl.infTimes true a
  | .fin a, .negInf => Dbl.infTimes false a
  | .posInf, .fin b => Dbl.infTimes true b
  | .negInf, .fin b => Dbl.infTimes false b
  | .posInf, .posInf => .posInf
  | .posInf, .negInf => .negInf
  | .negInf, .posInf => .negInf
  | .negInf, .negInf => .posInf

/-- The quotient `a / b` of two `double`s: `0.0 / 0.0` is NaN, and any other finite
value divided by `0.0` is the infinity of its sign. -/
def Dbl.div : Dbl → Dbl → Dbl
  | .nan, _ => .nan
  | _, .nan => .nan
  | .fin a, .fin b =>
    if b = 0 then (if a = 0 then .nan else if 0 < a then .posInf else .negInf)
    else .fin (a / b)
  | .fin _, _ => .fin 0
  | .posInf, .fin b => if 0 ≤ b then .posInf else .negInf
  | .negInf, .fin b => if 0 ≤ b then .negInf else .posInf
  | _, _ => .nan

/-- The comparison `a < b` of two `double`s: false when either is NaN. -/
def Dbl.lt : Dbl → Dbl → Bool
  | .nan, _ => false
  | _, .nan => false
  | .fin a, .fin b => decide (a < b)
  | .posInf, _ => false
  | _, .posInf => true
  | _, .negInf => false
  | .negInf, _ => true

/-- The comparison `a <= b` of two `double`s: false when either is NaN. -/
def Dbl.le : Dbl → Dbl → Bool
  | .nan, _ => false
  | _, .nan => false
  | .fin a, .fin b => decide (a ≤ b)
  | .negInf, _ => true
  | _, .posInf => true
  | _, .negInf => false
  | .posInf, _ => false

/-- The call `std::min(a, b)`: `b` when `b < a`, otherwise `a`. -/
def Dbl.min (a b : Dbl) : Dbl := if Dbl.lt b a then b else a

instance : Add Dbl := ⟨Dbl.add⟩

instance : Mul Dbl := ⟨Dbl.mul⟩

instance : Div Dbl := ⟨Dbl.div⟩

instance : LT Dbl := ⟨fun a b => Dbl.lt a b = true⟩

instance : LE Dbl := ⟨fun a b => Dbl.le a b = true⟩

instance (a b : Dbl) : Decidable (a < b) := inferInstanceAs (Decidable (Dbl.lt a b = true))

instance (a b : Dbl) : Decidable (a ≤ b) := inferInstanceAs (Decidable (Dbl.le a b = true))

/-- A numeral read as a `double`. -/
instance (n : Nat) : OfNat Dbl n := ⟨Dbl.fin (n : ℚ)⟩

/-! ## Data model (`document.h`) -/

/-- A `std::string`, as the sequence of its characters. -/
abbrev Str := List Char

/-- A processed line: original text, cleaned text and the tokens of the cleaned text. -/
structure ProcessedLine where
  original : Str
  cleaned : Str
  tokens : List Str
  deriving DecidableEq, Repr

/-- A processed line with its importance score. -/
structure ScoredLine where
  line : ProcessedLine
  score : Dbl
  deriving DecidableEq, Repr

/-- A multiple choice question. -/
structure MCQ where
  prompt : Str
  options : List Str
  answer : Char
  deriving DecidableEq, Repr

/-- A complete question paper. -/
structure QuestionPaper where
  mcqs : List MCQ
  fillInBlanks : List Str
  shortQuestions : List Str
  longQuestions : List Str
  deriving DecidableEq, Repr

/-- A `std::unordered_map<std::string, std::size_t>`: its entries in iteration order. -/
abbrev FrequencyMap := List (Str × Nat)

/-- The keys of a map are pairwise distinct. -/
def NodupKeys (m : FrequencyMap) : Prop := (m.map Prod.fst).Nodup

instance (m : FrequencyMap) : Decidable (NodupKeys m) := by
  unfold NodupKeys; infer_instance

/-- The member function `find` of the map: the count stored under `key`, if any. -/
def mapFind (m : FrequencyMap) (key : Str) : Option Nat :=
  match m with
  | [] => none
  | (k, c) :: rest => if k = key then some c else mapFind rest key

/-! ## Library routines used by the code -/

/-- The comparison `a < b` of two `std::string`s: lexicographic on the characters,
a proper initial segment being smaller. -/
def strLt : Str → Str → Bool
  | [], [] => false
  | [], _ :: _ => true
  | _ :: _, [] => false
  | a :: as, b :: bs => if a < b then true else if b < a then false else strLt as bs

/-- Insert `x` into a sorted list, before the first element that `x` precedes. -/
def insertSorted {α : Type} (lt : α → α → Bool) (x : α) : List α → List α
  | [] => [x]
  | y :: ys => if lt x y then x :: y :: ys else y :: insertSorted lt x ys

/-- The call `std::sort(first, last, lt)`, as an insertion sort taking the elements
from left to right. The order `std::sort` gives to elements that `lt` does not
separate is unspecified; the theorems below that hold for every input do not depend on
it. -/
def sortBy {α : Type} (lt : α → α → Bool) (l : List α) : List α :=
  l.foldl (fun acc x => insertSorted lt x acc) []

/-- The random number generator: a supply of draws. -/
abbrev Rng := List Nat

/-- One draw from the generator. -/
def Rng.draw (g : Rng) : Nat × Rng := (g.headD 0, g.tail)

/-- Exchange the elements at positions `i` and `j`. -/
def swapAt {α : Type} (l : List α) (i j : Nat) : List α :=
  match l[i]?, l[j]? with
  | some a, some b => (l.set i b).set j a
  | _, _ => l

/-- One step of `std::shuffle`: exchange position `i` with a drawn position in `[0, i]`. -/
def shuffleStep {α : Type} (st : List α × Rng) (i : Nat) : List α × Rng :=
  let d := Rng.draw st.2
  (swapAt st.1 i (d.1 % (i + 1)), d.2)

/-- The call `std::shuffle(first, last, rng)`: for `i = 1 .. n-1`, exchange the element
at `i` with the element at a position drawn from `[0, i]`. -/
def shuffle {α : Type} (l : List α) (g : Rng) : List α × Rng :=
  (List.range' 1 (l.length - 1)).foldl shuffleStep (l, g)

/-- The call `std::tolower(c)` in the default locale. -/
def tolower (c : Char) : Char := c.toLower

/-- The call `hay.find(needle)`: the least position at which `needle` occurs in `hay`,
or `none` for `npos`. -/
def strFind : Str → Str → Option Nat
  | [], needle => if needle.isEmpty then some 0 else none
  | c :: rest, needle =>
    if needle.isPrefixOf (c :: rest) then some 0 else (strFind rest needle).map (· + 1)

/-- The call `s.replace(pos, len, "")`: drop `len` characters from position `pos`. -/
def strErase (s : Str) (pos len : Nat) : Str := s.take pos ++ s.drop (pos + len)

/-! ## Keyword extractor (`keyword_extractor.cpp`) -/

/-- The statement `++counts[token]`: increment the count of `token`, creating the
entry (with count zero) when the key is absent. -/
def increment : FrequencyMap → Str → FrequencyMap
  | [], token => [(token, 0 + 1)]
  | (k, c) :: rest, token =>
    if k = token then (k, c + 1) :: rest else (k, c) :: increment rest token

/-- The function `KeywordExtractor::frequency`. -/
def frequency (tokens : List Str) : FrequencyMap :=
  tokens.foldl increment []

/-- The comparator of `topKeywords`: alphabetical among equal counts, otherwise by
count descending. -/
def rankBefore (a b : Str × Nat) : Bool :=
  if a.2 = b.2 then strLt a.1 b.1 else decide (a.2 > b.2)

/-- The function `KeywordExtractor::topKeywords`. -/
def topKeywords (freq : FrequencyMap) (limit : Nat) : List (Str × Nat) :=
  let ranked := sortBy rankBefore freq
  if ranked.length > limit then ranked.take limit else ranked

/-! ## Line scorer (`line_scorer.cpp`) -/

/-- The call `std::max_element` with the comparator `a.second < b.second`: the first
entry of greatest count. -/
def maxElement : FrequencyMap → Option (Str × Nat)
  | [] => none
  | e :: rest => some (rest.foldl (fun best x => if best.2 < x.2 then x else best) e)

/-- The inner loop of `LineScorer::score`: the sum of the normalised frequencies of
the tokens found in the map. -/
def keywordScore (tokens : List Str) (keywordFreq : FrequencyMap) (maxFreq : Dbl) : Dbl :=
  tokens.foldl
    (fun acc token =>
      match mapFind keywordFreq token with
      | some c => acc + Dbl.ofNat c / maxFreq
      | none => acc)
    (Dbl.fin 0)

/-- The body of the outer loop of `LineScorer::score` for a line with tokens. -/
def scoreLine (line : ProcessedLine) (keywordFreq : FrequencyMap) (maxFreq : Dbl) : ScoredLine :=
  let density := keywordScore line.tokens keywordFreq maxFreq / Dbl.ofNat line.tokens.length
  let lengthBonus := Dbl.min (Dbl.fin 1) (Dbl.ofNat line.tokens.length / Dbl.fin 20)
  { line := line, score := density * Dbl.fin 0.8 + lengthBonus * Dbl.fin 0.2 }

/-- The function `LineScorer::score`. -/
def score (lines : List ProcessedLine) (keywordFreq : FrequencyMap) : List ScoredLine :=
  if lines.isEmpty || keywordFreq.isEmpty then []
  else
    match maxElement keywordFreq with
    | none => []
    | some maxIt =>
      let maxFreq : Dbl := Dbl.ofNat maxIt.2
      let scored := lines.foldl
        (fun acc line =>
          if line.tokens.isEmpty then acc else acc ++ [scoreLine line keywordFreq maxFreq])
        []
      sortBy (fun a b => decide (a.score > b.score)) scored

/-- Spec-side formula for the score of a line with the given tokens, for a map whose
maximum count is `maxFreq`: `0.8 * density + 0.2 * lengthBonus`, a token that is not a
key of the map contributing `0`. -/
def specLineScore (freq : FrequencyMap) (maxFreq : Nat) (tokens : List Str) : ℚ :=
  0.8 * ((tokens.map (fun t =>
            match mapFind freq t with
            | some c => (c : ℚ) / (maxFreq : ℚ)
            | none => 0)).sum / (tokens.length : ℚ)) +
    0.2 * min (1 : ℚ) ((tokens.length : ℚ) / 20)

/-! ## Question generator (`question_generator.cpp`) -/

/-- The four configured counts of a `QuestionGenerator`. -/
structure QuestionGenerator where
  mcqCount : Nat
  fillCount : Nat
  shortCount : Nat
  longCount : Nat
  deriving DecidableEq, Repr

/-- The two exceptions thrown by `buildMcq`. -/
inductive McqError where
  | noKeywordFound
  | notEnoughDistractors
  deriving DecidableEq, Repr

/-- The lambda `lower` of `maskKeyword`. -/
def lower (s : Str) : Str := s.map tolower

/-- The function `QuestionGenerator::maskKeyword`. -/
def maskKeyword (text keyword : Str) : Str :=
  match strFind (lower text) (lower keyword) with
  | some pos => strErase text pos keyword.length
  | none => text

/-- Spec-side notion: `mid` is an occurrence of `keyword` in `text` ignoring case,
with `pre` before it and `post` after it. -/
def OccursAt (text keyword pre mid post : Str) : Prop :=
  text = pre ++ mid ++ post ∧ lower mid = lower keyword

/-- The function `QuestionGenerator::containsKeyword`. -/
def containsKeyword (line : ProcessedLine) (kw : Str) : Bool :=
  decide (kw ∈ line.tokens)

/-- The keyword search of `buildMcq`: the first token of the line that is in the
keyword set, or the empty string when there is none. -/
def findKeyword (tokens keywords : List Str) : Str :=
  match tokens.find? (fun t => decide (t ∈ keywords)) with
  | some t => t
  | none => []

/-- The lead-in of every MCQ prompt. -/
def mcqLeadIn : Str := "Identify the keyword that completes the statement:\n    ".toList

/-- The answer loop of `buildMcq`: the label of the last slot holding the keyword,
`A` when no slot holds it. -/
def answerLabel (options : List Str) (keyword : Str) : Char :=
  (List.range options.length).foldl
    (fun answer i => if options[i]? = some keyword then Char.ofNat (65 + i) else answer)
    'A'

/-- Spec-side reading of an answer label as an option slot: `A` is slot 0, `B` slot 1,
`C` slot 2 and `D` slot 3. -/
def answerSlot (answer : Char) : Nat := answer.toNat - 65

/-- The function `QuestionGenerator::buildMcq`. -/
def buildMcq (line : ScoredLine) (keywords : List Str) (rng : Rng) :
    Except McqError (MCQ × Rng) :=
  let keyword := findKeyword line.line.tokens keywords
  if keyword.isEmpty then Except.error McqError.noKeywordFound
  else
    let distractors := keywords.filter (fun k => decide (k ≠ keyword))
    if distractors.length < 3 then Except.error McqError.notEnoughDistractors
    else
      let s1 := shuffle distractors rng
      let options := [keyword, s1.1.getD 0 [], s1.1.getD 1 [], s1.1.getD 2 []]
      let s2 := shuffle options s1.2
      Except.ok
        ({ prompt := mcqLeadIn ++ maskKeyword line.line.original keyword,
           options := s2.1,
           answer := answerLabel s2.1 keyword }, s2.2)

/-- The function `QuestionGenerator::buildFillBlank`. -/
def buildFillBlank (line : ScoredLine) (keywords : List Str) : Str :=
  match keywords.find? (fun k => containsKeyword line.line k) with
  | some k => maskKeyword line.line.original k
  | none => []

/-- Spec-side choice of the keyword of a fill-in-blank: the first keyword, in rank
order, that occurs among the tokens of the line. -/
def specFillKeyword (keywordList tokens : List Str) : Option Str :=
  keywordList.find? (fun k => decide (k ∈ tokens))

/-- Spec-side fill-in-blank sequence: one entry, in line order, for each of the first
`fillCount` lines that contains a keyword, the line with its keyword masked. -/
def specFillInBlanks (fillCount : Nat) (lines : List ScoredLine) (keywordList : List Str) :
    List Str :=
  (lines.take fillCount).filterMap
    (fun l => (specFillKeyword keywordList l.line.tokens).map (maskKeyword l.line.original))

/-- The function `QuestionGenerator::buildShortQuestion`; the dash of the source text
is the three-byte sequence `E2 80 93`. -/
def buildShortQuestion (keyword : Str) : Str :=
  "Explain the concept of \"".toList ++ keyword ++ "\" in 2\xe2\x80\x933 sentences.".toList

/-- The function `QuestionGenerator::buildLongQuestion`. -/
def buildLongQuestion (line : ScoredLine) : Str :=
  "Discuss in detail: \"".toList ++ line.line.original ++
    "\". Include definitions, examples, and implications.".toList

/-- One iteration of the MCQ loop of `generate`: a failed construction is skipped. -/
def mcqStep (keywordList : List Str) (st : List MCQ × Rng) (line : ScoredLine) :
    List MCQ × Rng :=
  match buildMcq line keywordList st.2 with
  | Except.ok r => (st.1 ++ [r.1], r.2)
  | Except.error _ => st

/-- One iteration of the fill-in-blank loop of `generate`. -/
def fillStep (keywordList : List Str) (acc : List Str) (line : ScoredLine) : List Str :=
  let q := buildFillBlank line keywordList
  if !q.isEmpty then acc ++ [q] else acc

/-- The function `QuestionGenerator::generate`; the generator state `rng` is the one
seeded at the start of the call. -/
def generate (cfg : QuestionGenerator) (lines : List ScoredLine)
    (keywords : List (Str × Nat)) (rng : Rng) : QuestionPaper :=
  if lines.isEmpty || keywords.isEmpty then
    { mcqs := [], fillInBlanks := [], shortQuestions := [], longQuestions := [] }
  else
    let keywordList := keywords.map Prod.fst
    { mcqs := ((lines.take cfg.mcqCount).foldl (mcqStep keywordList) ([], rng)).1,
      fillInBlanks := (lines.take cfg.fillCount).foldl (fillStep keywordList) [],
      shortQuestions := (keywordList.take cfg.shortCount).map buildShortQuestion,
      longQuestions := (lines.take cfg.longCount).map buildLongQuestion }

/-! ## Preprocessor (`preprocessor.cpp`) -/

/-- A document: its name and its lines. -/
structure Document where
  name : Str
  lines : List Str
  deriving DecidableEq, Repr

/-- The call `std::isalnum(c)` in the default locale: a digit or an unaccented letter. -/
def isalnum (c : Char) : Bool :=
  decide ((48 ≤ c.toNat ∧ c.toNat ≤ 57) ∨ (65 ≤ c.toNat ∧ c.toNat ≤ 90) ∨
    (97 ≤ c.toNat ∧ c.toNat ≤ 122))

/-- The call `std::isspace(c)` in the default locale: the space and the five control
characters from the horizontal tab (9) to the carriage return (13). -/
def isspace (c : Char) : Bool :=
  decide (c.toNat = 32 ∨ (9 ≤ c.toNat ∧ c.toNat ≤ 13))

/-- The function `Preprocessor::buildStopwords`: the elements of the hard-coded set. -/
def buildStopwords : List Str :=
  [
    "a".toList, "an".toList, "the".toList, "and".toList, "or".toList, "but".toList, "if".toList, "then".toList, "else".toList, "for".toList, "with".toList,
    "about".toList, "into".toList, "onto".toList, "from".toList, "that".toList, "this".toList, "those".toList, "these".toList, "to".toList, "of".toList,
    "in".toList, "on".toList, "at".toList, "as".toList, "by".toList, "it".toList, "is".toList, "are".toList, "was".toList, "were".toList, "be".toList, "been".toList,
    "being".toList, "so".toList, "we".toList, "you".toList, "they".toList, "he".toList, "she".toList, "them".toList, "their".toList, "there".toList,
    "here".toList, "can".toList, "could".toList, "should".toList, "would".toList, "may".toList, "might".toList, "will".toList, "just".toList,
    "than".toList, "also".toList, "such".toList, "not".toList, "no".toList, "do".toList, "does".toList, "did".toList, "done".toList, "its".toList]

/-- The character pushed by one iteration of the loop of `normalize`. -/
def normalizeChar (ch : Char) : Char :=
  if isalnum ch || isspace ch then tolower ch else ' '

/-- The function `Preprocessor::normalize`. -/
def normalize (line : Str) : Str :=
  line.foldl (fun lower ch => lower ++ [normalizeChar ch]) []

/-- The loop `while (stream >> token) tokens.push_back(token)` of `tokenize`, one
character at a time: an extraction skips whitespace, then reads characters up to the
next whitespace or the end of the text, and an extraction that reads nothing ends the
loop. The second argument holds the characters read so far by the extraction under way. -/
def tokenizeFrom : Str → Str → List Str
  | [], token => if token.isEmpty then [] else [token]
  | c :: rest, token =>
    if isspace c then
      if token.isEmpty then tokenizeFrom rest [] else token :: tokenizeFrom rest []
    else tokenizeFrom rest (token ++ [c])

/-- The function `Preprocessor::tokenize`. -/
def tokenize (text : Str) : List Str := tokenizeFrom text []

/-- The function `Preprocessor::removeStopWords`, for the stopword set built by the
constructor. -/
def removeStopWords (tokens : List Str) : List Str :=
  tokens.foldl
    (fun filtered token =>
      if decide (token ∈ buildStopwords) then filtered else filtered ++ [token])
    []

/-- The function `Preprocessor::process` on one line. -/
def process (line : Str) : ProcessedLine :=
  { original := line,
    cleaned := normalize line,
    tokens := removeStopWords (tokenize (normalize line)) }

/-- The function `Preprocessor::process` on a document: the processed lines that have
tokens. -/
def processDocument (doc : Document) : List ProcessedLine :=
  doc.lines.foldl
    (fun processed line =>
      if !(process line).tokens.isEmpty then processed ++ [process line] else processed)
    []

/-- The function `Preprocessor::process` on a list of documents. -/
def processDocuments (docs : List Document) : List ProcessedLine :=
  docs.foldl (fun all doc => all ++ processDocument doc) []

/-- The function `Preprocessor::collectTokens`. -/
def collectTokens (lines : List ProcessedLine) : List Str :=
  lines.foldl (fun tokens line => tokens ++ line.tokens) []

/-- Spec-side: the maximal runs of `text` between separators, in order of appearance;
the text is split at every separator and the empty pieces are dropped. -/
def specRuns (sep : Char → Bool) (text : Str) : List Str :=
  (text.splitOnP sep).filter (fun r => !r.isEmpty)

/-- Spec-side: the stopwords as the spec enumerates them. -/
def specStopwords : List Str :=
  [
    "a".toList, "an".toList, "the".toList, "and".toList, "or".toList, "but".toList, "if".toList, "then".toList,
    "else".toList, "for".toList, "with".toList, "about".toList, "into".toList, "onto".toList, "from".toList, "that".toList,
    "this".toList, "those".toList, "these".toList, "to".toList, "of".toList, "in".toList, "on".toList, "at".toList,
    "as".toList, "by".toList, "it".toList, "is".toList, "are".toList, "was".toList, "were".toList, "be".toList,
    "been".toList, "being".toList, "so".toList, "we".toList, "you".toList, "they".toList, "he".toList, "she".toList,
    "them".toList, "their".toList, "there".toList, "here".toList, "can".toList, "could".toList, "should".toList, "would".toList,
    "may".toList, "might".toList, "will".toList, "just".toList, "than".toList, "also".toList, "such".toList, "not".toList,
    "no".toList, "do".toList, "does".toList, "did".toList, "done".toList, "its".toList]

/-- Spec-side: the tokens of a line: its maximal runs of alphanumeric characters,
lower-cased, without those that are stopwords. -/
def specLineTokens (line : Str) : List Str :=
  ((specRuns (fun c => !isalnum c) line).map lower).filter
    (fun t => decide (t ∉ specStopwords))

/-! ## Spec-side notions for the question generator -/

/-- Spec-side: the token of a line that the MCQ rule names: the first token of the line,
in token order, that is in the keyword list. -/
def specMcqToken (keywordList tokens : List Str) : Option Str :=
  tokens.find? (fun t => decide (t ∈ keywordList))

/-- Spec-side: the distractor pool of a token: the keyword entries that differ from it. -/
def specDistractorPool (keywordList : List Str) (t : Str) : List Str :=
  keywordList.filter (fun k => decide (k ≠ t))

/-- Spec-side, the MCQ skip policy: the line has a token in the keyword list and at
least 3 keyword entries differ from that token. -/
def specMcqLineAsStated (keywordList : List Str) (l : ScoredLine) : Bool :=
  match specMcqToken keywordList l.line.tokens with
  | some t => decide (3 ≤ (specDistractorPool keywordList t).length)
  | none => false

/-- The lines on which `buildMcq` succeeds: moreover that token is not the empty string,
which `buildMcq` takes for no keyword found. -/
def specMcqLine (keywordList : List Str) (l : ScoredLine) : Bool :=
  match specMcqToken keywordList l.line.tokens with
  | some t => !t.isEmpty && decide (3 ≤ (specDistractorPool keywordList t).length)
  | none => false

/-- Spec-side, as the short-answer template is stated: with an ASCII hyphen. -/
def specShortQuestionAscii (keyword : Str) : Str :=
  "Explain the concept of \"".toList ++ keyword ++ "\" in 2-3 sentences.".toList

/-! ## Paper exporter (`paper_exporter.cpp`) -/

/-- The call `s.find_last_of(chars)`: the greatest position of `s` holding one of the
characters `chars`, or `none` for `npos`. -/
def findLastOf (chars : List Char) : Str → Option Nat
  | [] => none
  | c :: rest =>
    match findLastOf chars rest with
    | some i => some (i + 1)
    | none => if c ∈ chars then some 0 else none

/-- The function `ensureTxtExtension`. -/
def ensureTxtExtension (filepath : Str) : Str :=
  let lastDot := findLastOf ['.'] filepath
  let lastSlash := findLastOf ['/', '\\'] filepath
  match lastDot with
  | some d =>
    if (match lastSlash with
        | none => true
        | some sl => decide (d > sl)) then
      let ext := lower (filepath.drop (d + 1))
      if ext = "txt".toList then filepath else filepath ++ ".txt".toList
    else filepath ++ ".txt".toList
  | none => filepath ++ ".txt".toList

/-! ## Sorting -/

theorem insertSorted_perm {α : Type} (lt : α → α → Bool) (x : α) (l : List α) :
    (insertSorted lt x l).Perm (x :: l) := by
  induction l with
  | nil => simp [insertSorted]
  | cons y ys ih =>
    unfold insertSorted
    split
    · exact List.Perm.refl _
    · exact (List.Perm.cons y ih).trans (List.Perm.swap x y ys)

theorem foldl_insertSorted_perm {α : Type} (lt : α → α → Bool) (l acc : List α) :
    (l.foldl (fun acc x => insertSorted lt x acc) acc).Perm (acc ++ l) := by
  induction l generalizing acc with
  | nil => simp
  | cons x xs ih =>
    simp only [List.foldl_cons]
    refine (ih _).trans ?_
    refine ((insertSorted_perm lt x acc).append_right xs).trans ?_
    simpa using (@List.perm_middle _ x acc xs).symm

theorem sortBy_perm {α : Type} (lt : α → α → Bool) (l : List α) :
    (sortBy lt l).Perm l := by
  simpa [sortBy] using foldl_insertSorted_perm lt l []

theorem sortBy_length {α : Type} (lt : α → α → Bool) (l : List α) :
    (sortBy lt l).length = l.length := (sortBy_perm lt l).length_eq

theorem insertSorted_sorted {α : Type} (lt : α → α → Bool)
    (hirr : ∀ a, lt a a = false)
    (htrans : ∀ a b c, lt a b = true → lt b c = true → lt a c = true)
    (x : α) (l : List α) (h : l.Pairwise (fun a b => lt b a = false)) :
    (insertSorted lt x l).Pairwise (fun a b => lt b a = false) := by
  induction l with
  | nil => simp [insertSorted]
  | cons y ys ih =>
    rw [List.pairwise_cons] at h
    unfold insertSorted
    split
    · rename_i hxy
      refine List.pairwise_cons.2 ⟨?_, List.pairwise_cons.2 h⟩
      intro z hz
      cases hzx : lt z x
      · rfl
      · have hzy := htrans _ _ _ hzx hxy
        rcases List.mem_cons.1 hz with rfl | hz
        · rw [hirr] at hzy
          exact absurd hzy (by simp)
        · rw [h.1 z hz] at hzy
          exact absurd hzy (by simp)
    · rename_i hxy
      refine List.pairwise_cons.2 ⟨?_, ih h.2⟩
      intro z hz
      rcases List.mem_cons.1 ((insertSorted_perm lt x ys).subset hz) with rfl | hz
      · simpa using hxy
      · exact h.1 z hz

theorem foldl_insertSorted_sorted {α : Type} (lt : α → α → Bool)
    (hirr : ∀ a, lt a a = false)
    (htrans : ∀ a b c, lt a b = true → lt b c = true → lt a c = true)
    (l acc : List α) (h : acc.Pairwise (fun a b => lt b a = false)) :
    (l.foldl (fun acc x => insertSorted lt x acc) acc).Pairwise (fun a b => lt b a = false) := by
  induction l generalizing acc with
  | nil => simpa using h
  | cons x xs ih =>
    simp only [List.foldl_cons]
    exact ih _ (insertSorted_sorted lt hirr htrans x acc h)

theorem sortBy_sorted {α : Type} (lt : α → α → Bool)
    (hirr : ∀ a, lt a a = false)
    (htrans : ∀ a b c, lt a b = true → lt b c = true → lt a c = true)
    (l : List α) : (sortBy lt l).Pairwise (fun a b => lt b a = false) :=
  foldl_insertSorted_sorted lt hirr htrans l [] List.Pairwise.nil

/-! ## The order on strings and the ranking comparator -/

theorem strLt_irrefl (a : Str) : strLt a a = false := by
  induction a with
  | nil => rfl
  | cons c cs ih => simp [strLt, ih]

theorem strLt_trans (a b c : Str) (hab : strLt a b = true) (hbc : strLt b c = true) :
    strLt a c = true := by
  induction a generalizing b c with
  | nil =>
    cases b with
    | nil => simp [strLt] at hab
    | cons y ys =>
      cases c with
      | nil => simp [strLt] at hbc
      | cons z zs => simp [strLt]
  | cons x xs ih =>
    cases b with
    | nil => simp [strLt] at hab
    | cons y ys =>
      cases c with
      | nil => simp [strLt] at hbc
      | cons z zs =>
        simp only [strLt] at hab hbc ⊢
        rcases lt_trichotomy x y with hxy | hxy | hxy
        · rcases lt_trichotomy y z with hyz | hyz | hyz
          · simp [lt_trans hxy hyz]
          · subst hyz; simp [hxy]
          · simp [hyz, not_lt_of_lt hyz] at hbc
        · subst hxy
          rcases lt_trichotomy x z with hyz | hyz | hyz
          · simp [hyz]
          · subst hyz
            simp only [lt_self_iff_false, if_false] at hab hbc ⊢
            exact ih _ _ hab hbc
          · simp [hyz, not_lt_of_lt hyz] at hbc
        · simp [hxy, not_lt_of_lt hxy] at hab

theorem strLt_total (a b : Str) (hba : strLt b a = false) : a = b ∨ strLt a b = true := by
  induction a generalizing b with
  | nil =>
    cases b with
    | nil => exact Or.inl rfl
    | cons y ys => exact Or.inr rfl
  | cons x xs ih =>
    cases b with
    | nil => simp [strLt] at hba
    | cons y ys =>
      simp only [strLt] at hba ⊢
      rcases lt_trichotomy x y with hxy | hxy | hxy
      · simp [hxy]
      · subst hxy
        simp only [lt_self_iff_false, if_false] at hba ⊢
        rcases ih _ hba with h | h
        · exact Or.inl (by rw [h])
        · exact Or.inr h
      · simp [hxy] at hba

theorem rankBefore_irrefl (a : Str × Nat) : rankBefore a a = false := by
  simp [rankBefore, strLt_irrefl]

theorem rankBefore_trans (a b c : Str × Nat) (hab : rankBefore a b = true)
    (hbc : rankBefore b c = true) : rankBefore a c = true := by
  unfold rankBefore at hab hbc ⊢
  by_cases h1 : a.2 = b.2
  · by_cases h2 : b.2 = c.2
    · rw [if_pos h1] at hab
      rw [if_pos h2] at hbc
      rw [if_pos (h1.trans h2)]
      exact strLt_trans _ _ _ hab hbc
    · rw [if_neg h2] at hbc
      have h3 : ¬ a.2 = c.2 := fun h => h2 (h1.symm.trans h)
      rw [if_neg h3]
      simp only [decide_eq_true_eq] at hbc ⊢
      omega
  · rw [if_neg h1] at hab
    simp only [decide_eq_true_eq] at hab
    by_cases h2 : b.2 = c.2
    · have h3 : ¬ a.2 = c.2 := fun h => h1 (h.trans h2.symm)
      rw [if_neg h3]
      simp only [decide_eq_true_eq]
      omega
    · rw [if_neg h2] at hbc
      simp only [decide_eq_true_eq] at hbc
      have h3 : ¬ a.2 = c.2 := by omega
      rw [if_neg h3]
      simp only [decide_eq_true_eq]
      omega

/-- An entry that does not rank after another one: greater count, or equal count and
a token that is not greater. -/
theorem rankBefore_false_iff (a b : Str × Nat) (h : rankBefore b a = false) :
    b.2 < a.2 ∨ (a.2 = b.2 ∧ (a.1 = b.1 ∨ strLt a.1 b.1 = true)) := by
  unfold rankBefore at h
  by_cases h1 : b.2 = a.2
  · rw [if_pos h1] at h
    exact Or.inr ⟨h1.symm, strLt_total _ _ h⟩
  · rw [if_neg h1] at h
    simp only [decide_eq_false_iff_not] at h
    left; omega

theorem topKeywords_eq_take (freq : FrequencyMap) (limit : Nat) :
    topKeywords freq limit = (sortBy rankBefore freq).take limit := by
  unfold topKeywords
  simp only
  split
  · rfl
  · rw [List.take_of_length_le (by omega)]

theorem sortBy_rankBefore_sorted (freq : FrequencyMap) :
    (sortBy rankBefore freq).Pairwise (fun a b => rankBefore b a = false) :=
  sortBy_sorted rankBefore rankBefore_irrefl rankBefore_trans freq

theorem rankBefore_of_not_after (e r : Str × Nat) (hne : e.1 ≠ r.1)
    (h : rankBefore e r = false) : rankBefore r e = true := by
  rcases rankBefore_false_iff r e h with h1 | ⟨h1, h2 | h2⟩
  · unfold rankBefore
    rw [if_neg (by omega)]
    simpa using h1
  · exact absurd h2.symm hne
  · unfold rankBefore
    rw [if_pos h1]
    exact h2

theorem nodupKeys_inj (m : FrequencyMap) (h : NodupKeys m) (a b : Str × Nat)
    (ha : a ∈ m) (hb : b ∈ m) (hab : a.1 = b.1) : a = b :=
  List.inj_on_of_nodup_map h ha hb hab

/-! ## Frequency counting -/

theorem mapFind_increment (m : FrequencyMap) (tok t : Str) :
    mapFind (increment m tok) t =
      if tok = t then some ((mapFind m t).getD 0 + 1) else mapFind m t := by
  induction m with
  | nil =>
    by_cases h : tok = t <;> simp [increment, mapFind, h]
  | cons e rest ih =>
    obtain ⟨k, c⟩ := e
    by_cases hk : k = tok
    · subst hk
      by_cases h : k = t <;> simp [increment, mapFind, h]
    · by_cases h : tok = t
      · subst h
        simp [increment, mapFind, hk, ih]
      · by_cases hkt : k = t
        · subst hkt
          simp [increment, mapFind, hk, h]
        · simp [increment, mapFind, hk, h, hkt, ih]

theorem mapFind_foldl_increment (tokens : List Str) (acc : FrequencyMap) (t : Str) :
    mapFind (tokens.foldl increment acc) t =
      if tokens.count t = 0 then mapFind acc t
      else some ((mapFind acc t).getD 0 + tokens.count t) := by
  induction tokens generalizing acc with
  | nil => simp
  | cons x xs ih =>
    simp only [List.foldl_cons]
    rw [ih, mapFind_increment]
    by_cases hx : x = t
    · subst hx
      by_cases hc : List.count x xs = 0
      · simp [hc]
      · simp [hc]; omega
    · have hcount : List.count t (x :: xs) = List.count t xs := by
        rw [List.count_cons]; simp [hx]
      rw [hcount, if_neg hx]

theorem keys_increment (m : FrequencyMap) (tok : Str) :
    (increment m tok).map Prod.fst =
      if tok ∈ m.map Prod.fst then m.map Prod.fst else m.map Prod.fst ++ [tok] := by
  induction m with
  | nil => simp [increment]
  | cons e rest ih =>
    obtain ⟨k, c⟩ := e
    by_cases hk : k = tok
    · subst hk
      simp [increment]
    · have hk2 : ¬ tok = k := fun h => hk h.symm
      simp only [increment, if_neg hk, List.map_cons, ih, List.mem_cons, hk2, false_or]
      split <;> simp

theorem nodupKeys_increment (m : FrequencyMap) (tok : Str) (h : NodupKeys m) :
    NodupKeys (increment m tok) := by
  unfold NodupKeys at h ⊢
  rw [keys_increment]
  split
  · exact h
  · rename_i hmem
    rw [List.nodup_append]
    refine ⟨h, by simp, ?_⟩
    intro a ha hb
    rw [List.mem_singleton] at hb
    subst hb
    exact hmem ha

theorem nodupKeys_foldl_increment (tokens : List Str) (acc : FrequencyMap)
    (h : NodupKeys acc) : NodupKeys (tokens.foldl increment acc) := by
  induction tokens generalizing acc with
  | nil => simpa using h
  | cons x xs ih =>
    simp only [List.foldl_cons]
    exact ih _ (nodupKeys_increment acc x h)

theorem mapFind_isSome_iff (m : FrequencyMap) (t : Str) :
    (mapFind m t).isSome = true ↔ t ∈ m.map Prod.fst := by
  induction m with
  | nil => simp [mapFind]
  | cons e rest ih =>
    obtain ⟨k, c⟩ := e
    by_cases hk : k = t
    · simp [mapFind, hk]
    · have hk2 : ¬ t = k := fun h => hk h.symm
      simp [mapFind, hk, hk2, ih]

/-! ## Claims on the keyword extractor -/

/-- C7. The sequence returned by `topKeywords` is ordered by count descending and,
among entries of equal count, by token ascending; every enumeration of the map
`{a:3, b:1, c:1}` gives `[(a,3), (b,1)]` at limit 2. -/
theorem topKeywords_ordered (freq : FrequencyMap) (limit : Nat) :
    (topKeywords freq limit).Pairwise
      (fun a b => b.2 < a.2 ∨ (a.2 = b.2 ∧ (a.1 = b.1 ∨ strLt a.1 b.1 = true))) ∧
    (∀ m ∈ [[("a".toList, 3), ("b".toList, 1), ("c".toList, 1)],
            [("a".toList, 3), ("c".toList, 1), ("b".toList, 1)],
            [("b".toList, 1), ("a".toList, 3), ("c".toList, 1)],
            [("b".toList, 1), ("c".toList, 1), ("a".toList, 3)],
            [("c".toList, 1), ("a".toList, 3), ("b".toList, 1)],
            [("c".toList, 1), ("b".toList, 1), ("a".toList, 3)]],
      topKeywords m 2 = [("a".toList, 3), ("b".toList, 1)]) := by
  refine ⟨?_, by decide⟩
  rw [topKeywords_eq_take]
  refine List.Pairwise.imp ?_
    ((sortBy_rankBefore_sorted freq).sublist (List.take_sublist limit _))
  intro a b h
  exact rankBefore_false_iff a b h

/-- For a map with distinct keys, the sorted entries are strictly ordered by the ranking
comparator: each entry ranks before every entry that follows it. -/
theorem sortBy_rankBefore_strict (freq : FrequencyMap) (hnd : NodupKeys freq) :
    (sortBy rankBefore freq).Pairwise (fun a b => rankBefore a b = true) := by
  have hperm := sortBy_perm rankBefore freq
  have hkeys : (sortBy rankBefore freq).Pairwise (fun a b => a.1 ≠ b.1) := by
    have h1 : ((sortBy rankBefore freq).map Prod.fst).Nodup :=
      ((hperm.map Prod.fst).nodup_iff).2 hnd
    exact List.pairwise_map.1 h1
  refine List.Pairwise.imp ?_ (hkeys.and (sortBy_rankBefore_sorted freq))
  intro a b h
  exact rankBefore_of_not_after b a (Ne.symm h.1) h.2

/-- C8. For a map with distinct keys, the full ranking `topKeywords freq |freq|` holds
exactly the entries of `freq`, each ranking before every entry after it, and
`topKeywords freq k` is its prefix of length `min k |freq|`: the result has that length,
and every entry of `freq` that is left out ranks after every entry returned. -/
theorem topKeywords_truncation (freq : FrequencyMap) (k : Nat) (hnd : NodupKeys freq) :
    (topKeywords freq freq.length).Perm freq ∧
    (topKeywords freq freq.length).Pairwise (fun a b => rankBefore a b = true) ∧
    topKeywords freq k = (topKeywords freq freq.length).take (min k freq.length) ∧
    (topKeywords freq k).length = min k freq.length ∧
    (∀ e ∈ freq, e ∉ topKeywords freq k →
      ∀ r ∈ topKeywords freq k, rankBefore r e = true) := by
  have hlen := sortBy_length rankBefore freq
  have hfull : topKeywords freq freq.length = sortBy rankBefore freq := by
    rw [topKeywords_eq_take, List.take_of_length_le (by omega)]
  refine ⟨?_, ?_, ?_, ?_, ?_⟩
  · rw [hfull]
    exact sortBy_perm rankBefore freq
  · rw [hfull]
    exact sortBy_rankBefore_strict freq hnd
  · rw [topKeywords_eq_take, topKeywords_eq_take, List.take_take]
    by_cases hk : k ≤ freq.length
    · congr 1
      omega
    · rw [List.take_of_length_le (by omega), List.take_of_length_le (by omega)]
  · rw [topKeywords_eq_take, List.length_take, hlen]
  · intro e he hout r hr
    rw [topKeywords_eq_take] at hout hr
    have hsorted := sortBy_rankBefore_sorted freq
    have hmem : e ∈ sortBy rankBefore freq := (sortBy_perm rankBefore freq).mem_iff.2 he
    rw [← List.take_append_drop k (sortBy rankBefore freq)] at hsorted hmem
    have hdrop : e ∈ (sortBy rankBefore freq).drop k := by
      rcases List.mem_append.1 hmem with h | h
      · exact absurd h hout
      · exact h
    have hfalse : rankBefore e r = false := (List.pairwise_append.1 hsorted).2.2 r hr e hdrop
    have hrfreq : r ∈ freq :=
      (sortBy_perm rankBefore freq).mem_iff.1 (List.mem_of_mem_take hr)
    have hne : e.1 ≠ r.1 := by
      intro h
      have := nodupKeys_inj freq hnd e r he hrfreq h
      subst this
      exact hout hr
    exact rankBefore_of_not_after e r hne hfalse

/-- Witness of C8: the map `{c:1, a:3, b:1}` at limit 2. -/
theorem topKeywords_truncation_witness :
    (topKeywords [("c".toList, 1), ("a".toList, 3), ("b".toList, 1)] 3).Perm
        [("c".toList, 1), ("a".toList, 3), ("b".toList, 1)] ∧
    (topKeywords [("c".toList, 1), ("a".toList, 3), ("b".toList, 1)] 3).Pairwise
        (fun a b => rankBefore a b = true) ∧
    topKeywords [("c".toList, 1), ("a".toList, 3), ("b".toList, 1)] 2 =
        (topKeywords [("c".toList, 1), ("a".toList, 3), ("b".toList, 1)] 3).take (min 2 3) ∧
    (topKeywords [("c".toList, 1), ("a".toList, 3), ("b".toList, 1)] 2).length = min 2 3 ∧
    (∀ e ∈ [("c".toList, 1), ("a".toList, 3), ("b".toList, 1)],
      e ∉ topKeywords [("c".toList, 1), ("a".toList, 3), ("b".toList, 1)] 2 →
      ∀ r ∈ topKeywords [("c".toList, 1), ("a".toList, 3), ("b".toList, 1)] 2,
        rankBefore r e = true) :=
  topKeywords_truncation [("c".toList, 1), ("a".toList, 3), ("b".toList, 1)] 2 (by decide)

/-- C9. The ranking at limit `0` is empty, the length of the result is
`min limit |freq|`, and at a limit of at least `|freq|` the result is a rearrangement
of the entries of `freq` (each entry once, nothing added), without repetition when
the keys of `freq` are distinct. -/
theorem topKeywords_limits (freq : FrequencyMap) (limit : Nat) :
    topKeywords freq 0 = [] ∧
    (topKeywords freq limit).length = min limit freq.length ∧
    (freq.length ≤ limit → (topKeywords freq limit).Perm freq) ∧
    (NodupKeys freq → (topKeywords freq limit).Nodup) := by
  have hlen := sortBy_length rankBefore freq
  refine ⟨?_, ?_, ?_, ?_⟩
  · rw [topKeywords_eq_take]; rfl
  · rw [topKeywords_eq_take, List.length_take, hlen]
  · intro h
    rw [topKeywords_eq_take, List.take_of_length_le (by omega)]
    exact sortBy_perm rankBefore freq
  · intro hnd
    rw [topKeywords_eq_take]
    have h1 : (sortBy rankBefore freq).Nodup :=
      (sortBy_perm rankBefore freq).nodup_iff.2 (List.Nodup.of_map Prod.fst hnd)
    exact h1.sublist (List.take_sublist limit _)

/-- C10. In `frequency tokens` the count stored under `t` is the number of occurrences
of `t` in `tokens`, and `t` is a key exactly when it occurs; the keys are distinct, and
the tokens `a b a c a` give the map `{a:3, b:1, c:1}`. -/
theorem frequency_counts (tokens : List Str) (t : Str) :
    mapFind (frequency tokens) t =
      (if tokens.count t = 0 then none else some (tokens.count t)) ∧
    (t ∈ (frequency tokens).map Prod.fst ↔ 1 ≤ tokens.count t) ∧
    NodupKeys (frequency tokens) ∧
    (frequency ["a".toList, "b".toList, "a".toList, "c".toList, "a".toList]).Perm
      [("a".toList, 3), ("b".toList, 1), ("c".toList, 1)] := by
  have hfind : mapFind (frequency tokens) t =
      (if tokens.count t = 0 then none else some (tokens.count t)) := by
    unfold frequency
    rw [mapFind_foldl_increment]
    simp [mapFind]
  refine ⟨hfind, ?_, ?_, ?_⟩
  · rw [← mapFind_isSome_iff, hfind]
    by_cases h : tokens.count t = 0
    · simp [h]
    · simp [h, Nat.one_le_iff_ne_zero]
  · exact nodupKeys_foldl_increment tokens [] (by simp [NodupKeys])
  · have h : frequency ["a".toList, "b".toList, "a".toList, "c".toList, "a".toList] =
        [("a".toList, 3), ("b".toList, 1), ("c".toList, 1)] := by decide
    rw [h]

/-! ## Substring search and masking -/

theorem isPrefixOf_iff_append (p l : Str) :
    p.isPrefixOf l = true ↔ ∃ t, l = p ++ t := by
  induction p generalizing l with
  | nil => simp
  | cons a p ih =>
    cases l with
    | nil => simp
    | cons b l =>
      simp only [List.isPrefixOf, Bool.and_eq_true, beq_iff_eq, ih, List.cons_append,
        List.cons.injEq]
      constructor
      · rintro ⟨rfl, t, rfl⟩
        exact ⟨t, rfl, rfl⟩
      · rintro ⟨t, rfl, rfl⟩
        exact ⟨rfl, t, rfl⟩

theorem strFind_some (hay needle : Str) (n : Nat) (h : strFind hay needle = some n) :
    (∃ post, hay = hay.take n ++ needle ++ post) ∧ n ≤ hay.length ∧
    ∀ pre post, hay = pre ++ needle ++ post → n ≤ pre.length := by
  induction hay generalizing n with
  | nil =>
    unfold strFind at h
    split at h
    · rename_i hempty
      cases h
      refine ⟨⟨[], ?_⟩, Nat.le_refl _, fun _ _ _ => Nat.zero_le _⟩
      simpa using hempty
    · cases h
  | cons c rest ih =>
    unfold strFind at h
    split at h
    · rename_i hpre
      cases h
      obtain ⟨t, ht⟩ := (isPrefixOf_iff_append _ _).1 hpre
      exact ⟨⟨t, by simpa using ht⟩, Nat.zero_le _, fun _ _ _ => Nat.zero_le _⟩
    · rename_i hpre
      cases hrest : strFind rest needle with
      | none => rw [hrest] at h; cases h
      | some m =>
        rw [hrest] at h
        simp only [Option.map_some', Option.some.injEq] at h
        subst h
        obtain ⟨⟨post, hpost⟩, hle, hleast⟩ := ih m hrest
        refine ⟨⟨post, ?_⟩, by simpa using hle, ?_⟩
        · simp only [List.take_succ_cons, List.cons_append, List.cons.injEq, true_and]
          simpa using hpost
        · intro pre post2 hdecomp
          cases pre with
          | nil =>
            exact absurd ((isPrefixOf_iff_append _ _).2 ⟨post2, by simpa using hdecomp⟩) hpre
          | cons d pre2 =>
            simp only [List.cons_append, List.cons.injEq] at hdecomp
            have := hleast pre2 post2 (by simpa using hdecomp.2)
            simpa using this

theorem strFind_none (hay needle : Str) (h : strFind hay needle = none)
    (pre post : Str) : hay ≠ pre ++ needle ++ post := by
  induction hay generalizing pre with
  | nil =>
    unfold strFind at h
    split at h
    · cases h
    · rename_i hempty
      intro hdecomp
      have : needle = [] := by
        have h2 := congrArg List.length hdecomp
        simp only [List.length_nil, List.length_append] at h2
        exact List.length_eq_zero.1 (by omega)
      exact hempty (by simp [this])
  | cons c rest ih =>
    unfold strFind at h
    split at h
    · cases h
    · rename_i hpre
      have hrest : strFind rest needle = none := by
        cases hr : strFind rest needle with
        | none => rfl
        | some m => rw [hr] at h; cases h
      intro hdecomp
      cases pre with
      | nil =>
        exact hpre ((isPrefixOf_iff_append _ _).2 ⟨post, by simpa using hdecomp⟩)
      | cons d pre2 =>
        simp only [List.cons_append, List.cons.injEq] at hdecomp
        exact ih hrest pre2 (by simpa using hdecomp.2)

theorem lower_append (a b : Str) : lower (a ++ b) = lower a ++ lower b := by
  simp [lower]

theorem lower_length (a : Str) : (lower a).length = a.length := by
  simp [lower]

/-- An occurrence of the keyword in the text gives an occurrence of the lowered keyword
in the lowered text. -/
theorem occursAt_lower (text keyword pre mid post : Str)
    (h : OccursAt text keyword pre mid post) :
    lower text = lower pre ++ lower keyword ++ lower post := by
  rw [h.1, lower_append, lower_append, h.2]

/-- The span found by the search of `maskKeyword` is an occurrence of the keyword. -/
theorem occursAt_of_strFind (text keyword : Str) (n : Nat)
    (hfind : strFind (lower text) (lower keyword) = some n) :
    OccursAt text keyword (text.take n) ((text.drop n).take keyword.length)
      (text.drop (n + keyword.length)) := by
  obtain ⟨⟨q, hq⟩, hle, _⟩ := strFind_some _ _ n hfind
  rw [lower_length] at hle
  constructor
  · have hdrop : text.drop (n + keyword.length) = (text.drop n).drop keyword.length := by
      rw [List.drop_drop, Nat.add_comm]
    rw [hdrop, List.append_assoc, List.take_append_drop, List.take_append_drop]
  · have hlen : ((lower text).take n).length = n := by
      simp [lower_length, hle]
    have h1 : (lower text).drop n = lower keyword ++ q := by
      have h2 := congrArg (List.drop n) hq
      rw [List.append_assoc, List.drop_left' hlen] at h2
      exact h2
    have h3 : ((lower text).drop n).take keyword.length = lower keyword := by
      rw [h1, ← lower_length keyword, List.take_left]
    rw [← h3]
    simp [lower, List.map_take, List.map_drop]

/-- The search of `maskKeyword` succeeds exactly when the keyword occurs ignoring case. -/
theorem occurs_iff_strFind (text keyword : Str) :
    (∃ pre mid post, OccursAt text keyword pre mid post) ↔
      strFind (lower text) (lower keyword) ≠ none := by
  constructor
  · rintro ⟨pre, mid, post, h⟩ hnone
    exact strFind_none _ _ hnone _ _ (occursAt_lower _ _ _ _ _ h)
  · intro hsome
    cases hfind : strFind (lower text) (lower keyword) with
    | none => exact absurd hfind hsome
    | some n => exact ⟨_, _, _, occursAt_of_strFind text keyword n hfind⟩

/-- C5. When the keyword occurs in the text ignoring case, `maskKeyword` returns the
text with exactly the characters of the leftmost such occurrence removed, all other
characters being kept as they are; masking `cat` out of `The Cat sat` gives `The  sat`
with two spaces. -/
theorem maskKeyword_removes_first_occurrence (text keyword : Str)
    (hocc : ∃ pre mid post, OccursAt text keyword pre mid post) :
    (∃ pre mid post, OccursAt text keyword pre mid post ∧
      (∀ pre2 mid2 post2, OccursAt text keyword pre2 mid2 post2 →
        pre.length ≤ pre2.length) ∧
      maskKeyword text keyword = pre ++ post) ∧
    maskKeyword "The Cat sat".toList "cat".toList = "The  sat".toList := by
  refine ⟨?_, by decide⟩
  have hsome := (occurs_iff_strFind text keyword).1 hocc
  cases hfind : strFind (lower text) (lower keyword) with
  | none => exact absurd hfind hsome
  | some n =>
    obtain ⟨_, hle, hleast⟩ := strFind_some _ _ n hfind
    rw [lower_length] at hle
    refine ⟨text.take n, (text.drop n).take keyword.length,
      text.drop (n + keyword.length), occursAt_of_strFind text keyword n hfind, ?_, ?_⟩
    · intro pre2 mid2 post2 h2
      have := hleast _ _ (occursAt_lower _ _ _ _ _ h2)
      rw [lower_length] at this
      simpa [List.length_take, Nat.min_eq_left hle] using this
    · unfold maskKeyword
      rw [hfind]
      rfl

/-- Witness of C5: the keyword `cat` occurs in `The Cat sat` as `Cat`. -/
theorem maskKeyword_removes_first_occurrence_witness :
    (∃ pre mid post, OccursAt "The Cat sat".toList "cat".toList pre mid post ∧
      (∀ pre2 mid2 post2, OccursAt "The Cat sat".toList "cat".toList pre2 mid2 post2 →
        pre.length ≤ pre2.length) ∧
      maskKeyword "The Cat sat".toList "cat".toList = pre ++ post) ∧
    maskKeyword "The Cat sat".toList "cat".toList = "The  sat".toList :=
  maskKeyword_removes_first_occurrence "The Cat sat".toList "cat".toList
    ⟨"The ".toList, "Cat".toList, " sat".toList, by decide, by decide⟩

/-- C6. When the keyword does not occur in the text ignoring case, `maskKeyword`
returns the text unchanged. -/
theorem maskKeyword_fallback (text keyword : Str)
    (hno : ¬ ∃ pre mid post, OccursAt text keyword pre mid post) :
    maskKeyword text keyword = text := by
  have hnone : strFind (lower text) (lower keyword) = none := by
    by_contra h
    exact hno ((occurs_iff_strFind text keyword).2 h)
  unfold maskKeyword
  rw [hnone]

/-- Witness of C6: the keyword `graph` does not occur in `Trees, and Nodes!`. -/
theorem maskKeyword_fallback_witness :
    maskKeyword "Trees, and Nodes!".toList "graph".toList = "Trees, and Nodes!".toList :=
  maskKeyword_fallback "Trees, and Nodes!".toList "graph".toList
    (by rw [occurs_iff_strFind]; decide)

/-! ## Line scorer -/

theorem foldl_max_spec (rest : FrequencyMap) (e : Str × Nat) :
    let r := rest.foldl (fun best x => if best.2 < x.2 then x else best) e
    (r = e ∨ r ∈ rest) ∧ e.2 ≤ r.2 ∧ ∀ x ∈ rest, x.2 ≤ r.2 := by
  induction rest generalizing e with
  | nil => simp
  | cons y ys ih =>
    simp only [List.foldl_cons]
    by_cases hlt : e.2 < y.2
    · rw [if_pos hlt]
      obtain ⟨h1, h2, h3⟩ := ih y
      refine ⟨?_, by omega, ?_⟩
      · rcases h1 with h1 | h1
        · exact Or.inr (by rw [h1]; exact List.mem_cons_self _ _)
        · exact Or.inr (List.mem_cons_of_mem _ h1)
      · intro x hx
        rcases List.mem_cons.1 hx with rfl | hx
        · exact h2
        · exact h3 x hx
    · rw [if_neg hlt]
      obtain ⟨h1, h2, h3⟩ := ih e
      refine ⟨?_, h2, ?_⟩
      · rcases h1 with h1 | h1
        · exact Or.inl h1
        · exact Or.inr (List.mem_cons_of_mem _ h1)
      · intro x hx
        rcases List.mem_cons.1 hx with rfl | hx
        · omega
        · exact h3 x hx

/-- The entry returned by `maxElement` is an entry of the map of greatest count. -/
theorem maxElement_spec (freq : FrequencyMap) (m : Str × Nat)
    (h : maxElement freq = some m) : m ∈ freq ∧ ∀ x ∈ freq, x.2 ≤ m.2 := by
  cases freq with
  | nil => simp [maxElement] at h
  | cons e rest =>
    simp only [maxElement, Option.some.injEq] at h
    obtain ⟨h1, h2, h3⟩ := foldl_max_spec rest e
    rw [h] at h1 h2 h3
    refine ⟨?_, ?_⟩
    · rcases h1 with h1 | h1
      · rw [h1]; exact List.mem_cons_self _ _
      · exact List.mem_cons_of_mem _ h1
    · intro x hx
      rcases List.mem_cons.1 hx with rfl | hx
      · exact h2
      · exact h3 x hx

theorem maxElement_isSome (freq : FrequencyMap) (h : freq ≠ []) :
    ∃ m, maxElement freq = some m := by
  cases freq with
  | nil => exact absurd rfl h
  | cons e rest => exact ⟨_, rfl⟩

theorem dbl_fin_add_fin (a b : ℚ) : Dbl.fin a + Dbl.fin b = Dbl.fin (a + b) := rfl

theorem dbl_fin_mul_fin (a b : ℚ) : Dbl.fin a * Dbl.fin b = Dbl.fin (a * b) := rfl

theorem dbl_fin_div_fin (a b : ℚ) (hb : b ≠ 0) :
    Dbl.fin a / Dbl.fin b = Dbl.fin (a / b) := by
  show Dbl.div (Dbl.fin a) (Dbl.fin b) = Dbl.fin (a / b)
  simp [Dbl.div, hb]

theorem dbl_zero_div_zero : Dbl.fin 0 / Dbl.fin 0 = Dbl.nan := by
  show Dbl.div (Dbl.fin 0) (Dbl.fin 0) = Dbl.nan
  simp [Dbl.div]

theorem dbl_nan_add (x : Dbl) : Dbl.nan + x = Dbl.nan := by
  cases x <;> rfl

theorem dbl_add_nan (x : Dbl) : x + Dbl.nan = Dbl.nan := by
  cases x <;> rfl

theorem dbl_nan_mul (x : Dbl) : Dbl.nan * x = Dbl.nan := by
  cases x <;> rfl

theorem dbl_nan_div (x : Dbl) : Dbl.nan / x = Dbl.nan := by
  cases x <;> rfl

theorem dbl_min_fin_fin (a b : ℚ) : Dbl.min (Dbl.fin a) (Dbl.fin b) = Dbl.fin (min a b) := by
  unfold Dbl.min
  simp only [Dbl.lt]
  by_cases h : b < a
  · simp [h, min_eq_right (le_of_lt h)]
  · simp [h, min_eq_left (not_lt.1 h)]

theorem dbl_lt_irrefl (a : Dbl) : Dbl.lt a a = false := by
  cases a <;> simp [Dbl.lt]

theorem dbl_lt_trans (a b c : Dbl) (hab : Dbl.lt a b = true) (hbc : Dbl.lt b c = true) :
    Dbl.lt a c = true := by
  cases a <;> cases b <;> cases c <;> simp_all [Dbl.lt]
  exact lt_trans hab hbc

/-- A NaN is in no order relation with any value. -/
theorem dbl_not_le_nan (x : Dbl) : ¬ x ≤ Dbl.nan ∧ ¬ Dbl.nan ≤ x := by
  constructor
  · show ¬ Dbl.le x Dbl.nan = true
    cases x <;> simp [Dbl.le]
  · show ¬ Dbl.le Dbl.nan x = true
    simp [Dbl.le]

theorem keywordScore_foldl (tokens : List Str) (freq : FrequencyMap) (maxFreq : Nat)
    (hpos : 0 < maxFreq) (acc : ℚ) :
    tokens.foldl
      (fun acc token =>
        match mapFind freq token with
        | some c => acc + Dbl.ofNat c / Dbl.ofNat maxFreq
        | none => acc) (Dbl.fin acc) =
    Dbl.fin (acc + (tokens.map (fun t =>
            match mapFind freq t with
            | some c => (c : ℚ) / (maxFreq : ℚ)
            | none => 0)).sum) := by
  have hq : (maxFreq : ℚ) ≠ 0 := by exact_mod_cast (Nat.pos_iff_ne_zero.1 hpos)
  induction tokens generalizing acc with
  | nil => simp
  | cons t ts ih =>
    simp only [List.foldl_cons, List.map_cons, List.sum_cons]
    cases hf : mapFind freq t with
    | none =>
      simp only
      rw [ih]
      simp
    | some c =>
      simp only [Dbl.ofNat]
      rw [dbl_fin_div_fin _ _ hq, dbl_fin_add_fin]
      have := ih (acc + (c : ℚ) / (maxFreq : ℚ))
      simp only [Dbl.ofNat] at this
      rw [this, add_assoc]

/-- For a positive maximum count, the score given to a line with tokens is finite and
follows the formula. -/
theorem scoreLine_score (line : ProcessedLine) (freq : FrequencyMap) (maxFreq : Nat)
    (hpos : 0 < maxFreq) (htok : line.tokens ≠ []) :
    (scoreLine line freq (Dbl.ofNat maxFreq)).score =
      Dbl.fin (specLineScore freq maxFreq line.tokens) := by
  have hlen : ((line.tokens.length : ℕ) : ℚ) ≠ 0 := by
    have : line.tokens.length ≠ 0 := fun h => htok (List.length_eq_zero.1 h)
    exact_mod_cast this
  unfold scoreLine specLineScore keywordScore
  simp only
  rw [keywordScore_foldl line.tokens freq maxFreq hpos 0]
  simp only [Dbl.ofNat]
  rw [dbl_fin_div_fin _ _ hlen, dbl_fin_div_fin _ _ (by norm_num), dbl_min_fin_fin,
    dbl_fin_mul_fin, dbl_fin_mul_fin, dbl_fin_add_fin]
  congr 1
  ring

theorem scored_foldl (lines : List ProcessedLine) (freq : FrequencyMap) (maxFreq : Dbl)
    (acc : List ScoredLine) :
    lines.foldl
      (fun acc line =>
        if line.tokens.isEmpty then acc else acc ++ [scoreLine line freq maxFreq]) acc =
    acc ++ (lines.filter (fun l => !l.tokens.isEmpty)).map
      (fun l => scoreLine l freq maxFreq) := by
  induction lines generalizing acc with
  | nil => simp
  | cons l ls ih =>
    simp only [List.foldl_cons]
    rw [ih]
    by_cases h : l.tokens.isEmpty = true
    · simp [h]
    · simp [h]

/-- The output of `score` is a rearrangement of the scored lines with tokens. -/
theorem score_perm (lines : List ProcessedLine) (freq : FrequencyMap) (m : Str × Nat)
    (hlines : lines ≠ []) (hm : maxElement freq = some m) :
    (score lines freq).Perm
      ((lines.filter (fun l => !l.tokens.isEmpty)).map
        (fun l => scoreLine l freq (Dbl.ofNat m.2))) := by
  have hfreq : freq ≠ [] := by
    intro h; rw [h] at hm; simp [maxElement] at hm
  unfold score
  have h1 : (lines.isEmpty || freq.isEmpty) = false := by
    cases lines with
    | nil => exact absurd rfl hlines
    | cons _ _ =>
      cases freq with
      | nil => exact absurd rfl hfreq
      | cons _ _ => rfl
  rw [h1, hm]
  simp only [Bool.false_eq_true, if_false]
  rw [scored_foldl]
  simpa using sortBy_perm _ _

/-- C1. For non-empty `lines` and a non-empty map whose maximum count `maxFreq` is
positive, every line with at least one token receives, over the rationals, the score
`0.8 * ((sum over its tokens found in the map of freq[t] / maxFreq) / n) +
0.2 * min(1, n / 20)`, and every scored line of the output carries this score. -/
theorem score_formula (lines : List ProcessedLine) (freq : FrequencyMap) (maxFreq : Nat)
    (hlines : lines ≠ []) (hfreq : freq ≠ [])
    (hmem : ∃ e ∈ freq, e.2 = maxFreq) (hmax : ∀ e ∈ freq, e.2 ≤ maxFreq)
    (hpos : 0 < maxFreq) :
    (∀ l ∈ lines, l.tokens ≠ [] →
      ({ line := l, score := Dbl.fin (specLineScore freq maxFreq l.tokens) } : ScoredLine) ∈
        score lines freq) ∧
    (∀ s ∈ score lines freq, s.line ∈ lines ∧ s.line.tokens ≠ [] ∧
      s.score = Dbl.fin (specLineScore freq maxFreq s.line.tokens)) := by
  obtain ⟨m, hm⟩ := maxElement_isSome freq hfreq
  obtain ⟨hm1, hm2⟩ := maxElement_spec freq m hm
  have hmeq : m.2 = maxFreq := by
    obtain ⟨e, he, heq⟩ := hmem
    have h1 := hmax m hm1
    have h2 := hm2 e he
    omega
  have hperm := score_perm lines freq m hlines hm
  rw [hmeq] at hperm
  constructor
  · intro l hl htok
    rw [hperm.mem_iff, List.mem_map]
    refine ⟨l, ?_, ?_⟩
    · rw [List.mem_filter]
      refine ⟨hl, ?_⟩
      cases htk : l.tokens with
      | nil => exact absurd htk htok
      | cons _ _ => rfl
    · have := scoreLine_score l freq maxFreq hpos htok
      unfold scoreLine at this ⊢
      simp only at this ⊢
      rw [this]
  · intro s hs
    rw [hperm.mem_iff, List.mem_map] at hs
    obtain ⟨l, hl, rfl⟩ := hs
    rw [List.mem_filter] at hl
    have htok : l.tokens ≠ [] := by
      intro hnil
      have h2 := hl.2
      rw [hnil] at h2
      simp at h2
    exact ⟨hl.1, htok, scoreLine_score l freq maxFreq hpos htok⟩

/-- Witness of C1: two lines, one of them without tokens, and the map `{a:2, b:1}`. -/
theorem score_formula_witness :
    (∀ l ∈ [({ original := "A b".toList, cleaned := "a b".toList,
                tokens := ["a".toList, "b".toList] } : ProcessedLine),
            { original := "!".toList, cleaned := " ".toList, tokens := [] }],
      l.tokens ≠ [] →
      ({ line := l,
         score := Dbl.fin (specLineScore [("a".toList, 2), ("b".toList, 1)] 2 l.tokens) } :
          ScoredLine) ∈
        score [{ original := "A b".toList, cleaned := "a b".toList,
                 tokens := ["a".toList, "b".toList] },
               { original := "!".toList, cleaned := " ".toList, tokens := [] }]
          [("a".toList, 2), ("b".toList, 1)]) ∧
    (∀ s ∈ score [{ original := "A b".toList, cleaned := "a b".toList,
                    tokens := ["a".toList, "b".toList] },
                  { original := "!".toList, cleaned := " ".toList, tokens := [] }]
          [("a".toList, 2), ("b".toList, 1)],
      s.line ∈ [({ original := "A b".toList, cleaned := "a b".toList,
                   tokens := ["a".toList, "b".toList] } : ProcessedLine),
                { original := "!".toList, cleaned := " ".toList, tokens := [] }] ∧
      s.line.tokens ≠ [] ∧
      s.score = Dbl.fin (specLineScore [("a".toList, 2), ("b".toList, 1)] 2 s.line.tokens)) :=
  score_formula _ [("a".toList, 2), ("b".toList, 1)] 2 (by simp) (by simp)
    ⟨("a".toList, 2), by simp, rfl⟩ (by decide) (by decide)

/-! ## Shuffling -/

theorem swapAt_perm {α : Type} [DecidableEq α] (l : List α) (i j : Nat) :
    (swapAt l i j).Perm l := by
  unfold swapAt
  cases hi : l[i]? with
  | none => exact List.Perm.refl _
  | some a =>
    cases hj : l[j]? with
    | none => exact List.Perm.refl _
    | some b =>
      simp only
      obtain ⟨hil, hia⟩ := List.getElem?_eq_some_iff.1 hi
      obtain ⟨hjl, hjb⟩ := List.getElem?_eq_some_iff.1 hj
      by_cases hij : i = j
      · subst hij
        have hab : a = b := by rw [← hia, ← hjb]
        subst hab
        rw [List.set_set, List.perm_iff_count]
        intro c
        rw [List.count_set _ _ _ _ hil, hia]
        have hpos : (if (a == c) = true then 1 else 0) ≤ List.count c l := by
          split
          · rename_i hac
            have : a = c := by simpa using hac
            subst this
            exact List.count_pos_iff.2 (hia ▸ List.getElem_mem _)
          · exact Nat.zero_le _
        omega
      · rw [List.perm_iff_count]
        intro c
        have hjl2 : j < (l.set i b).length := by simpa using hjl
        rw [List.count_set _ _ _ _ hjl2, List.count_set _ _ _ _ hil]
        have hget : (l.set i b)[j] = b := by
          rw [List.getElem_set_ne hij]; exact hjb
        rw [hget, hia]
        have hpos : (if (a == c) = true then 1 else 0) ≤ List.count c l := by
          split
          · rename_i hac
            have : a = c := by simpa using hac
            subst this
            exact List.count_pos_iff.2 (hia ▸ List.getElem_mem _)
          · exact Nat.zero_le _
        omega

theorem foldl_shuffleStep_perm {α : Type} [DecidableEq α] (is : List Nat)
    (st : List α × Rng) : (is.foldl shuffleStep st).1.Perm st.1 := by
  induction is generalizing st with
  | nil => exact List.Perm.refl _
  | cons i is ih =>
    simp only [List.foldl_cons]
    exact (ih _).trans (swapAt_perm _ _ _)

/-- The call `std::shuffle` rearranges its input. -/
theorem shuffle_perm {α : Type} [DecidableEq α] (l : List α) (g : Rng) :
    (shuffle l g).1.Perm l :=
  foldl_shuffleStep_perm _ (l, g)

/-! ## The answer label -/

theorem answerLabel_range (options : List Str) (keyword : Str) (n : Nat) :
    let r := (List.range n).foldl
      (fun answer i => if options[i]? = some keyword then Char.ofNat (65 + i) else answer)
      'A'
    (∃ i, i < n ∧ options[i]? = some keyword ∧ r = Char.ofNat (65 + i)) ∨
    ((∀ i, i < n → options[i]? ≠ some keyword) ∧ r = 'A') := by
  induction n with
  | zero => simp
  | succ n ih =>
    simp only [List.range_succ, List.foldl_append, List.foldl_cons, List.foldl_nil]
    by_cases h : options[n]? = some keyword
    · rw [if_pos h]
      exact Or.inl ⟨n, Nat.lt_succ_self n, h, rfl⟩
    · rw [if_neg h]
      rcases ih with ⟨i, hi, hopt, hr⟩ | ⟨hall, hr⟩
      · exact Or.inl ⟨i, Nat.lt_succ_of_lt hi, hopt, hr⟩
      · refine Or.inr ⟨?_, hr⟩
        intro i hi
        rcases Nat.lt_succ_iff_lt_or_eq.1 hi with hlt | rfl
        · exact hall i hlt
        · exact h

/-- When the keyword is among four options, the answer label is one of `A`..`D` and
names a slot that holds the keyword. -/
theorem answerLabel_spec (options : List Str) (keyword : Str)
    (hlen : options.length = 4) (hmem : keyword ∈ options) :
    answerLabel options keyword ∈ ['A', 'B', 'C', 'D'] ∧
    options[answerSlot (answerLabel options keyword)]? = some keyword := by
  unfold answerLabel
  rcases answerLabel_range options keyword options.length with ⟨i, hi, hopt, hr⟩ | ⟨hall, _⟩
  · rw [hr]
    rw [hlen] at hi
    have hcases : i = 0 ∨ i = 1 ∨ i = 2 ∨ i = 3 := by omega
    rcases hcases with rfl | rfl | rfl | rfl
    · exact ⟨by decide, hopt⟩
    · exact ⟨by decide, hopt⟩
    · exact ⟨by decide, hopt⟩
    · exact ⟨by decide, hopt⟩
  · obtain ⟨i, hi, hget⟩ := List.getElem_of_mem hmem
    exact absurd (List.getElem?_eq_some_iff.2 ⟨hi, hget⟩) (hall i hi)

/-! ## Building an MCQ -/

/-- The keyword search of `buildMcq` returns the first token of the line that is in the
keyword list, when it returns a non-empty string. -/
theorem findKeyword_spec (tokens keywords : List Str)
    (h : findKeyword tokens keywords ≠ []) :
    findKeyword tokens keywords ∈ keywords ∧
    findKeyword tokens keywords ∈ tokens ∧
    ∃ before after, tokens = before ++ findKeyword tokens keywords :: after ∧
      ∀ t ∈ before, t ∉ keywords := by
  unfold findKeyword at h ⊢
  cases hf : tokens.find? (fun t => decide (t ∈ keywords)) with
  | none => rw [hf] at h; exact absurd rfl h
  | some k =>
    simp only
    obtain ⟨hk, before, after, htok, hbefore⟩ := List.find?_eq_some.1 hf
    refine ⟨by simpa using hk, List.mem_of_find?_eq_some hf, before, after, htok, ?_⟩
    intro t ht
    simpa using hbefore t ht

/-- The shape of every MCQ returned by `buildMcq`. -/
theorem buildMcq_ok (line : ScoredLine) (keywords : List Str) (rng : Rng)
    (r : MCQ × Rng) (h : buildMcq line keywords rng = Except.ok r) :
    findKeyword line.line.tokens keywords ≠ [] ∧
    3 ≤ (keywords.filter (fun k => decide (k ≠ findKeyword line.line.tokens keywords))).length ∧
    r.1.prompt = mcqLeadIn ++
      maskKeyword line.line.original (findKeyword line.line.tokens keywords) ∧
    r.1.options.length = 4 ∧
    r.1.answer ∈ ['A', 'B', 'C', 'D'] ∧
    r.1.options[answerSlot r.1.answer]? = some (findKeyword line.line.tokens keywords) := by
  unfold buildMcq at h
  simp only at h
  split at h
  · cases h
  · rename_i hkw
    split at h
    · cases h
    · rename_i hdis
      simp only [Except.ok.injEq] at h
      subst h
      have hperm := shuffle_perm
        [findKeyword line.line.tokens keywords,
          (shuffle (keywords.filter
            (fun k => decide (k ≠ findKeyword line.line.tokens keywords))) rng).1.getD 0 [],
          (shuffle (keywords.filter
            (fun k => decide (k ≠ findKeyword line.line.tokens keywords))) rng).1.getD 1 [],
          (shuffle (keywords.filter
            (fun k => decide (k ≠ findKeyword line.line.tokens keywords))) rng).1.getD 2 []]
        (shuffle (keywords.filter
            (fun k => decide (k ≠ findKeyword line.line.tokens keywords))) rng).2
      have hlen := hperm.length_eq
      have hmem := hperm.mem_iff.2 (List.mem_cons_self _ _)
      simp only [List.length_cons, List.length_nil] at hlen
      have hspec := answerLabel_spec _ _ hlen hmem
      refine ⟨?_, by omega, rfl, hlen, hspec.1, hspec.2⟩
      intro hnil
      rw [hnil] at hkw
      exact hkw rfl

/-! ## The loops of `generate` -/

/-- Every MCQ gathered by the MCQ loop was there at the start or was built by
`buildMcq` from one of the lines visited. -/
theorem foldl_mcqStep_mem (keywordList : List Str) (cands : List ScoredLine)
    (st : List MCQ × Rng) (mcq : MCQ)
    (h : mcq ∈ (cands.foldl (mcqStep keywordList) st).1) :
    mcq ∈ st.1 ∨ ∃ line ∈ cands, ∃ g r, buildMcq line keywordList g = Except.ok r ∧
      r.1 = mcq := by
  induction cands generalizing st with
  | nil => exact Or.inl h
  | cons l ls ih =>
    simp only [List.foldl_cons] at h
    rcases ih _ h with h1 | ⟨line, hline, g, r, hb, hr⟩
    · unfold mcqStep at h1
      cases hb : buildMcq l keywordList st.2 with
      | error e =>
        rw [hb] at h1
        exact Or.inl h1
      | ok r =>
        rw [hb] at h1
        simp only [List.mem_append, List.mem_singleton] at h1
        rcases h1 with h1 | h1
        · exact Or.inl h1
        · exact Or.inr ⟨l, List.mem_cons_self _ _, st.2, r, hb, h1.symm⟩
    · exact Or.inr ⟨line, List.mem_cons_of_mem _ hline, g, r, hb, hr⟩

theorem generate_mcqs_mem (cfg : QuestionGenerator) (lines : List ScoredLine)
    (keywords : List (Str × Nat)) (rng : Rng) (mcq : MCQ)
    (h : mcq ∈ (generate cfg lines keywords rng).mcqs) :
    ∃ line ∈ lines, ∃ g r, buildMcq line (keywords.map Prod.fst) g = Except.ok r ∧
      r.1 = mcq := by
  unfold generate at h
  split at h
  · simp at h
  · simp only at h
    rcases foldl_mcqStep_mem _ _ _ _ h with h1 | ⟨line, hline, rest⟩
    · simp at h1
    · exact ⟨line, List.mem_of_mem_take hline, rest⟩

theorem foldl_fillStep (keywordList : List Str) (cands : List ScoredLine) (acc : List Str) :
    cands.foldl (fillStep keywordList) acc =
      acc ++ (cands.filterMap
        (fun l => (specFillKeyword keywordList l.line.tokens).map
          (maskKeyword l.line.original))).filter (fun q => !q.isEmpty) := by
  induction cands generalizing acc with
  | nil => simp
  | cons l ls ih =>
    simp only [List.foldl_cons]
    rw [ih]
    unfold fillStep buildFillBlank specFillKeyword containsKeyword
    simp only [List.filterMap_cons]
    cases hf : keywordList.find? (fun k => decide (k ∈ l.line.tokens)) with
    | none => simp
    | some k =>
      simp only [Option.map_some']
      by_cases hq : (maskKeyword l.line.original k).isEmpty = true
      · simp [hq]
      · simp [hq]

/-! ## Claims on the question generator -/

/-- C2. Every MCQ of the paper returned by `generate`, for every input and every
supply of random draws, has exactly 4 options and an answer label among `A`..`D`, and
the option at the slot named by the answer is the keyword that was masked out of the
line to build the prompt of that MCQ. -/
theorem generate_mcq_invariant (cfg : QuestionGenerator) (lines : List ScoredLine)
    (keywords : List (Str × Nat)) (rng : Rng) (mcq : MCQ)
    (h : mcq ∈ (generate cfg lines keywords rng).mcqs) :
    mcq.options.length = 4 ∧ mcq.answer ∈ ['A', 'B', 'C', 'D'] ∧
    ∃ line ∈ lines, ∃ kw, kw = findKeyword line.line.tokens (keywords.map Prod.fst) ∧
      kw ∈ line.line.tokens ∧ kw ∈ keywords.map Prod.fst ∧
      mcq.prompt = mcqLeadIn ++ maskKeyword line.line.original kw ∧
      mcq.options[answerSlot mcq.answer]? = some kw := by
  obtain ⟨line, hline, g, r, hb, rfl⟩ := generate_mcqs_mem cfg lines keywords rng mcq h
  obtain ⟨hkw, _, hprompt, hlen, hans, hslot⟩ := buildMcq_ok line _ g r hb
  obtain ⟨hmem, htok, _⟩ := findKeyword_spec _ _ hkw
  exact ⟨hlen, hans, line, hline, _, rfl, htok, hmem, hprompt, hslot⟩

/-- Witness of C2: a paper with one MCQ, built from the line `Graphs model things`
and five keywords. -/
theorem generate_mcq_invariant_witness :
    ({ prompt := mcqLeadIn ++ " model things".toList,
       options := ["x".toList, "z".toList, "y".toList, "graphs".toList],
       answer := 'D' } : MCQ).options.length = 4 ∧
    ({ prompt := mcqLeadIn ++ " model things".toList,
       options := ["x".toList, "z".toList, "y".toList, "graphs".toList],
       answer := 'D' } : MCQ).answer ∈ ['A', 'B', 'C', 'D'] ∧
    ∃ line ∈ [({ line := { original := "Graphs model things".toList,
                           cleaned := "graphs model things".toList,
                           tokens := ["graphs".toList, "model".toList, "things".toList] },
                 score := 1 } : ScoredLine)],
      ∃ kw, kw = findKeyword line.line.tokens
          ([("model".toList, 2), ("graphs".toList, 1), ("x".toList, 1), ("y".toList, 1),
            ("z".toList, 1)].map Prod.fst) ∧
        kw ∈ line.line.tokens ∧
        kw ∈ [("model".toList, 2), ("graphs".toList, 1), ("x".toList, 1), ("y".toList, 1),
            ("z".toList, 1)].map Prod.fst ∧
        ({ prompt := mcqLeadIn ++ " model things".toList,
           options := ["x".toList, "z".toList, "y".toList, "graphs".toList],
           answer := 'D' } : MCQ).prompt = mcqLeadIn ++ maskKeyword line.line.original kw ∧
        ({ prompt := mcqLeadIn ++ " model things".toList,
           options := ["x".toList, "z".toList, "y".toList, "graphs".toList],
           answer := 'D' } : MCQ).options[answerSlot
          ({ prompt := mcqLeadIn ++ " model things".toList,
             options := ["x".toList, "z".toList, "y".toList, "graphs".toList],
             answer := 'D' } : MCQ).answer]? = some kw :=
  generate_mcq_invariant
    { mcqCount := 5, fillCount := 5, shortCount := 5, longCount := 3 }
    [{ line := { original := "Graphs model things".toList,
                 cleaned := "graphs model things".toList,
                 tokens := ["graphs".toList, "model".toList, "things".toList] },
       score := 1 }]
    [("model".toList, 2), ("graphs".toList, 1), ("x".toList, 1), ("y".toList, 1),
      ("z".toList, 1)]
    [3, 1, 4, 1, 5, 8]
    { prompt := mcqLeadIn ++ " model things".toList,
      options := ["x".toList, "z".toList, "y".toList, "graphs".toList],
      answer := 'D' }
    (by decide)

/-- C3. For every line that yields an MCQ, the keyword used is the first token of the
line, in token order, that is a member of the keyword list, and the prompt is the fixed
lead-in followed by the original line with that keyword masked. With tokens `b a` and
keywords `a b c d` the keyword is `b`, not the best-ranked keyword `a`. -/
theorem buildMcq_keyword_and_prompt (line : ScoredLine) (keywords : List Str) (rng : Rng)
    (r : MCQ × Rng) (h : buildMcq line keywords rng = Except.ok r) :
    (∃ before kw after, line.line.tokens = before ++ kw :: after ∧
      kw ∈ keywords ∧ (∀ t ∈ before, t ∉ keywords) ∧
      r.1.prompt = "Identify the keyword that completes the statement:\n    ".toList ++
        maskKeyword line.line.original kw) ∧
    (∀ (g : Rng) (r2 : MCQ × Rng),
      buildMcq
        { line := { original := "b a".toList, cleaned := "b a".toList,
                    tokens := ["b".toList, "a".toList] },
          score := 1 }
        ["a".toList, "b".toList, "c".toList, "d".toList] g = Except.ok r2 →
      r2.1.prompt =
        "Identify the keyword that completes the statement:\n    ".toList ++ " a".toList) := by
  constructor
  · obtain ⟨hkw, _, hprompt, _⟩ := buildMcq_ok line keywords rng r h
    obtain ⟨hmem, _, before, after, htok, hbefore⟩ := findKeyword_spec _ _ hkw
    exact ⟨before, _, after, htok, hmem, hbefore, hprompt⟩
  · intro g r2 h2
    obtain ⟨_, _, hprompt, _⟩ := buildMcq_ok _ _ g r2 h2
    rw [hprompt]
    decide

/-- Witness of C3: the line `b a` with the keywords `a b c d` yields an MCQ. -/
theorem buildMcq_keyword_and_prompt_witness :
    (∃ before kw after, ["b".toList, "a".toList] = before ++ kw :: after ∧
      kw ∈ ["a".toList, "b".toList, "c".toList, "d".toList] ∧
      (∀ t ∈ before, t ∉ ["a".toList, "b".toList, "c".toList, "d".toList]) ∧
      mcqLeadIn ++ " a".toList =
        "Identify the keyword that completes the statement:\n    ".toList ++
          maskKeyword "b a".toList kw) ∧
    (∀ (g : Rng) (r2 : MCQ × Rng),
      buildMcq
        { line := { original := "b a".toList, cleaned := "b a".toList,
                    tokens := ["b".toList, "a".toList] },
          score := 1 }
        ["a".toList, "b".toList, "c".toList, "d".toList] g = Except.ok r2 →
      r2.1.prompt =
        "Identify the keyword that completes the statement:\n    ".toList ++ " a".toList) :=
  buildMcq_keyword_and_prompt
    { line := { original := "b a".toList, cleaned := "b a".toList,
                tokens := ["b".toList, "a".toList] },
      score := 1 }
    ["a".toList, "b".toList, "c".toList, "d".toList] [2, 7, 1, 8]
    ({ prompt := mcqLeadIn ++ " a".toList,
       options := ["a".toList, "c".toList, "d".toList, "b".toList],
       answer := 'D' }, [])
    rfl

/-- Counterexample to C4 as stated: the line `Graphs`, whose only token is the keyword
`graphs`, is among the lines visited and contains a keyword, but it contributes no
entry, because its masked text is empty. -/
theorem fillInBlanks_drops_empty_mask :
    (generate { mcqCount := 5, fillCount := 5, shortCount := 5, longCount := 3 }
      [{ line := { original := "Graphs".toList, cleaned := "graphs".toList,
                   tokens := ["graphs".toList] },
         score := 1 }]
      [("graphs".toList, 1)] []).fillInBlanks = [] ∧
    specFillInBlanks 5
      [{ line := { original := "Graphs".toList, cleaned := "graphs".toList,
                   tokens := ["graphs".toList] },
         score := 1 }]
      ["graphs".toList] = [[]] ∧
    (generate { mcqCount := 5, fillCount := 5, shortCount := 5, longCount := 3 }
      [{ line := { original := "Graphs".toList, cleaned := "graphs".toList,
                   tokens := ["graphs".toList] },
         score := 1 }]
      [("graphs".toList, 1)] []).fillInBlanks ≠
    specFillInBlanks 5
      [{ line := { original := "Graphs".toList, cleaned := "graphs".toList,
                   tokens := ["graphs".toList] },
         score := 1 }]
      ["graphs".toList] := by
  decide

/-- C4, amended. For non-empty `lines` and `keywords`, `fillInBlanks` consists, in line
order, of one entry for each of the first `fillCount` lines that contains a keyword and
whose masked text is not empty, the entry being the line with the first keyword in rank
order among its tokens masked; lines beyond the first `fillCount` are not used. -/
theorem fillInBlanks_rule (cfg : QuestionGenerator) (lines : List ScoredLine)
    (keywords : List (Str × Nat)) (rng : Rng)
    (hlines : lines ≠ []) (hkeywords : keywords ≠ []) :
    (generate cfg lines keywords rng).fillInBlanks =
      (specFillInBlanks cfg.fillCount lines (keywords.map Prod.fst)).filter
        (fun q => !q.isEmpty) ∧
    (∀ tokens k, specFillKeyword (keywords.map Prod.fst) tokens = some k →
      k ∈ tokens ∧ ∃ before after, keywords.map Prod.fst = before ++ k :: after ∧
        ∀ k2 ∈ before, k2 ∉ tokens) ∧
    (∀ tokens, specFillKeyword (keywords.map Prod.fst) tokens = none →
      ∀ k ∈ keywords.map Prod.fst, k ∉ tokens) := by
  refine ⟨?_, ?_, ?_⟩
  · unfold generate
    have h1 : (lines.isEmpty || keywords.isEmpty) = false := by
      cases lines with
      | nil => exact absurd rfl hlines
      | cons _ _ =>
        cases keywords with
        | nil => exact absurd rfl hkeywords
        | cons _ _ => rfl
    rw [h1]
    simp only [Bool.false_eq_true, if_false]
    rw [foldl_fillStep]
    rfl
  · intro tokens k hk
    unfold specFillKeyword at hk
    obtain ⟨hmem, before, after, hsplit, hbefore⟩ := List.find?_eq_some.1 hk
    refine ⟨by simpa using hmem, before, after, hsplit, ?_⟩
    intro k2 hk2
    simpa using hbefore k2 hk2
  · intro tokens hnone k hk
    unfold specFillKeyword at hnone
    simpa using List.find?_eq_none.1 hnone k hk

/-- Witness of C4, amended: two lines and two keywords, with one line visited. -/
theorem fillInBlanks_rule_witness :
    (generate { mcqCount := 5, fillCount := 1, shortCount := 5, longCount := 3 }
      [{ line := { original := "Trees are graphs".toList, cleaned := "trees are graphs".toList,
                   tokens := ["trees".toList, "graphs".toList] },
         score := 1 },
       { line := { original := "Graphs".toList, cleaned := "graphs".toList,
                   tokens := ["graphs".toList] },
         score := 0 }]
      [("graphs".toList, 2), ("trees".toList, 1)] []).fillInBlanks =
      (specFillInBlanks 1
        [{ line := { original := "Trees are graphs".toList,
                     cleaned := "trees are graphs".toList,
                     tokens := ["trees".toList, "graphs".toList] },
           score := 1 },
         { line := { original := "Graphs".toList, cleaned := "graphs".toList,
                     tokens := ["graphs".toList] },
           score := 0 }]
        ([("graphs".toList, 2), ("trees".toList, 1)].map Prod.fst)).filter
        (fun q => !q.isEmpty) ∧
    (∀ tokens k,
      specFillKeyword ([("graphs".toList, 2), ("trees".toList, 1)].map Prod.fst) tokens =
        some k →
      k ∈ tokens ∧ ∃ before after,
        [("graphs".toList, 2), ("trees".toList, 1)].map Prod.fst = before ++ k :: after ∧
        ∀ k2 ∈ before, k2 ∉ tokens) ∧
    (∀ tokens,
      specFillKeyword ([("graphs".toList, 2), ("trees".toList, 1)].map Prod.fst) tokens =
        none →
      ∀ k ∈ [("graphs".toList, 2), ("trees".toList, 1)].map Prod.fst, k ∉ tokens) :=
  fillInBlanks_rule
    { mcqCount := 5, fillCount := 1, shortCount := 5, longCount := 3 }
    [{ line := { original := "Trees are graphs".toList, cleaned := "trees are graphs".toList,
                 tokens := ["trees".toList, "graphs".toList] },
       score := 1 },
     { line := { original := "Graphs".toList, cleaned := "graphs".toList,
                 tokens := ["graphs".toList] },
       score := 0 }]
    [("graphs".toList, 2), ("trees".toList, 1)] [] (by simp) (by simp)

/-! ## Character classes -/

/-- A property of characters holds for all of them when it holds for the 128 ASCII
characters and for every character beyond them. -/
theorem char_cases (P : Char → Prop) (hascii : ∀ n, n < 128 → P (Char.ofNat n))
    (hhigh : ∀ c : Char, 128 ≤ c.toNat → P c) (c : Char) : P c := by
  by_cases h : c.toNat < 128
  · have := hascii c.toNat h
    rwa [Char.ofNat_toNat] at this
  · exact hhigh c (by omega)

theorem tolower_high (c : Char) (h : 128 ≤ c.toNat) : tolower c = c := by
  unfold tolower Char.toLower
  simp only
  rw [if_neg (by omega)]

theorem isalnum_high (c : Char) (h : 128 ≤ c.toNat) : isalnum c = false := by
  unfold isalnum
  simp only [decide_eq_false_iff_not]
  omega

theorem isspace_high (c : Char) (h : 128 ≤ c.toNat) : isspace c = false := by
  unfold isspace
  simp only [decide_eq_false_iff_not]
  omega

theorem normalizeChar_high (c : Char) (h : 128 ≤ c.toNat) : normalizeChar c = ' ' := by
  unfold normalizeChar
  rw [isalnum_high c h, isspace_high c h]
  rfl

/-- The character written by `normalize` is whitespace exactly when the character read
is not alphanumeric. -/
theorem isspace_normalizeChar (c : Char) : isspace (normalizeChar c) = !isalnum c := by
  refine char_cases (fun c => isspace (normalizeChar c) = !isalnum c) (by decide) ?_ c
  intro c h
  show isspace (normalizeChar c) = !isalnum c
  rw [normalizeChar_high c h, isalnum_high c h]
  rfl

/-- An alphanumeric character is written by `normalize` in lower case. -/
theorem normalizeChar_of_isalnum (c : Char) (h : (!isalnum c) = false) :
    normalizeChar c = tolower c := by
  unfold normalizeChar
  have : isalnum c = true := by simpa using h
  rw [this]
  rfl

/-- Every character written by `normalize` is a lower-case letter, a digit or
whitespace. -/
theorem normalizeChar_class (c : Char) :
    (97 ≤ (normalizeChar c).toNat ∧ (normalizeChar c).toNat ≤ 122) ∨
    (48 ≤ (normalizeChar c).toNat ∧ (normalizeChar c).toNat ≤ 57) ∨
    isspace (normalizeChar c) = true := by
  refine char_cases (fun c =>
    (97 ≤ (normalizeChar c).toNat ∧ (normalizeChar c).toNat ≤ 122) ∨
    (48 ≤ (normalizeChar c).toNat ∧ (normalizeChar c).toNat ≤ 57) ∨
    isspace (normalizeChar c) = true) (by decide) ?_ c
  intro c h
  show (97 ≤ (normalizeChar c).toNat ∧ (normalizeChar c).toNat ≤ 122) ∨
    (48 ≤ (normalizeChar c).toNat ∧ (normalizeChar c).toNat ≤ 57) ∨
    isspace (normalizeChar c) = true
  rw [normalizeChar_high c h]
  exact Or.inr (Or.inr (by decide))

/-! ## Normalisation and tokenisation -/

theorem foldl_push_map {α β : Type} (f : α → β) (l : List α) (acc : List β) :
    l.foldl (fun out x => out ++ [f x]) acc = acc ++ l.map f := by
  induction l generalizing acc with
  | nil => simp
  | cons x xs ih =>
    simp only [List.foldl_cons, List.map_cons]
    rw [ih]
    simp

theorem normalize_eq_map (line : Str) : normalize line = line.map normalizeChar := by
  unfold normalize
  rw [foldl_push_map]
  rfl

/-- The tokens read from a text are the non-empty pieces between separators: here the
text is the image under `f` of a source text, a character of which is written as
whitespace exactly when it is a separator, and as its image under `g` otherwise. -/
theorem tokenizeFrom_eq_runs (f g : Char → Char) (sep : Char → Bool)
    (hsep : ∀ c, isspace (f c) = sep c) (hfg : ∀ c, sep c = false → f c = g c)
    (rest cur : Str) :
    tokenizeFrom (rest.map f) (cur.map g) =
      ((List.modifyHead (fun r => cur ++ r) (rest.splitOnP sep)).filter
        (fun r => !r.isEmpty)).map (List.map g) := by
  induction rest generalizing cur with
  | nil =>
    cases cur with
    | nil => simp [tokenizeFrom, List.modifyHead]
    | cons a as => simp [tokenizeFrom, List.modifyHead]
  | cons c rest ih =>
    rw [List.map_cons, List.splitOnP_cons]
    unfold tokenizeFrom
    by_cases hc : sep c = true
    · rw [hsep c, hc, if_pos rfl, if_pos rfl]
      have ih0 := ih []
      simp only [List.map_nil, List.nil_append] at ih0
      have hid : List.modifyHead (fun r : Str => r) (List.splitOnP sep rest) =
          List.splitOnP sep rest := by
        cases List.splitOnP sep rest <;> rfl
      rw [hid] at ih0
      cases cur with
      | nil => simp [List.modifyHead, ih0]
      | cons a as => simp [List.modifyHead, ih0]
    · have hc2 : sep c = false := by simpa using hc
      rw [hsep c, hc2]
      simp only [Bool.false_eq_true, if_false]
      rw [hfg c hc2]
      have ih1 := ih (cur ++ [c])
      rw [List.map_append, List.map_cons, List.map_nil] at ih1
      rw [ih1, List.modifyHead_modifyHead]
      have hfun : (fun r : Str => cur ++ [c] ++ r) = (fun r => cur ++ r) ∘ List.cons c := by
        funext r
        simp
      rw [hfun]

theorem tokenize_eq_specRuns (text : Str) : tokenize text = specRuns isspace text := by
  have h := tokenizeFrom_eq_runs id id isspace (fun _ => rfl) (fun _ _ => rfl) text []
  simp only [List.map_id, List.map_nil, List.nil_append] at h
  unfold tokenize specRuns
  rw [h]
  have hid : List.modifyHead (fun r : Str => r) (List.splitOnP isspace text) =
      List.splitOnP isspace text := by
    cases List.splitOnP isspace text <;> rfl
  rw [hid]
  simp

theorem tokenize_normalize (line : Str) :
    tokenize (normalize line) = (specRuns (fun c => !isalnum c) line).map lower := by
  have h := tokenizeFrom_eq_runs normalizeChar tolower (fun c => !isalnum c)
    isspace_normalizeChar normalizeChar_of_isalnum line []
  simp only [List.map_nil, List.nil_append] at h
  unfold tokenize specRuns
  rw [normalize_eq_map, h]
  have hid : List.modifyHead (fun r : Str => r)
      (List.splitOnP (fun c => !isalnum c) line) =
      List.splitOnP (fun c => !isalnum c) line := by
    cases List.splitOnP (fun c => !isalnum c) line <;> rfl
  rw [hid]
  rfl

theorem tokenizeFrom_flatten (rest cur : Str) :
    (tokenizeFrom rest cur).flatten = cur ++ rest.filter (fun c => !isspace c) := by
  induction rest generalizing cur with
  | nil =>
    cases cur with
    | nil => simp [tokenizeFrom]
    | cons a as => simp [tokenizeFrom]
  | cons c rest ih =>
    unfold tokenizeFrom
    by_cases hc : isspace c = true
    · rw [if_pos hc]
      cases cur with
      | nil => simp [ih, hc]
      | cons a as => simp [ih, hc]
    · rw [if_neg hc, ih]
      simp [hc]

theorem tokenizeFrom_mem (rest cur : Str) :
    ∀ t ∈ tokenizeFrom rest cur, t ≠ [] ∧ ∀ c ∈ t, c ∈ cur ∨ isspace c = false := by
  induction rest generalizing cur with
  | nil =>
    intro t ht
    unfold tokenizeFrom at ht
    cases cur with
    | nil => simp at ht
    | cons a as =>
      simp only [List.isEmpty_cons, Bool.false_eq_true, if_false, List.mem_singleton] at ht
      subst ht
      exact ⟨by simp, fun c hc => Or.inl hc⟩
  | cons c0 rest ih =>
    intro t ht
    unfold tokenizeFrom at ht
    by_cases hc : isspace c0 = true
    · rw [if_pos hc] at ht
      have hrest : ∀ u ∈ tokenizeFrom rest [],
          u ≠ [] ∧ ∀ c ∈ u, c ∈ cur ∨ isspace c = false := by
        intro u hu
        obtain ⟨h1, h2⟩ := ih [] u hu
        refine ⟨h1, fun c hcm => ?_⟩
        rcases h2 c hcm with h | h
        · simp at h
        · exact Or.inr h
      cases cur with
      | nil => exact hrest t (by simpa using ht)
      | cons a as =>
        simp only [List.isEmpty_cons, Bool.false_eq_true, if_false, List.mem_cons] at ht
        rcases ht with rfl | ht
        · exact ⟨by simp, fun c hcm => Or.inl hcm⟩
        · exact hrest t ht
    · rw [if_neg hc] at ht
      obtain ⟨h1, h2⟩ := ih _ t ht
      refine ⟨h1, fun c hcm => ?_⟩
      rcases h2 c hcm with h | h
      · rcases List.mem_append.1 h with h | h
        · exact Or.inl h
        · rw [List.mem_singleton] at h
          subst h
          exact Or.inr (by simpa using hc)
      · exact Or.inr h

theorem removeStopWords_eq_filter (tokens : List Str) :
    removeStopWords tokens = tokens.filter (fun t => decide (t ∉ buildStopwords)) := by
  have h : ∀ acc : List Str,
      tokens.foldl
        (fun filtered token =>
          if decide (token ∈ buildStopwords) then filtered else filtered ++ [token]) acc =
      acc ++ tokens.filter (fun t => decide (t ∉ buildStopwords)) := by
    induction tokens with
    | nil => simp
    | cons x xs ih =>
      intro acc
      simp only [List.foldl_cons]
      rw [ih]
      by_cases hx : x ∈ buildStopwords
      · simp [hx]
      · simp [hx]
  unfold removeStopWords
  rw [h]
  simp

theorem buildStopwords_eq_spec : buildStopwords = specStopwords := rfl

/-! ## Claims on the preprocessor -/

/-- C11. The tokens of a processed line are, in order of appearance, the maximal runs of
alphanumeric characters of the line, lower-cased, without the runs that are stopwords;
nothing else is done to them. The line `Hello, World! 123` gives `hello world 123`, and
the two lines of the graph scenario keep `graphs` and `graph` as they are. -/
theorem process_tokens (line : Str) :
    (process line).tokens = specLineTokens line ∧
    (process "Hello, World! 123".toList).tokens =
      ["hello".toList, "world".toList, "123".toList] ∧
    (process "Graphs model relationships between nodes".toList).tokens =
      ["graphs".toList, "model".toList, "relationships".toList, "between".toList,
        "nodes".toList] ∧
    (process "A tree is a connected acyclic graph".toList).tokens =
      ["tree".toList, "connected".toList, "acyclic".toList, "graph".toList] := by
  refine ⟨?_, by decide, by decide, by decide⟩
  unfold process specLineTokens
  simp only
  rw [removeStopWords_eq_filter, tokenize_normalize, buildStopwords_eq_spec]

/-- C12. The text returned by `normalize` has the length of the line; its character at
each position is the lower-cased character of the line at that position when that one
is alphanumeric or whitespace, and a space otherwise; so every character of the result
is a lower-case letter, a digit or whitespace. -/
theorem normalize_charwise (raw : Str) :
    (normalize raw).length = raw.length ∧
    (∀ (i : Nat) (c : Char), raw[i]? = some c →
      (normalize raw)[i]? = some (if isalnum c || isspace c then tolower c else ' ')) ∧
    (∀ c ∈ normalize raw,
      (97 ≤ c.toNat ∧ c.toNat ≤ 122) ∨ (48 ≤ c.toNat ∧ c.toNat ≤ 57) ∨
        isspace c = true) := by
  rw [normalize_eq_map]
  refine ⟨by simp, ?_, ?_⟩
  · intro i c hc
    rw [List.getElem?_map, hc]
    rfl
  · intro c hc
    obtain ⟨d, _, rfl⟩ := List.mem_map.1 hc
    exact normalizeChar_class d

/-- C13. No token returned by `tokenize` is empty or contains a whitespace character,
the tokens put end to end are the text without its whitespace characters, and the
tokens are the maximal whitespace-free runs of the text, in order. -/
theorem tokenize_runs (text : Str) :
    (∀ t ∈ tokenize text, t ≠ [] ∧ ∀ c ∈ t, isspace c = false) ∧
    (tokenize text).flatten = text.filter (fun c => !isspace c) ∧
    tokenize text = specRuns isspace text := by
  refine ⟨?_, ?_, tokenize_eq_specRuns text⟩
  · intro t ht
    obtain ⟨h1, h2⟩ := tokenizeFrom_mem text [] t ht
    refine ⟨h1, fun c hc => ?_⟩
    rcases h2 c hc with h | h
    · simp at h
    · exact h
  · unfold tokenize
    rw [tokenizeFrom_flatten]
    simp

/-- C14. The list returned by `removeStopWords` is the list of the tokens, in their order
and multiplicity, that are not among the words enumerated in the spec; the hard-coded
set has exactly those words, 62 of them, all different; and no token of a processed
line is one of them. -/
theorem removeStopWords_filter (tokens : List Str) :
    removeStopWords tokens = tokens.filter (fun t => decide (t ∉ specStopwords)) ∧
    (∀ w, w ∈ buildStopwords ↔ w ∈ specStopwords) ∧
    specStopwords.length = 62 ∧ specStopwords.Nodup ∧
    (∀ line, ∀ t ∈ (process line).tokens, t ∉ specStopwords) := by
  refine ⟨?_, ?_, by decide, by decide, ?_⟩
  · rw [removeStopWords_eq_filter, buildStopwords_eq_spec]
  · intro w
    rw [buildStopwords_eq_spec]
  · intro line t ht
    unfold process at ht
    simp only at ht
    rw [removeStopWords_eq_filter, buildStopwords_eq_spec, List.mem_filter] at ht
    simpa using ht.2

/-! ## More on the line scorer -/

theorem mapFind_mem (m : FrequencyMap) (k : Str) (c : Nat) (h : mapFind m k = some c) :
    (k, c) ∈ m := by
  induction m with
  | nil => simp [mapFind] at h
  | cons e rest ih =>
    obtain ⟨k2, c2⟩ := e
    unfold mapFind at h
    by_cases hk : k2 = k
    · rw [if_pos hk] at h
      simp only [Option.some.injEq] at h
      subst hk
      subst h
      exact List.mem_cons_self _ _
    · rw [if_neg hk] at h
      exact List.mem_cons_of_mem _ (ih h)

theorem sum_map_unit_bounds {α : Type} (g : α → ℚ) (l : List α)
    (h : ∀ x ∈ l, 0 ≤ g x ∧ g x ≤ 1) :
    0 ≤ (l.map g).sum ∧ (l.map g).sum ≤ (l.length : ℚ) := by
  induction l with
  | nil => simp
  | cons x xs ih =>
    have hx := h x (List.mem_cons_self _ _)
    have hxs := ih (fun y hy => h y (List.mem_cons_of_mem _ hy))
    simp only [List.map_cons, List.sum_cons, List.length_cons, Nat.cast_add, Nat.cast_one]
    constructor
    · linarith [hx.1, hxs.1]
    · linarith [hx.2, hxs.2]

theorem sum_map_all_one {α : Type} (g : α → ℚ) (l : List α) (h : ∀ x ∈ l, g x = 1) :
    (l.map g).sum = (l.length : ℚ) := by
  induction l with
  | nil => simp
  | cons x xs ih =>
    simp only [List.map_cons, List.sum_cons, List.length_cons, Nat.cast_add, Nat.cast_one]
    rw [h x (List.mem_cons_self _ _), ih (fun y hy => h y (List.mem_cons_of_mem _ hy))]
    ring

/-- The formula of the score stays within `[0, 1]` when no count of the map exceeds
`maxFreq`. -/
theorem specLineScore_bounds (freq : FrequencyMap) (maxFreq : Nat) (tokens : List Str)
    (hmax : ∀ e ∈ freq, e.2 ≤ maxFreq) (hpos : 0 < maxFreq) :
    0 ≤ specLineScore freq maxFreq tokens ∧ specLineScore freq maxFreq tokens ≤ 1 := by
  have hposq : (0 : ℚ) < (maxFreq : ℚ) := by exact_mod_cast hpos
  have hterm : ∀ t ∈ tokens,
      0 ≤ (match mapFind freq t with
            | some c => (c : ℚ) / (maxFreq : ℚ)
            | none => 0) ∧
      (match mapFind freq t with
            | some c => (c : ℚ) / (maxFreq : ℚ)
            | none => 0) ≤ 1 := by
    intro t _
    cases hf : mapFind freq t with
    | none => simp
    | some c =>
      have hc : c ≤ maxFreq := hmax _ (mapFind_mem freq t c hf)
      have hcq : (c : ℚ) ≤ (maxFreq : ℚ) := by exact_mod_cast hc
      have hc0 : (0 : ℚ) ≤ (c : ℚ) := by exact_mod_cast Nat.zero_le c
      exact ⟨div_nonneg hc0 (le_of_lt hposq), (div_le_one hposq).2 hcq⟩
  obtain ⟨hs0, hs1⟩ := sum_map_unit_bounds
    (fun t => match mapFind freq t with
      | some c => (c : ℚ) / (maxFreq : ℚ)
      | none => 0) tokens hterm
  have hn0 : (0 : ℚ) ≤ (tokens.length : ℚ) := by exact_mod_cast Nat.zero_le _
  have hd0 : 0 ≤ (tokens.map (fun t => match mapFind freq t with
      | some c => (c : ℚ) / (maxFreq : ℚ)
      | none => 0)).sum / (tokens.length : ℚ) := div_nonneg hs0 hn0
  have hd1 : (tokens.map (fun t => match mapFind freq t with
      | some c => (c : ℚ) / (maxFreq : ℚ)
      | none => 0)).sum / (tokens.length : ℚ) ≤ 1 := div_le_one_of_le₀ hs1 hn0
  have hb0 : (0 : ℚ) ≤ min (1 : ℚ) ((tokens.length : ℚ) / 20) :=
    le_min (by norm_num) (div_nonneg hn0 (by norm_num))
  have hb1 : min (1 : ℚ) ((tokens.length : ℚ) / 20) ≤ 1 := min_le_left _ _
  unfold specLineScore
  constructor
  · norm_num
    linarith
  · norm_num
    linarith

/-- Every entry of the output of `score` is the scored form of an input line with
tokens. -/
theorem score_mem (lines : List ProcessedLine) (freq : FrequencyMap) (m : Str × Nat)
    (hm : maxElement freq = some m) (s : ScoredLine) (hs : s ∈ score lines freq) :
    ∃ l ∈ lines, l.tokens ≠ [] ∧ s = scoreLine l freq (Dbl.ofNat m.2) := by
  cases lines with
  | nil => simp [score] at hs
  | cons l0 ls =>
    have hperm := score_perm (l0 :: ls) freq m (by simp) hm
    rw [hperm.mem_iff, List.mem_map] at hs
    obtain ⟨l, hl, rfl⟩ := hs
    rw [List.mem_filter] at hl
    refine ⟨l, hl.1, ?_, rfl⟩
    intro hnil
    have h2 := hl.2
    rw [hnil] at h2
    simp at h2

theorem maxElement_eq_max (freq : FrequencyMap) (m : Str × Nat) (maxFreq : Nat)
    (hm : maxElement freq = some m)
    (hmem : ∃ e ∈ freq, e.2 = maxFreq) (hmax : ∀ e ∈ freq, e.2 ≤ maxFreq) :
    m.2 = maxFreq := by
  obtain ⟨hm1, hm2⟩ := maxElement_spec freq m hm
  obtain ⟨e, he, heq⟩ := hmem
  have h1 := hmax m hm1
  have h2 := hm2 e he
  omega

theorem scoreOrder_irrefl (a : ScoredLine) : decide (a.score > a.score) = false := by
  show decide (Dbl.lt a.score a.score = true) = false
  rw [dbl_lt_irrefl]
  rfl

theorem scoreOrder_trans (a b c : ScoredLine) (hab : decide (a.score > b.score) = true)
    (hbc : decide (b.score > c.score) = true) : decide (a.score > c.score) = true := by
  have hab1 : Dbl.lt b.score a.score = true := of_decide_eq_true hab
  have hbc1 : Dbl.lt c.score b.score = true := of_decide_eq_true hbc
  exact decide_eq_true (dbl_lt_trans _ _ _ hbc1 hab1)

/-- In the output of `score`, no scored line is followed by one that the comparator of
the sort places before it. -/
theorem score_sorted_comparator (lines : List ProcessedLine) (freq : FrequencyMap) :
    (score lines freq).Pairwise (fun a b => decide (b.score > a.score) = false) := by
  unfold score
  split
  · exact List.Pairwise.nil
  · split
    · exact List.Pairwise.nil
    · exact sortBy_sorted (fun a b : ScoredLine => decide (a.score > b.score))
        scoreOrder_irrefl scoreOrder_trans _

/-- For a positive maximum count `maxFreq`, every score of the output of `score` is
finite and follows the formula. -/
theorem score_mem_formula (lines : List ProcessedLine) (freq : FrequencyMap) (maxFreq : Nat)
    (hmem : ∃ e ∈ freq, e.2 = maxFreq) (hmax : ∀ e ∈ freq, e.2 ≤ maxFreq)
    (hpos : 0 < maxFreq) (s : ScoredLine) (hs : s ∈ score lines freq) :
    s.score = Dbl.fin (specLineScore freq maxFreq s.line.tokens) := by
  have hfreq : freq ≠ [] := by
    obtain ⟨e, he, _⟩ := hmem
    exact List.ne_nil_of_mem he
  obtain ⟨m, hm⟩ := maxElement_isSome freq hfreq
  have hmeq := maxElement_eq_max freq m maxFreq hm hmem hmax
  obtain ⟨l, _, htok, rfl⟩ := score_mem lines freq m hm s hs
  rw [hmeq]
  exact scoreLine_score l freq maxFreq hpos htok

/-! ## Claims on the line scorer -/

/-- C15, amended. For a frequency map that is empty or holds a positive count, the
sequence returned by `score` is in non-increasing order of score. -/
theorem score_sorted (lines : List ProcessedLine) (freq : FrequencyMap)
    (hpos : freq = [] ∨ ∃ e ∈ freq, 0 < e.2) :
    (score lines freq).Pairwise (fun a b => b.score ≤ a.score) := by
  rcases hpos with hnil | ⟨e, he, hepos⟩
  · rw [hnil]
    simp [score]
  · obtain ⟨m, hm⟩ := maxElement_isSome freq (List.ne_nil_of_mem he)
    obtain ⟨hm1, hm2⟩ := maxElement_spec freq m hm
    have hmpos : 0 < m.2 := Nat.lt_of_lt_of_le hepos (hm2 e he)
    refine List.Pairwise.imp_of_mem ?_ (score_sorted_comparator lines freq)
    intro a b ha hb hab
    have hfa := score_mem_formula lines freq m.2 ⟨m, hm1, rfl⟩ hm2 hmpos a ha
    have hfb := score_mem_formula lines freq m.2 ⟨m, hm1, rfl⟩ hm2 hmpos b hb
    rw [hfa, hfb] at hab ⊢
    have hlt : Dbl.lt (Dbl.fin (specLineScore freq m.2 a.line.tokens))
        (Dbl.fin (specLineScore freq m.2 b.line.tokens)) = false := by
      cases hc : Dbl.lt (Dbl.fin (specLineScore freq m.2 a.line.tokens))
          (Dbl.fin (specLineScore freq m.2 b.line.tokens)) with
      | false => rfl
      | true =>
        have : decide (Dbl.fin (specLineScore freq m.2 b.line.tokens) >
            Dbl.fin (specLineScore freq m.2 a.line.tokens)) = true := decide_eq_true hc
        rw [this] at hab
        exact Bool.noConfusion hab
    show Dbl.le _ _ = true
    simp only [Dbl.lt, decide_eq_false_iff_not, not_lt] at hlt
    simp only [Dbl.le, decide_eq_true_eq]
    exact hlt

/-- Witness of C15: three lines, the second without tokens, and the map `{a:2, b:1}`. -/
theorem score_sorted_witness :
    (score
        [{ original := "A b".toList, cleaned := "a b".toList,
           tokens := ["a".toList, "b".toList] },
         { original := "!".toList, cleaned := " ".toList, tokens := [] },
         { original := "a a a".toList, cleaned := "a a a".toList,
           tokens := ["a".toList, "a".toList, "a".toList] }]
        [("a".toList, 2), ("b".toList, 1)]).Pairwise (fun a b => b.score ≤ a.score) :=
  score_sorted _ [("a".toList, 2), ("b".toList, 1)]
    (Or.inr ⟨("a".toList, 2), by simp, by decide⟩)

/-- Counterexample to C15 as stated: every count of the map `{za:0}` is zero, so the line
`za`, whose token is a key, gets the score `0.0 / 0.0`, which is NaN, while the line `zb`
gets `0.01`. The output `[za, zb]` is not in non-increasing order of score, and neither
is the other arrangement of its two entries. -/
theorem score_unsorted_at_zero_count :
    score [{ original := "za".toList, cleaned := "za".toList, tokens := ["za".toList] },
           { original := "zb".toList, cleaned := "zb".toList, tokens := ["zb".toList] }]
        [("za".toList, 0)] =
      [{ line := { original := "za".toList, cleaned := "za".toList, tokens := ["za".toList] },
         score := Dbl.nan },
       { line := { original := "zb".toList, cleaned := "zb".toList, tokens := ["zb".toList] },
         score := Dbl.fin (1 / 100) }] ∧
    ¬ (score [{ original := "za".toList, cleaned := "za".toList, tokens := ["za".toList] },
              { original := "zb".toList, cleaned := "zb".toList, tokens := ["zb".toList] }]
        [("za".toList, 0)]).Pairwise (fun a b => b.score ≤ a.score) ∧
    ¬ (score [{ original := "za".toList, cleaned := "za".toList, tokens := ["za".toList] },
              { original := "zb".toList, cleaned := "zb".toList, tokens := ["zb".toList] }]
        [("za".toList, 0)]).reverse.Pairwise (fun a b => b.score ≤ a.score) := by
  have ha : keywordScore ["za".toList] [("za".toList, 0)] (Dbl.ofNat 0) = Dbl.nan := by
    simp [keywordScore, mapFind, Dbl.ofNat, dbl_zero_div_zero, dbl_add_nan]
  have hb : keywordScore ["zb".toList] [("za".toList, 0)] (Dbl.ofNat 0) = Dbl.fin 0 := by
    simp [keywordScore, mapFind]
  have hza : scoreLine { original := "za".toList, cleaned := "za".toList, tokens := ["za".toList] }
      [("za".toList, 0)] (Dbl.ofNat 0) =
      { line := { original := "za".toList, cleaned := "za".toList, tokens := ["za".toList] },
        score := Dbl.nan } := by
    unfold scoreLine
    simp only
    rw [ha, dbl_nan_div, dbl_nan_mul, dbl_nan_add]
  have hzb : scoreLine { original := "zb".toList, cleaned := "zb".toList, tokens := ["zb".toList] }
      [("za".toList, 0)] (Dbl.ofNat 0) =
      { line := { original := "zb".toList, cleaned := "zb".toList, tokens := ["zb".toList] },
        score := Dbl.fin (1 / 100) } := by
    unfold scoreLine
    simp only
    rw [hb]
    simp only [Dbl.ofNat, List.length_singleton, Nat.cast_one]
    rw [dbl_fin_div_fin _ _ (by norm_num), dbl_fin_div_fin _ _ (by norm_num), dbl_min_fin_fin,
      dbl_fin_mul_fin, dbl_fin_mul_fin, dbl_fin_add_fin]
    congr 2
    norm_num
  have hs : score [{ original := "za".toList, cleaned := "za".toList, tokens := ["za".toList] },
           { original := "zb".toList, cleaned := "zb".toList, tokens := ["zb".toList] }]
        [("za".toList, 0)] =
      [{ line := { original := "za".toList, cleaned := "za".toList, tokens := ["za".toList] },
         score := Dbl.nan },
       { line := { original := "zb".toList, cleaned := "zb".toList, tokens := ["zb".toList] },
         score := Dbl.fin (1 / 100) }] := by
    have hu : score
        [{ original := "za".toList, cleaned := "za".toList, tokens := ["za".toList] },
         { original := "zb".toList, cleaned := "zb".toList, tokens := ["zb".toList] }]
        [("za".toList, 0)] =
        sortBy (fun a b => decide (a.score > b.score))
          [scoreLine
             { original := "za".toList, cleaned := "za".toList, tokens := ["za".toList] }
             [("za".toList, 0)] (Dbl.ofNat 0),
           scoreLine
             { original := "zb".toList, cleaned := "zb".toList, tokens := ["zb".toList] }
             [("za".toList, 0)] (Dbl.ofNat 0)] := rfl
    rw [hu, hza, hzb]
    rfl
  refine ⟨hs, ?_, ?_⟩
  · rw [hs]
    intro h
    have h1 := (List.pairwise_cons.1 h).1 _ (List.mem_singleton_self _)
    exact (dbl_not_le_nan _).1 h1
  · rw [hs]
    intro h
    have h1 := (List.pairwise_cons.1 h).1 _ (List.mem_singleton_self _)
    exact (dbl_not_le_nan _).2 h1

/-- C16. For a non-empty map, the lines carried by the output of `score` are a
rearrangement of the input lines that have at least one token: one scored line for each
of them, carrying the line unchanged, and none for a line without tokens. -/
theorem score_lines_perm (lines : List ProcessedLine) (freq : FrequencyMap)
    (hfreq : freq ≠ []) :
    ((score lines freq).map (fun s => s.line)).Perm
      (lines.filter (fun l => !l.tokens.isEmpty)) := by
  cases lines with
  | nil => simp [score]
  | cons l0 ls =>
    obtain ⟨m, hm⟩ := maxElement_isSome freq hfreq
    have hperm := (score_perm (l0 :: ls) freq m (by simp) hm).map (fun s => s.line)
    rw [List.map_map] at hperm
    have hid : ((fun s : ScoredLine => s.line) ∘ fun l => scoreLine l freq (Dbl.ofNat m.2)) =
        id := by
      funext l
      rfl
    rw [hid, List.map_id] at hperm
    exact hperm

/-- Witness of C16: three lines, the second without tokens, and the map `{a:2, b:1}`. -/
theorem score_lines_perm_witness :
    ((score
        [{ original := "A b".toList, cleaned := "a b".toList,
           tokens := ["a".toList, "b".toList] },
         { original := "!".toList, cleaned := " ".toList, tokens := [] },
         { original := "a a a".toList, cleaned := "a a a".toList,
           tokens := ["a".toList, "a".toList, "a".toList] }]
        [("a".toList, 2), ("b".toList, 1)]).map (fun s => s.line)).Perm
      (([{ original := "A b".toList, cleaned := "a b".toList,
           tokens := ["a".toList, "b".toList] },
         { original := "!".toList, cleaned := " ".toList, tokens := [] },
         { original := "a a a".toList, cleaned := "a a a".toList,
           tokens := ["a".toList, "a".toList, "a".toList] }] : List ProcessedLine).filter
        (fun l => !l.tokens.isEmpty)) :=
  score_lines_perm _ [("a".toList, 2), ("b".toList, 1)] (by simp)

/-- C17. The scorer returns the empty sequence for an empty list of lines, whatever the
map, and for an empty map, whatever the lines; it returns a value in both cases. -/
theorem score_short_circuit (lines : List ProcessedLine) (freq : FrequencyMap) :
    score [] freq = [] ∧ score lines [] = [] := by
  constructor
  · simp [score]
  · simp [score]

/-- C18. For a map whose maximum count `maxFreq` is positive, every score produced by
`score` lies between 0 and 1, over the rationals. -/
theorem score_range (lines : List ProcessedLine) (freq : FrequencyMap) (maxFreq : Nat)
    (hmem : ∃ e ∈ freq, e.2 = maxFreq) (hmax : ∀ e ∈ freq, e.2 ≤ maxFreq)
    (hpos : 0 < maxFreq) (s : ScoredLine) (hs : s ∈ score lines freq) :
    0 ≤ s.score ∧ s.score ≤ 1 := by
  rw [score_mem_formula lines freq maxFreq hmem hmax hpos s hs]
  obtain ⟨h0, h1⟩ := specLineScore_bounds freq maxFreq s.line.tokens hmax hpos
  constructor
  · show Dbl.le (Dbl.fin ((0 : ℕ) : ℚ)) (Dbl.fin _) = true
    simp only [Dbl.le, decide_eq_true_eq, Nat.cast_zero]
    exact h0
  · show Dbl.le (Dbl.fin _) (Dbl.fin ((1 : ℕ) : ℚ)) = true
    simp only [Dbl.le, decide_eq_true_eq, Nat.cast_one]
    exact h1

/-- Witness of C18: the line `a b` scored against the map `{a:2, b:1}` gets `3/5 + 1/50`. -/
theorem score_range_witness :
    (0 : Dbl) ≤ (scoreLine { original := "A b".toList, cleaned := "a b".toList,
                             tokens := ["a".toList, "b".toList] }
                  [("a".toList, 2), ("b".toList, 1)] 2).score ∧
    (scoreLine { original := "A b".toList, cleaned := "a b".toList,
                 tokens := ["a".toList, "b".toList] }
      [("a".toList, 2), ("b".toList, 1)] 2).score ≤ 1 :=
  score_range
    [{ original := "A b".toList, cleaned := "a b".toList,
       tokens := ["a".toList, "b".toList] }]
    [("a".toList, 2), ("b".toList, 1)] 2
    ⟨("a".toList, 2), by simp, rfl⟩ (by decide) (by decide)
    (scoreLine { original := "A b".toList, cleaned := "a b".toList,
                 tokens := ["a".toList, "b".toList] }
      [("a".toList, 2), ("b".toList, 1)] 2)
    (by
      have h2 : (2 : Dbl) = Dbl.ofNat 2 := rfl
      simp [score, maxElement, sortBy, insertSorted, h2])

/-- C19, amended. For a single line with exactly 20 tokens, each a key of the map whose
count is the maximum count of the map, and that maximum count positive, the density is
1, the length bonus is 1 and the score is 1, in exact arithmetic. -/
theorem score_maximum (l : ProcessedLine) (freq : FrequencyMap) (maxFreq : Nat)
    (hlen : l.tokens.length = 20)
    (hkeys : ∀ t ∈ l.tokens, mapFind freq t = some maxFreq)
    (hmax : ∀ e ∈ freq, e.2 ≤ maxFreq) (hpos : 0 < maxFreq) :
    keywordScore l.tokens freq (Dbl.ofNat maxFreq) / Dbl.ofNat l.tokens.length = Dbl.fin 1 ∧
    Dbl.min (Dbl.fin 1) (Dbl.ofNat l.tokens.length / Dbl.fin 20) = Dbl.fin 1 ∧
    score [l] freq = [{ line := l, score := 1 }] := by
  have hposq : (maxFreq : ℚ) ≠ 0 := by exact_mod_cast (Nat.pos_iff_ne_zero.1 hpos)
  have hsum : keywordScore l.tokens freq (Dbl.ofNat maxFreq) =
      Dbl.fin (l.tokens.length : ℚ) := by
    unfold keywordScore
    rw [keywordScore_foldl l.tokens freq maxFreq hpos 0, zero_add]
    congr 1
    apply sum_map_all_one
    intro t ht
    rw [hkeys t ht]
    exact div_self hposq
  have hdensity : keywordScore l.tokens freq (Dbl.ofNat maxFreq) / Dbl.ofNat l.tokens.length =
      Dbl.fin 1 := by
    rw [hsum, hlen]
    simp only [Dbl.ofNat]
    rw [dbl_fin_div_fin _ _ (by norm_num)]
    congr 1
    norm_num
  have hbonus : Dbl.min (Dbl.fin 1) (Dbl.ofNat l.tokens.length / Dbl.fin 20) = Dbl.fin 1 := by
    rw [hlen]
    simp only [Dbl.ofNat]
    rw [dbl_fin_div_fin _ _ (by norm_num), dbl_min_fin_fin]
    congr 1
    norm_num
  refine ⟨hdensity, hbonus, ?_⟩
  have htok : l.tokens ≠ [] := by
    intro h
    rw [h] at hlen
    simp at hlen
  obtain ⟨t0, ht0⟩ := List.exists_mem_of_ne_nil _ htok
  have hmem : ∃ e ∈ freq, e.2 = maxFreq :=
    ⟨(t0, maxFreq), mapFind_mem freq t0 maxFreq (hkeys t0 ht0), rfl⟩
  have hfreq : freq ≠ [] := by
    obtain ⟨e, he, _⟩ := hmem
    exact List.ne_nil_of_mem he
  obtain ⟨m, hm⟩ := maxElement_isSome freq hfreq
  have hmeq := maxElement_eq_max freq m maxFreq hm hmem hmax
  have hperm := score_perm [l] freq m (by simp) hm
  have hfilter : [l].filter (fun l => !l.tokens.isEmpty) = [l] := by
    cases htk : l.tokens with
    | nil => exact absurd htk htok
    | cons _ _ => simp [htk]
  rw [hfilter, List.map_cons, List.map_nil, List.perm_singleton, hmeq] at hperm
  rw [hperm]
  unfold scoreLine
  simp only
  rw [hdensity, hbonus, dbl_fin_mul_fin, dbl_fin_mul_fin, dbl_fin_add_fin]
  show _ = [({ line := l, score := Dbl.fin ((1 : ℕ) : ℚ) } : ScoredLine)]
  congr 3
  norm_num

/-- Witness of C19: twenty tokens `a` and the map `{a:3, b:1}`. -/
theorem score_maximum_witness :
    keywordScore (List.replicate 20 "a".toList) [("a".toList, 3), ("b".toList, 1)]
        (Dbl.ofNat 3) / Dbl.ofNat (List.replicate 20 "a".toList).length = Dbl.fin 1 ∧
    Dbl.min (Dbl.fin 1) (Dbl.ofNat (List.replicate 20 "a".toList).length / Dbl.fin 20) =
      Dbl.fin 1 ∧
    score [{ original := [], cleaned := [], tokens := List.replicate 20 "a".toList }]
        [("a".toList, 3), ("b".toList, 1)] =
      [{ line := { original := [], cleaned := [], tokens := List.replicate 20 "a".toList },
         score := 1 }] :=
  score_maximum { original := [], cleaned := [], tokens := List.replicate 20 "a".toList }
    [("a".toList, 3), ("b".toList, 1)] 3 (by decide) (by decide) (by decide) (by decide)

/-- Counterexample to C19 as stated: the line has exactly 20 tokens, each of them the key
`a`, whose count `0` is the maximum count of the map `{a:0}`; every term of the density
is `0.0 / 0.0`, so the score is NaN and not 1. -/
theorem score_maximum_fails_at_zero_count :
    (List.replicate 20 "a".toList).length = 20 ∧
    (∀ t ∈ List.replicate 20 "a".toList, mapFind [("a".toList, 0)] t = some 0) ∧
    (∀ e ∈ [("a".toList, 0)], e.2 ≤ 0) ∧
    keywordScore (List.replicate 20 "a".toList) [("a".toList, 0)] (Dbl.ofNat 0) /
        Dbl.ofNat (List.replicate 20 "a".toList).length = Dbl.nan ∧
    score [{ original := [], cleaned := [], tokens := List.replicate 20 "a".toList }]
        [("a".toList, 0)] =
      [{ line := { original := [], cleaned := [], tokens := List.replicate 20 "a".toList },
         score := Dbl.nan }] ∧
    score [{ original := [], cleaned := [], tokens := List.replicate 20 "a".toList }]
        [("a".toList, 0)] ≠
      [{ line := { original := [], cleaned := [], tokens := List.replicate 20 "a".toList },
         score := 1 }] := by
  have hk : keywordScore (List.replicate 20 "a".toList) [("a".toList, 0)] (Dbl.ofNat 0) =
      Dbl.nan := by
    simp [keywordScore, List.replicate, mapFind, Dbl.ofNat, dbl_zero_div_zero, dbl_add_nan,
      dbl_nan_add]
  have hl : scoreLine { original := [], cleaned := [], tokens := List.replicate 20 "a".toList }
      [("a".toList, 0)] (Dbl.ofNat 0) =
      { line := { original := [], cleaned := [], tokens := List.replicate 20 "a".toList },
        score := Dbl.nan } := by
    unfold scoreLine
    simp only
    rw [hk, dbl_nan_div, dbl_nan_mul, dbl_nan_add]
  have hs : score [{ original := [], cleaned := [], tokens := List.replicate 20 "a".toList }]
        [("a".toList, 0)] =
      [{ line := { original := [], cleaned := [], tokens := List.replicate 20 "a".toList },
         score := Dbl.nan }] := by
    have hu : score [{ original := [], cleaned := [], tokens := List.replicate 20 "a".toList }]
        [("a".toList, 0)] =
        sortBy (fun a b => decide (a.score > b.score))
          [scoreLine { original := [], cleaned := [], tokens := List.replicate 20 "a".toList }
            [("a".toList, 0)] (Dbl.ofNat 0)] := rfl
    rw [hu, hl]
    rfl
  refine ⟨by decide, by decide, by decide, ?_, hs, ?_⟩
  · rw [hk, dbl_nan_div]
  · rw [hs]
    decide

/-! ## More claims on the question generator -/

/-- C20. Whatever the configured counts, `generate` returns a paper whose four sequences
are empty when `lines` is empty and when `keywords` is empty. -/
theorem generate_short_circuit (cfg : QuestionGenerator) (lines : List ScoredLine)
    (keywords : List (Str × Nat)) (rng : Rng) :
    generate cfg [] keywords rng =
      { mcqs := [], fillInBlanks := [], shortQuestions := [], longQuestions := [] } ∧
    generate cfg lines [] rng =
      { mcqs := [], fillInBlanks := [], shortQuestions := [], longQuestions := [] } := by
  constructor
  · simp [generate]
  · simp [generate]

/-! ## Success and failure of `buildMcq` -/

theorem findKeyword_eq_specMcqToken (tokens keywords : List Str) :
    findKeyword tokens keywords = (specMcqToken keywords tokens).getD [] := by
  unfold findKeyword specMcqToken
  cases List.find? (fun t => decide (t ∈ keywords)) tokens <;> rfl

/-- The three outcomes of `buildMcq`: no keyword found, not enough distractors, or an
MCQ. -/
theorem buildMcq_cases (line : ScoredLine) (keywords : List Str) (rng : Rng) :
    (findKeyword line.line.tokens keywords = [] ∧
      buildMcq line keywords rng = Except.error McqError.noKeywordFound) ∨
    (findKeyword line.line.tokens keywords ≠ [] ∧
      (specDistractorPool keywords (findKeyword line.line.tokens keywords)).length < 3 ∧
      buildMcq line keywords rng = Except.error McqError.notEnoughDistractors) ∨
    (findKeyword line.line.tokens keywords ≠ [] ∧
      3 ≤ (specDistractorPool keywords (findKeyword line.line.tokens keywords)).length ∧
      ∃ r, buildMcq line keywords rng = Except.ok r) := by
  unfold buildMcq specDistractorPool
  simp only
  by_cases hk : findKeyword line.line.tokens keywords = []
  · left
    refine ⟨hk, ?_⟩
    rw [hk]
    rfl
  · right
    have hne : (findKeyword line.line.tokens keywords).isEmpty = false := by
      cases hf : findKeyword line.line.tokens keywords with
      | nil => exact absurd hf hk
      | cons _ _ => rfl
    rw [hne]
    simp only [Bool.false_eq_true, if_false]
    by_cases hd : (keywords.filter
        (fun k => decide (k ≠ findKeyword line.line.tokens keywords))).length < 3
    · left
      refine ⟨hk, hd, ?_⟩
      rw [if_pos hd]
    · right
      refine ⟨hk, by omega, ?_⟩
      rw [if_neg hd]
      exact ⟨_, rfl⟩

/-- The construction of an MCQ succeeds exactly on the lines whose first token in the
keyword list is not the empty string and differs from at least 3 keyword entries,
whatever the state of the generator. -/
theorem buildMcq_ok_iff (line : ScoredLine) (keywords : List Str) (rng : Rng) :
    (∃ r, buildMcq line keywords rng = Except.ok r) ↔ specMcqLine keywords line = true := by
  have hfk := findKeyword_eq_specMcqToken line.line.tokens keywords
  unfold specMcqLine
  rcases buildMcq_cases line keywords rng with ⟨h1, h2⟩ | ⟨h1, h2, h3⟩ | ⟨h1, h2, h3⟩
  · constructor
    · rintro ⟨r, hr⟩
      rw [h2] at hr
      cases hr
    · intro h
      cases ht : specMcqToken keywords line.line.tokens with
      | none => rw [ht] at h; cases h
      | some t =>
        rw [ht] at h hfk
        simp only [Option.getD_some] at hfk
        rw [← hfk, h1] at h
        simp at h
  · constructor
    · rintro ⟨r, hr⟩
      rw [h3] at hr
      cases hr
    · intro h
      cases ht : specMcqToken keywords line.line.tokens with
      | none => rw [ht] at h; cases h
      | some t =>
        rw [ht] at h hfk
        simp only [Option.getD_some] at hfk
        rw [← hfk] at h
        simp only [Bool.and_eq_true, decide_eq_true_eq] at h
        omega
  · constructor
    · intro _
      cases ht : specMcqToken keywords line.line.tokens with
      | none =>
        rw [ht] at hfk
        exact absurd hfk h1
      | some t =>
        rw [ht] at hfk
        simp only [Option.getD_some] at hfk
        rw [← hfk]
        simp only [Bool.and_eq_true, decide_eq_true_eq]
        refine ⟨?_, h2⟩
        cases hf : findKeyword line.line.tokens keywords with
        | nil => exact absurd hf h1
        | cons _ _ => rfl
    · intro _
      exact h3

/-- The MCQ loop gathers, in order, one MCQ for each visited line on which the
construction succeeds, related to that line by any relation that holds between a line
and an MCQ built from it. -/
theorem foldl_mcqStep_rel (keywordList : List Str) (R : MCQ → ScoredLine → Prop)
    (hR : ∀ line g r, buildMcq line keywordList g = Except.ok r → R r.1 line)
    (cands : List ScoredLine) (st : List MCQ × Rng) :
    ∃ ms, (cands.foldl (mcqStep keywordList) st).1 = st.1 ++ ms ∧
      List.Forall₂ R ms (cands.filter (specMcqLine keywordList)) := by
  induction cands generalizing st with
  | nil => exact ⟨[], by simp, List.Forall₂.nil⟩
  | cons l ls ih =>
    simp only [List.foldl_cons]
    cases hb : buildMcq l keywordList st.2 with
    | error e =>
      have hstep : mcqStep keywordList st l = st := by
        unfold mcqStep
        rw [hb]
      have hline : specMcqLine keywordList l = false := by
        cases hs : specMcqLine keywordList l with
        | false => rfl
        | true =>
          obtain ⟨r, hr⟩ := (buildMcq_ok_iff l keywordList st.2).2 hs
          rw [hb] at hr
          cases hr
      rw [hstep, List.filter_cons_of_neg (by simp [hline])]
      exact ih st
    | ok r =>
      have hstep : mcqStep keywordList st l = (st.1 ++ [r.1], r.2) := by
        unfold mcqStep
        rw [hb]
      have hline : specMcqLine keywordList l = true :=
        (buildMcq_ok_iff l keywordList st.2).1 ⟨r, hb⟩
      rw [hstep, List.filter_cons_of_pos hline]
      obtain ⟨ms, hms, hrel⟩ := ih (st.1 ++ [r.1], r.2)
      refine ⟨r.1 :: ms, ?_, List.Forall₂.cons (hR l st.2 r hb) hrel⟩
      rw [hms]
      simp

/-- The MCQs of a paper generated from non-empty inputs, related in order to the lines
among the first `mcqCount` on which the construction succeeds. -/
theorem generate_mcqs_rel (cfg : QuestionGenerator) (ls : List ScoredLine)
    (keywords : List (Str × Nat)) (rng : Rng) (R : MCQ → ScoredLine → Prop)
    (hR : ∀ line g r, buildMcq line (keywords.map Prod.fst) g = Except.ok r → R r.1 line)
    (hls : ls ≠ []) (hkeywords : keywords ≠ []) :
    List.Forall₂ R (generate cfg ls keywords rng).mcqs
      ((ls.take cfg.mcqCount).filter (specMcqLine (keywords.map Prod.fst))) := by
  unfold generate
  have h1 : (ls.isEmpty || keywords.isEmpty) = false := by
    cases ls with
    | nil => exact absurd rfl hls
    | cons _ _ =>
      cases keywords with
      | nil => exact absurd rfl hkeywords
      | cons _ _ => rfl
  rw [h1]
  simp only [Bool.false_eq_true, if_false]
  obtain ⟨ms, hms, hrel⟩ := foldl_mcqStep_rel (keywords.map Prod.fst) R hR
    (ls.take cfg.mcqCount) ([], rng)
  rw [hms]
  simpa using hrel

theorem specMcqToken_of_findKeyword (tokens keywords : List Str)
    (h : findKeyword tokens keywords ≠ []) :
    specMcqToken keywords tokens = some (findKeyword tokens keywords) := by
  have hfk := findKeyword_eq_specMcqToken tokens keywords
  cases ht : specMcqToken keywords tokens with
  | none =>
    rw [ht] at hfk
    exact absurd hfk h
  | some t =>
    rw [ht] at hfk
    simp only [Option.getD_some] at hfk
    rw [hfk]

/-- With fewer than four keyword entries no line passes the MCQ skip policy. -/
theorem specMcqLine_few (keywordList : List Str) (h : keywordList.length < 4)
    (l : ScoredLine) : specMcqLine keywordList l = false := by
  unfold specMcqLine
  cases ht : specMcqToken keywordList l.line.tokens with
  | none => rfl
  | some t =>
    have hmem : t ∈ keywordList := by
      unfold specMcqToken at ht
      simpa using List.find?_some ht
    have hlt : (specDistractorPool keywordList t).length < keywordList.length := by
      unfold specDistractorPool
      exact List.length_filter_lt_length_iff_exists.2 ⟨t, hmem, by simp⟩
    have hnot : ¬ 3 ≤ (specDistractorPool keywordList t).length := by omega
    simp [hnot]

theorem getD_three (s : List Str) (h : 3 ≤ s.length) :
    [s.getD 0 [], s.getD 1 [], s.getD 2 []] = s.take 3 := by
  match s, h with
  | _ :: _ :: _ :: _, _ => rfl

/-- The options of an MCQ are a rearrangement of the keyword and the first three
entries of the shuffled distractor pool, which has at least three entries. -/
theorem buildMcq_options (line : ScoredLine) (keywords : List Str) (rng : Rng)
    (r : MCQ × Rng) (h : buildMcq line keywords rng = Except.ok r) :
    3 ≤ (shuffle (specDistractorPool keywords
          (findKeyword line.line.tokens keywords)) rng).1.length ∧
    r.1.options.Perm (findKeyword line.line.tokens keywords ::
      (shuffle (specDistractorPool keywords
        (findKeyword line.line.tokens keywords)) rng).1.take 3) := by
  have hlen : (shuffle (specDistractorPool keywords
      (findKeyword line.line.tokens keywords)) rng).1.length =
      (specDistractorPool keywords (findKeyword line.line.tokens keywords)).length :=
    (shuffle_perm _ rng).length_eq
  unfold buildMcq at h
  simp only at h
  split at h
  · cases h
  · split at h
    · cases h
    · rename_i hdis
      simp only [Except.ok.injEq] at h
      subst h
      have h3 : 3 ≤ (shuffle (specDistractorPool keywords
          (findKeyword line.line.tokens keywords)) rng).1.length := by
        rw [hlen]
        unfold specDistractorPool
        omega
      refine ⟨h3, ?_⟩
      rw [← getD_three _ h3]
      exact shuffle_perm _ _

/-! ## Claims on the MCQ loop -/

/-- C21. With fewer than 4 keyword entries `generate` emits no MCQ, for every list of
lines, configuration and supply of random draws; and there are such inputs for which
the fill-in-blank, short-answer and long-answer sequences are all non-empty. -/
theorem generate_few_keywords (cfg : QuestionGenerator) (ls : List ScoredLine)
    (keywords : List (Str × Nat)) (rng : Rng) (hfew : keywords.length < 4) :
    (generate cfg ls keywords rng).mcqs = [] ∧
    ∃ (cfg2 : QuestionGenerator) (ls2 : List ScoredLine) (keywords2 : List (Str × Nat))
      (rng2 : Rng), keywords2.length < 4 ∧
      (generate cfg2 ls2 keywords2 rng2).fillInBlanks ≠ [] ∧
      (generate cfg2 ls2 keywords2 rng2).shortQuestions ≠ [] ∧
      (generate cfg2 ls2 keywords2 rng2).longQuestions ≠ [] := by
  constructor
  · by_cases hls : ls = []
    · subst hls
      simp [generate]
    · by_cases hkw : keywords = []
      · subst hkw
        simp [generate]
      · have hrel := generate_mcqs_rel cfg ls keywords rng (fun _ _ => True)
          (fun _ _ _ _ => trivial) hls hkw
        have hnone : (ls.take cfg.mcqCount).filter (specMcqLine (keywords.map Prod.fst)) =
            [] := by
          rw [List.filter_eq_nil_iff]
          intro l _
          rw [specMcqLine_few (keywords.map Prod.fst) (by simpa using hfew) l]
          simp
        rw [hnone] at hrel
        exact List.forall₂_nil_right_iff.1 hrel
  · exact ⟨{ mcqCount := 5, fillCount := 5, shortCount := 5, longCount := 3 },
      [{ line := { original := "Trees are graphs".toList,
                   cleaned := "trees are graphs".toList,
                   tokens := ["trees".toList, "graphs".toList] },
         score := 1 }],
      [("graphs".toList, 2), ("trees".toList, 1)], [],
      by decide, by decide, by decide, by decide⟩

/-- Witness of C21: one line and the two keywords `graphs`, `trees`. -/
theorem generate_few_keywords_witness :
    (generate { mcqCount := 5, fillCount := 5, shortCount := 5, longCount := 3 }
      [{ line := { original := "Trees are graphs".toList,
                   cleaned := "trees are graphs".toList,
                   tokens := ["trees".toList, "graphs".toList] },
         score := 1 }]
      [("graphs".toList, 2), ("trees".toList, 1)] [4, 2]).mcqs = [] ∧
    ∃ (cfg2 : QuestionGenerator) (ls2 : List ScoredLine) (keywords2 : List (Str × Nat))
      (rng2 : Rng), keywords2.length < 4 ∧
      (generate cfg2 ls2 keywords2 rng2).fillInBlanks ≠ [] ∧
      (generate cfg2 ls2 keywords2 rng2).shortQuestions ≠ [] ∧
      (generate cfg2 ls2 keywords2 rng2).longQuestions ≠ [] :=
  generate_few_keywords
    { mcqCount := 5, fillCount := 5, shortCount := 5, longCount := 3 }
    [{ line := { original := "Trees are graphs".toList,
                 cleaned := "trees are graphs".toList,
                 tokens := ["trees".toList, "graphs".toList] },
       score := 1 }]
    [("graphs".toList, 2), ("trees".toList, 1)] [4, 2] (by decide)

/-- On a line none of whose tokens is the empty string, `buildMcq` succeeds exactly when
the MCQ skip policy keeps the line. -/
theorem specMcqLine_eq_asStated (keywordList : List Str) (l : ScoredLine)
    (h : ([] : Str) ∉ l.line.tokens) :
    specMcqLine keywordList l = specMcqLineAsStated keywordList l := by
  unfold specMcqLine specMcqLineAsStated
  cases ht : specMcqToken keywordList l.line.tokens with
  | none => rfl
  | some t =>
    have hmem : t ∈ l.line.tokens := by
      unfold specMcqToken at ht
      exact List.mem_of_find?_eq_some ht
    have hne : t ≠ [] := by
      intro h0
      rw [h0] at hmem
      exact h hmem
    cases t with
    | nil => exact absurd rfl hne
    | cons _ _ => simp

/-- C22. For non-empty `lines` and `keywords`, no token of a line being the empty string,
the MCQs of the paper are, in line order, one for each of the first `mcqCount` lines that
has a token in the keyword list and for which at least 3 keyword entries differ from that
token, and nothing for any other line: the MCQ masks that token, the first of the line in
the keyword list, out of its line and holds it at its answer slot. -/
theorem mcq_skip_policy (cfg : QuestionGenerator) (ls : List ScoredLine)
    (keywords : List (Str × Nat)) (rng : Rng)
    (hls : ls ≠ []) (hkeywords : keywords ≠ [])
    (htokens : ∀ l ∈ ls, ([] : Str) ∉ l.line.tokens) :
    List.Forall₂
      (fun m l => ∃ t, specMcqToken (keywords.map Prod.fst) l.line.tokens = some t ∧
        m.prompt = mcqLeadIn ++ maskKeyword l.line.original t ∧
        m.options[answerSlot m.answer]? = some t)
      (generate cfg ls keywords rng).mcqs
      ((ls.take cfg.mcqCount).filter (specMcqLineAsStated (keywords.map Prod.fst))) := by
  have hfilter : (ls.take cfg.mcqCount).filter (specMcqLineAsStated (keywords.map Prod.fst)) =
      (ls.take cfg.mcqCount).filter (specMcqLine (keywords.map Prod.fst)) := by
    apply List.filter_congr
    intro l hl
    exact (specMcqLine_eq_asStated _ l (htokens l (List.mem_of_mem_take hl))).symm
  rw [hfilter]
  refine generate_mcqs_rel cfg ls keywords rng _ ?_ hls hkeywords
  intro line g r hb
  obtain ⟨hkw, _, hprompt, _, _, hslot⟩ := buildMcq_ok line _ g r hb
  exact ⟨_, specMcqToken_of_findKeyword _ _ hkw, hprompt, hslot⟩

/-- Witness of C22: three lines, of which the second has no keyword and the third lies
beyond the first two. -/
theorem mcq_skip_policy_witness :
    List.Forall₂
      (fun m l => ∃ t,
        specMcqToken ([("a".toList, 2), ("b".toList, 1), ("c".toList, 1),
          ("d".toList, 1)].map Prod.fst) l.line.tokens = some t ∧
        m.prompt = mcqLeadIn ++ maskKeyword l.line.original t ∧
        m.options[answerSlot m.answer]? = some t)
      (generate { mcqCount := 2, fillCount := 5, shortCount := 5, longCount := 3 }
        [{ line := { original := "b a".toList, cleaned := "b a".toList,
                     tokens := ["b".toList, "a".toList] }, score := 1 },
         { line := { original := "x".toList, cleaned := "x".toList,
                     tokens := ["x".toList] }, score := 1 },
         { line := { original := "c".toList, cleaned := "c".toList,
                     tokens := ["c".toList] }, score := 0 }]
        [("a".toList, 2), ("b".toList, 1), ("c".toList, 1), ("d".toList, 1)] [2, 7]).mcqs
      ((([{ line := { original := "b a".toList, cleaned := "b a".toList,
                      tokens := ["b".toList, "a".toList] }, score := 1 },
          { line := { original := "x".toList, cleaned := "x".toList,
                      tokens := ["x".toList] }, score := 1 },
          { line := { original := "c".toList, cleaned := "c".toList,
                      tokens := ["c".toList] }, score := 0 }] : List ScoredLine).take 2).filter
        (specMcqLineAsStated ([("a".toList, 2), ("b".toList, 1), ("c".toList, 1),
          ("d".toList, 1)].map Prod.fst))) :=
  mcq_skip_policy { mcqCount := 2, fillCount := 5, shortCount := 5, longCount := 3 }
    [{ line := { original := "b a".toList, cleaned := "b a".toList,
                 tokens := ["b".toList, "a".toList] }, score := 1 },
     { line := { original := "x".toList, cleaned := "x".toList,
                 tokens := ["x".toList] }, score := 1 },
     { line := { original := "c".toList, cleaned := "c".toList,
                 tokens := ["c".toList] }, score := 0 }]
    [("a".toList, 2), ("b".toList, 1), ("c".toList, 1), ("d".toList, 1)] [2, 7]
    (by simp) (by simp) (by decide)

/-- C23. The 4 options of every MCQ built, for every supply of random draws, are a
rearrangement of the matched keyword and 3 entries taken at 3 different positions of the
distractor pool, the keyword entries different from the matched keyword; so no
distractor is the keyword. The entries taken need not be the first 3 of the pool. -/
theorem buildMcq_distractors (line : ScoredLine) (keywords : List Str) (rng : Rng)
    (r : MCQ × Rng) (h : buildMcq line keywords rng = Except.ok r) :
    (∃ picked : List Str, picked.length = 3 ∧
      picked.Sublist (specDistractorPool keywords (findKeyword line.line.tokens keywords)) ∧
      r.1.options.Perm (findKeyword line.line.tokens keywords :: picked) ∧
      ∀ d ∈ picked, d ≠ findKeyword line.line.tokens keywords) ∧
    (∃ (g : Rng) (r2 : MCQ × Rng),
      buildMcq
        { line := { original := "Graphs model things".toList,
                    cleaned := "graphs model things".toList,
                    tokens := ["graphs".toList, "model".toList, "things".toList] },
          score := 1 }
        ["model".toList, "graphs".toList, "x".toList, "y".toList, "z".toList] g =
        Except.ok r2 ∧
      "z".toList ∈ r2.1.options ∧
      "z".toList ∉ (specDistractorPool
        ["model".toList, "graphs".toList, "x".toList, "y".toList, "z".toList]
        "graphs".toList).take 3) := by
  constructor
  · obtain ⟨h3, hperm⟩ := buildMcq_options line keywords rng r h
    have hsub : ((shuffle (specDistractorPool keywords
        (findKeyword line.line.tokens keywords)) rng).1.take 3).Subperm
        (specDistractorPool keywords (findKeyword line.line.tokens keywords)) :=
      (List.take_sublist 3 _).subperm.trans (shuffle_perm _ rng).subperm
    obtain ⟨picked, hpicked, hsublist⟩ := hsub
    refine ⟨picked, ?_, hsublist, hperm.trans (List.Perm.cons _ hpicked.symm), ?_⟩
    · rw [hpicked.length_eq, List.length_take]
      omega
    · intro d hd
      have hmem := hsublist.subset hd
      unfold specDistractorPool at hmem
      simpa using (List.mem_filter.1 hmem).2
  · exact ⟨[3, 1, 4, 1, 5, 8],
      ({ prompt := mcqLeadIn ++ " model things".toList,
         options := ["x".toList, "z".toList, "y".toList, "graphs".toList],
         answer := 'D' }, []), rfl, by decide, by decide⟩

/-- Witness of C23: the line `b a` with the keywords `a b c d`. -/
theorem buildMcq_distractors_witness :
    (∃ picked : List Str, picked.length = 3 ∧
      picked.Sublist (specDistractorPool ["a".toList, "b".toList, "c".toList, "d".toList]
        (findKeyword ["b".toList, "a".toList]
          ["a".toList, "b".toList, "c".toList, "d".toList])) ∧
      ["a".toList, "c".toList, "d".toList, "b".toList].Perm
        (findKeyword ["b".toList, "a".toList]
          ["a".toList, "b".toList, "c".toList, "d".toList] :: picked) ∧
      ∀ d ∈ picked, d ≠ findKeyword ["b".toList, "a".toList]
        ["a".toList, "b".toList, "c".toList, "d".toList]) ∧
    (∃ (g : Rng) (r2 : MCQ × Rng),
      buildMcq
        { line := { original := "Graphs model things".toList,
                    cleaned := "graphs model things".toList,
                    tokens := ["graphs".toList, "model".toList, "things".toList] },
          score := 1 }
        ["model".toList, "graphs".toList, "x".toList, "y".toList, "z".toList] g =
        Except.ok r2 ∧
      "z".toList ∈ r2.1.options ∧
      "z".toList ∉ (specDistractorPool
        ["model".toList, "graphs".toList, "x".toList, "y".toList, "z".toList]
        "graphs".toList).take 3) :=
  buildMcq_distractors
    { line := { original := "b a".toList, cleaned := "b a".toList,
                tokens := ["b".toList, "a".toList] },
      score := 1 }
    ["a".toList, "b".toList, "c".toList, "d".toList] [2, 7, 1, 8]
    ({ prompt := mcqLeadIn ++ " a".toList,
       options := ["a".toList, "c".toList, "d".toList, "b".toList],
       answer := 'D' }, [])
    rfl

/-! ## Claims on the short-answer and long-answer loops, bounds and independence -/

/-- The paper generated from non-empty inputs, loop by loop. -/
theorem generate_nonempty (cfg : QuestionGenerator) (ls : List ScoredLine)
    (keywords : List (Str × Nat)) (rng : Rng) (hls : ls ≠ []) (hkeywords : keywords ≠ []) :
    generate cfg ls keywords rng =
      { mcqs := ((ls.take cfg.mcqCount).foldl (mcqStep (keywords.map Prod.fst)) ([], rng)).1,
        fillInBlanks := (ls.take cfg.fillCount).foldl (fillStep (keywords.map Prod.fst)) [],
        shortQuestions := ((keywords.map Prod.fst).take cfg.shortCount).map buildShortQuestion,
        longQuestions := (ls.take cfg.longCount).map buildLongQuestion } := by
  unfold generate
  have h1 : (ls.isEmpty || keywords.isEmpty) = false := by
    cases ls with
    | nil => exact absurd rfl hls
    | cons _ _ =>
      cases keywords with
      | nil => exact absurd rfl hkeywords
      | cons _ _ => rfl
  rw [h1]
  rfl

/-- Counterexample to C24 as stated: the short-answer question for the keyword `graphs`
has the three bytes `E2 80 93` of a dash between `2` and `3`, not an ASCII hyphen. -/
theorem shortQuestion_dash_not_ascii :
    (generate { mcqCount := 5, fillCount := 5, shortCount := 5, longCount := 3 }
      [{ line := { original := "Graphs".toList, cleaned := "graphs".toList,
                   tokens := ["graphs".toList] },
         score := 1 }]
      [("graphs".toList, 1)] []).shortQuestions =
      ["Explain the concept of \"graphs\" in 2\xe2\x80\x933 sentences.".toList] ∧
    (generate { mcqCount := 5, fillCount := 5, shortCount := 5, longCount := 3 }
      [{ line := { original := "Graphs".toList, cleaned := "graphs".toList,
                   tokens := ["graphs".toList] },
         score := 1 }]
      [("graphs".toList, 1)] []).shortQuestions ≠
      [specShortQuestionAscii "graphs".toList] := by
  decide

/-- C24, amended. For non-empty `lines` and `keywords`, `shortQuestions` has length
`min shortCount |keywords|` and its entry at position `i` is the text
`Explain the concept of "K" in 2?3 sentences.`, where `?` stands for the three bytes
`E2 80 93` of a dash and `K` is the keyword at position `i` in ranked order; the lines
and their scores play no part. -/
theorem shortQuestions_rule (cfg : QuestionGenerator) (ls : List ScoredLine)
    (keywords : List (Str × Nat)) (rng : Rng) (hls : ls ≠ []) (hkeywords : keywords ≠ []) :
    (generate cfg ls keywords rng).shortQuestions.length =
      min cfg.shortCount keywords.length ∧
    ∀ (i : Nat) (k : Str × Nat), i < cfg.shortCount → keywords[i]? = some k →
      (generate cfg ls keywords rng).shortQuestions[i]? =
        some ("Explain the concept of \"".toList ++ k.1 ++
          "\" in 2\xe2\x80\x933 sentences.".toList) := by
  rw [generate_nonempty cfg ls keywords rng hls hkeywords]
  constructor
  · simp
  · intro i k hi hk
    simp only [List.getElem?_map, List.getElem?_take, if_pos hi, hk, Option.map_some']
    rfl

/-- Witness of C24, amended: one line and two keywords. -/
theorem shortQuestions_rule_witness :
    (generate { mcqCount := 5, fillCount := 5, shortCount := 1, longCount := 3 }
      [{ line := { original := "Trees are graphs".toList,
                   cleaned := "trees are graphs".toList,
                   tokens := ["trees".toList, "graphs".toList] },
         score := 1 }]
      [("graphs".toList, 2), ("trees".toList, 1)] []).shortQuestions.length =
      min 1 [("graphs".toList, 2), ("trees".toList, 1)].length ∧
    ∀ (i : Nat) (k : Str × Nat), i < 1 →
      [("graphs".toList, 2), ("trees".toList, 1)][i]? = some k →
      (generate { mcqCount := 5, fillCount := 5, shortCount := 1, longCount := 3 }
        [{ line := { original := "Trees are graphs".toList,
                     cleaned := "trees are graphs".toList,
                     tokens := ["trees".toList, "graphs".toList] },
           score := 1 }]
        [("graphs".toList, 2), ("trees".toList, 1)] []).shortQuestions[i]? =
        some ("Explain the concept of \"".toList ++ k.1 ++
          "\" in 2\xe2\x80\x933 sentences.".toList) :=
  shortQuestions_rule { mcqCount := 5, fillCount := 5, shortCount := 1, longCount := 3 }
    [{ line := { original := "Trees are graphs".toList,
                 cleaned := "trees are graphs".toList,
                 tokens := ["trees".toList, "graphs".toList] },
       score := 1 }]
    [("graphs".toList, 2), ("trees".toList, 1)] [] (by simp) (by simp)

/-- C25. For non-empty `lines` and `keywords`, `longQuestions` has length
`min longCount |lines|` and its entry at position `i` is the text
`Discuss in detail: "L". Include definitions, examples, and implications.`, where `L` is
the original text of the line at position `i`; the keywords play no part. -/
theorem longQuestions_rule (cfg : QuestionGenerator) (ls : List ScoredLine)
    (keywords : List (Str × Nat)) (rng : Rng) (hls : ls ≠ []) (hkeywords : keywords ≠ []) :
    (generate cfg ls keywords rng).longQuestions.length = min cfg.longCount ls.length ∧
    ∀ (i : Nat) (l : ScoredLine), i < cfg.longCount → ls[i]? = some l →
      (generate cfg ls keywords rng).longQuestions[i]? =
        some ("Discuss in detail: \"".toList ++ l.line.original ++
          "\". Include definitions, examples, and implications.".toList) := by
  rw [generate_nonempty cfg ls keywords rng hls hkeywords]
  constructor
  · simp
  · intro i l hi hl
    simp only [List.getElem?_map, List.getElem?_take, if_pos hi, hl, Option.map_some']
    rfl

/-- Witness of C25: two lines, of which one is asked about. -/
theorem longQuestions_rule_witness :
    (generate { mcqCount := 5, fillCount := 5, shortCount := 5, longCount := 1 }
      [{ line := { original := "Trees are graphs".toList,
                   cleaned := "trees are graphs".toList,
                   tokens := ["trees".toList, "graphs".toList] },
         score := 1 },
       { line := { original := "Graphs".toList, cleaned := "graphs".toList,
                   tokens := ["graphs".toList] },
         score := 0 }]
      [("graphs".toList, 2), ("trees".toList, 1)] []).longQuestions.length =
      min 1 ([{ line := { original := "Trees are graphs".toList,
                          cleaned := "trees are graphs".toList,
                          tokens := ["trees".toList, "graphs".toList] },
                score := 1 },
              { line := { original := "Graphs".toList, cleaned := "graphs".toList,
                          tokens := ["graphs".toList] },
                score := 0 }] : List ScoredLine).length ∧
    ∀ (i : Nat) (l : ScoredLine), i < 1 →
      ([{ line := { original := "Trees are graphs".toList,
                    cleaned := "trees are graphs".toList,
                    tokens := ["trees".toList, "graphs".toList] },
          score := 1 },
        { line := { original := "Graphs".toList, cleaned := "graphs".toList,
                    tokens := ["graphs".toList] },
          score := 0 }] : List ScoredLine)[i]? = some l →
      (generate { mcqCount := 5, fillCount := 5, shortCount := 5, longCount := 1 }
        [{ line := { original := "Trees are graphs".toList,
                     cleaned := "trees are graphs".toList,
                     tokens := ["trees".toList, "graphs".toList] },
           score := 1 },
         { line := { original := "Graphs".toList, cleaned := "graphs".toList,
                     tokens := ["graphs".toList] },
           score := 0 }]
        [("graphs".toList, 2), ("trees".toList, 1)] []).longQuestions[i]? =
        some ("Discuss in detail: \"".toList ++ l.line.original ++
          "\". Include definitions, examples, and implications.".toList) :=
  longQuestions_rule { mcqCount := 5, fillCount := 5, shortCount := 5, longCount := 1 }
    [{ line := { original := "Trees are graphs".toList,
                 cleaned := "trees are graphs".toList,
                 tokens := ["trees".toList, "graphs".toList] },
       score := 1 },
     { line := { original := "Graphs".toList, cleaned := "graphs".toList,
                 tokens := ["graphs".toList] },
       score := 0 }]
    [("graphs".toList, 2), ("trees".toList, 1)] [] (by simp) (by simp)

theorem foldl_mcqStep_length (keywordList : List Str) (cands : List ScoredLine)
    (st : List MCQ × Rng) :
    (cands.foldl (mcqStep keywordList) st).1.length ≤ st.1.length + cands.length := by
  obtain ⟨ms, hms, hrel⟩ := foldl_mcqStep_rel keywordList (fun _ _ => True)
    (fun _ _ _ _ => trivial) cands st
  rw [hms, List.length_append, hrel.length_eq]
  have := List.length_filter_le (specMcqLine keywordList) cands
  omega

theorem foldl_fillStep_length (keywordList : List Str) (cands : List ScoredLine) :
    (cands.foldl (fillStep keywordList) []).length ≤ cands.length := by
  rw [foldl_fillStep, List.nil_append]
  exact (List.length_filter_le _ _).trans (List.length_filterMap_le _ _)

/-- C26. For every input and configuration, each sequence of the paper returned by
`generate` is no longer than its configured count and than the input it is drawn from:
the lines for MCQs, fill-in-blanks and long questions, the keywords for short
questions. -/
theorem generate_bounds (cfg : QuestionGenerator) (ls : List ScoredLine)
    (keywords : List (Str × Nat)) (rng : Rng) :
    (generate cfg ls keywords rng).mcqs.length ≤ min cfg.mcqCount ls.length ∧
    (generate cfg ls keywords rng).fillInBlanks.length ≤ min cfg.fillCount ls.length ∧
    (generate cfg ls keywords rng).shortQuestions.length ≤
      min cfg.shortCount keywords.length ∧
    (generate cfg ls keywords rng).longQuestions.length ≤ min cfg.longCount ls.length := by
  by_cases hls : ls = []
  · subst hls
    simp [generate]
  · by_cases hkw : keywords = []
    · subst hkw
      simp [generate]
    · rw [generate_nonempty cfg ls keywords rng hls hkw]
      refine ⟨?_, ?_, ?_, ?_⟩
      · have := foldl_mcqStep_length (keywords.map Prod.fst) (ls.take cfg.mcqCount) ([], rng)
        simpa using this
      · have := foldl_fillStep_length (keywords.map Prod.fst) (ls.take cfg.fillCount)
        simpa using this
      · simp
      · simp

/-- C27. For fixed lines and keywords, each of the four sequences of the paper depends on
its own count only: two configurations that agree on one count give the same sequence of
that category (for the MCQs, from the same state of the generator), and the
short-answer and long-answer sequences are given by the keywords and the lines alone,
whatever fails in the MCQ and fill-in-blank loops. -/
theorem generate_independent (cfg1 cfg2 : QuestionGenerator) (ls : List ScoredLine)
    (keywords : List (Str × Nat)) (rng1 rng2 : Rng) :
    (cfg1.mcqCount = cfg2.mcqCount →
      (generate cfg1 ls keywords rng1).mcqs = (generate cfg2 ls keywords rng1).mcqs) ∧
    (cfg1.fillCount = cfg2.fillCount →
      (generate cfg1 ls keywords rng1).fillInBlanks =
        (generate cfg2 ls keywords rng2).fillInBlanks) ∧
    (cfg1.shortCount = cfg2.shortCount →
      (generate cfg1 ls keywords rng1).shortQuestions =
        (generate cfg2 ls keywords rng2).shortQuestions) ∧
    (cfg1.longCount = cfg2.longCount →
      (generate cfg1 ls keywords rng1).longQuestions =
        (generate cfg2 ls keywords rng2).longQuestions) ∧
    (ls ≠ [] → keywords ≠ [] →
      (generate cfg1 ls keywords rng1).shortQuestions =
        ((keywords.map Prod.fst).take cfg1.shortCount).map buildShortQuestion ∧
      (generate cfg1 ls keywords rng1).longQuestions =
        (ls.take cfg1.longCount).map buildLongQuestion) := by
  by_cases hls : ls = []
  · subst hls
    simp [generate]
  · by_cases hkw : keywords = []
    · subst hkw
      simp [generate]
    · rw [generate_nonempty cfg1 ls keywords rng1 hls hkw,
        generate_nonempty cfg2 ls keywords rng1 hls hkw,
        generate_nonempty cfg2 ls keywords rng2 hls hkw]
      refine ⟨?_, ?_, ?_, ?_, ?_⟩
      · intro h
        simp only [h]
      · intro h
        simp only [h]
      · intro h
        simp only [h]
      · intro h
        simp only [h]
      · intro _ _
        exact ⟨rfl, rfl⟩

/-! ## Determinism and absorbed failures -/

/-- C29. For every list of scored lines, keyword list and configuration, `generate`
returns a paper. Each call of `buildMcq` ends in one of its two failures or in an MCQ;
either failure leaves the MCQ loop where it was, so that the loop goes on with the next
line; and when an MCQ is built, the positions 0, 1 and 2 of the shuffled distractors
exist, the MCQ has four options and its answer names one of their slots. A line with
empty text and a single token, with three keywords, gives a paper without MCQ. -/
theorem generate_absorbs_failures (cfg : QuestionGenerator) (ls : List ScoredLine)
    (keywords : List (Str × Nat)) (rng : Rng) (line : ScoredLine)
    (st : List MCQ × Rng) :
    (∃ paper : QuestionPaper, generate cfg ls keywords rng = paper) ∧
    (buildMcq line (keywords.map Prod.fst) st.2 = Except.error McqError.noKeywordFound ∨
      buildMcq line (keywords.map Prod.fst) st.2 =
        Except.error McqError.notEnoughDistractors ∨
      ∃ r, buildMcq line (keywords.map Prod.fst) st.2 = Except.ok r) ∧
    (∀ e, buildMcq line (keywords.map Prod.fst) st.2 = Except.error e →
      mcqStep (keywords.map Prod.fst) st line = st ∧
      ∀ rest : List ScoredLine,
        (line :: rest).foldl (mcqStep (keywords.map Prod.fst)) st =
          rest.foldl (mcqStep (keywords.map Prod.fst)) st) ∧
    (∀ r, buildMcq line (keywords.map Prod.fst) st.2 = Except.ok r →
      (∀ i, i < 3 →
        i < (shuffle (specDistractorPool (keywords.map Prod.fst)
          (findKeyword line.line.tokens (keywords.map Prod.fst))) st.2).1.length) ∧
      r.1.options.length = 4 ∧ answerSlot r.1.answer < r.1.options.length) ∧
    generate { mcqCount := 5, fillCount := 5, shortCount := 5, longCount := 3 }
      [{ line := { original := [], cleaned := [], tokens := ["a".toList] }, score := 0 }]
      [("a".toList, 1), ("b".toList, 1), ("c".toList, 1)] [] =
      { mcqs := [],
        fillInBlanks := [],
        shortQuestions :=
          ["Explain the concept of \"a\" in 2\xe2\x80\x933 sentences.".toList,
            "Explain the concept of \"b\" in 2\xe2\x80\x933 sentences.".toList,
            "Explain the concept of \"c\" in 2\xe2\x80\x933 sentences.".toList],
        longQuestions :=
          ["Discuss in detail: \"\". Include definitions, examples, and implications.".toList] } := by
  refine ⟨⟨_, rfl⟩, ?_, ?_, ?_, by decide⟩
  · rcases buildMcq_cases line (keywords.map Prod.fst) st.2 with
      ⟨_, h⟩ | ⟨_, _, h⟩ | ⟨_, _, h⟩
    · exact Or.inl h
    · exact Or.inr (Or.inl h)
    · exact Or.inr (Or.inr h)
  · intro e he
    have hstep : mcqStep (keywords.map Prod.fst) st line = st := by
      unfold mcqStep
      rw [he]
    refine ⟨hstep, fun rest => ?_⟩
    rw [List.foldl_cons, hstep]
  · intro r hr
    obtain ⟨h3, _⟩ := buildMcq_options line _ st.2 r hr
    obtain ⟨_, _, _, hlen, _, hslot⟩ := buildMcq_ok line _ st.2 r hr
    refine ⟨fun i hi => by omega, hlen, ?_⟩
    by_contra hge
    rw [List.getElem?_eq_none (by omega)] at hslot
    cases hslot

/-! ## More claims on the preprocessor -/

theorem foldl_processed (ls : List Str) (acc : List ProcessedLine) :
    ls.foldl
      (fun processed raw =>
        if !(process raw).tokens.isEmpty then processed ++ [process raw] else processed)
      acc =
    acc ++ (ls.map process).filter (fun p => !p.tokens.isEmpty) := by
  induction ls generalizing acc with
  | nil => simp
  | cons x xs ih =>
    simp only [List.foldl_cons, List.map_cons]
    rw [ih]
    by_cases h : (process x).tokens.isEmpty = true
    · simp [h]
    · simp [h]

theorem processDocument_eq (doc : Document) :
    processDocument doc = (doc.lines.map process).filter (fun p => !p.tokens.isEmpty) := by
  unfold processDocument
  rw [foldl_processed]
  simp

theorem foldl_documents (docs : List Document) (acc : List ProcessedLine) :
    docs.foldl (fun all doc => all ++ processDocument doc) acc =
      acc ++ (docs.map processDocument).flatten := by
  induction docs generalizing acc with
  | nil => simp
  | cons d ds ih =>
    simp only [List.foldl_cons, List.map_cons, List.flatten_cons]
    rw [ih]
    simp

/-- C30. Processing a document returns, in the original order, the processed forms of
exactly those of its lines whose token list is not empty; processing a list of documents
returns the results for the documents one after the other; every processed line returned
has at least one token and is the processed form of a line of a document, whose text it
keeps as its original text. -/
theorem process_drops_empty (doc : Document) (docs : List Document) :
    processDocument doc = (doc.lines.map process).filter (fun p => !p.tokens.isEmpty) ∧
    processDocuments docs = (docs.map processDocument).flatten ∧
    processDocuments docs =
      ((docs.map (fun d => d.lines)).flatten.map process).filter
        (fun p => !p.tokens.isEmpty) ∧
    (∀ p ∈ processDocuments docs, p.tokens ≠ [] ∧
      ∃ d ∈ docs, ∃ raw ∈ d.lines, p = process raw ∧ p.original = raw) := by
  have hdocs : processDocuments docs = (docs.map processDocument).flatten := by
    unfold processDocuments
    rw [foldl_documents]
    simp
  have hflat : (docs.map processDocument).flatten =
      ((docs.map (fun d => d.lines)).flatten.map process).filter
        (fun p => !p.tokens.isEmpty) := by
    induction docs with
    | nil => rfl
    | cons d ds ih =>
      simp only [List.map_cons, List.flatten_cons, List.map_append, List.filter_append]
      rw [ih (by
        unfold processDocuments
        rw [foldl_documents]
        simp), processDocument_eq]
  refine ⟨processDocument_eq doc, hdocs, hdocs.trans hflat, ?_⟩
  intro p hp
  rw [hdocs, List.mem_flatten] at hp
  obtain ⟨l, hl, hpl⟩ := hp
  obtain ⟨d, hd, rfl⟩ := List.mem_map.1 hl
  rw [processDocument_eq, List.mem_filter] at hpl
  obtain ⟨hmem, htok⟩ := hpl
  obtain ⟨raw, hraw, rfl⟩ := List.mem_map.1 hmem
  refine ⟨?_, d, hd, raw, hraw, rfl, rfl⟩
  intro hnil
  rw [hnil] at htok
  simp at htok

/-! ## Empty input and traversal order -/

/-- C31. Empty input gives empty output at every stage of the tokenizer: `normalize` of
the empty text is empty, `tokenize` of the empty text and of a text of whitespace only
is the empty list, `removeStopWords` of the empty list is empty, the processed empty
line has empty cleaned text and no tokens, and a document or a list of documents without
lines gives no processed line. -/
theorem empty_input_stages (text : Str) (name : Str) :
    normalize [] = [] ∧
    tokenize [] = [] ∧
    ((∀ c ∈ text, isspace c = true) → tokenize text = []) ∧
    removeStopWords [] = [] ∧
    (process []).cleaned = [] ∧ (process []).tokens = [] ∧
    processDocument { name := name, lines := [] } = [] ∧
    processDocuments [] = [] ∧
    processDocuments [{ name := name, lines := [] }] = [] := by
  refine ⟨rfl, rfl, ?_, rfl, rfl, rfl, rfl, rfl, rfl⟩
  intro hspace
  have hflat := tokenizeFrom_flatten text []
  have hfilter : text.filter (fun c => !isspace c) = [] := by
    rw [List.filter_eq_nil_iff]
    intro c hc
    simp [hspace c hc]
  rw [hfilter, List.append_nil] at hflat
  cases htok : tokenizeFrom text [] with
  | nil => exact htok
  | cons t ts =>
    have hne := (tokenizeFrom_mem text [] t (by rw [htok]; exact List.mem_cons_self _ _)).1
    rw [htok, List.flatten_cons] at hflat
    exact absurd (List.append_eq_nil.1 hflat).1 hne

/-- The fill-in-blank of a line masks the first keyword, in rank order, that occurs
among its tokens. -/
theorem buildFillBlank_of_specFillKeyword (line : ScoredLine) (keywords : List Str)
    (k : Str) (h : specFillKeyword keywords line.line.tokens = some k) :
    buildFillBlank line keywords = maskKeyword line.line.original k := by
  unfold specFillKeyword at h
  unfold buildFillBlank containsKeyword
  rw [h]

/-- C32. The keyword of a line's MCQ, its first token in the keyword list, can differ
from the keyword of the same line's fill-in-blank, the best-ranked keyword among its
tokens: the tokens `b a` with the keywords `a b c d` give `b` for the MCQ and `a` for the
fill-in-blank. The two are the same keyword whenever the first token of the line that is
a keyword is preceded in the ranking by no keyword occurring among the tokens. -/
theorem keyword_choice_asymmetry (line : ScoredLine) (keywords : List Str) (k : Str) :
    (specMcqToken ["a".toList, "b".toList, "c".toList, "d".toList]
        ["b".toList, "a".toList] = some "b".toList ∧
      specFillKeyword ["a".toList, "b".toList, "c".toList, "d".toList]
        ["b".toList, "a".toList] = some "a".toList ∧
      buildFillBlank
        { line := { original := "b a".toList, cleaned := "b a".toList,
                    tokens := ["b".toList, "a".toList] },
          score := 1 }
        ["a".toList, "b".toList, "c".toList, "d".toList] = "b ".toList ∧
      ∃ (g : Rng) (r : MCQ × Rng),
        buildMcq
          { line := { original := "b a".toList, cleaned := "b a".toList,
                      tokens := ["b".toList, "a".toList] },
            score := 1 }
          ["a".toList, "b".toList, "c".toList, "d".toList] g = Except.ok r ∧
        r.1.prompt = mcqLeadIn ++ " a".toList) ∧
    (specMcqToken keywords line.line.tokens = some k →
      (∃ before after, keywords = before ++ k :: after ∧
        ∀ k2 ∈ before, k2 ∉ line.line.tokens) →
      specFillKeyword keywords line.line.tokens = some k ∧
      buildFillBlank line keywords = maskKeyword line.line.original k ∧
      ∀ (g : Rng) (r : MCQ × Rng), buildMcq line keywords g = Except.ok r →
        r.1.prompt = mcqLeadIn ++ maskKeyword line.line.original k) := by
  constructor
  · refine ⟨by decide, by decide, by decide, [2, 7, 1, 8],
      ({ prompt := mcqLeadIn ++ " a".toList,
         options := ["a".toList, "c".toList, "d".toList, "b".toList],
         answer := 'D' }, []), rfl, rfl⟩
  · intro hmcq hbest
    obtain ⟨before, after, hsplit, hbefore⟩ := hbest
    have hktok : k ∈ line.line.tokens := by
      unfold specMcqToken at hmcq
      exact List.mem_of_find?_eq_some hmcq
    have hfill : specFillKeyword keywords line.line.tokens = some k := by
      unfold specFillKeyword
      rw [List.find?_eq_some]
      refine ⟨by simpa using hktok, before, after, hsplit, ?_⟩
      intro k2 hk2
      simpa using hbefore k2 hk2
    refine ⟨hfill, buildFillBlank_of_specFillKeyword line keywords k hfill, ?_⟩
    intro g r hr
    obtain ⟨hkw, _, hprompt, _⟩ := buildMcq_ok line keywords g r hr
    have h2 := specMcqToken_of_findKeyword _ _ hkw
    rw [hmcq] at h2
    simp only [Option.some.injEq] at h2
    rw [hprompt, ← h2]

/-! ## Counts of a frequency map -/

theorem counts_increment (m : FrequencyMap) (tok : Str) (h : ∀ e ∈ m, 1 ≤ e.2) :
    (∀ e ∈ increment m tok, 1 ≤ e.2) ∧
    ((increment m tok).map Prod.snd).sum = (m.map Prod.snd).sum + 1 := by
  induction m with
  | nil => simp [increment]
  | cons e rest ih =>
    obtain ⟨k, c⟩ := e
    have hrest : ∀ e ∈ rest, 1 ≤ e.2 := fun e he => h e (List.mem_cons_of_mem _ he)
    have hc : 1 ≤ c := h (k, c) (List.mem_cons_self _ _)
    obtain ⟨ih1, ih2⟩ := ih hrest
    unfold increment
    by_cases hk : k = tok
    · rw [if_pos hk]
      constructor
      · intro e he
        rcases List.mem_cons.1 he with rfl | he
        · simp
        · exact hrest e he
      · simp only [List.map_cons, List.sum_cons]
        omega
    · rw [if_neg hk]
      constructor
      · intro e he
        rcases List.mem_cons.1 he with rfl | he
        · exact hc
        · exact ih1 e he
      · simp only [List.map_cons, List.sum_cons]
        omega

theorem counts_foldl_increment (tokens : List Str) (acc : FrequencyMap)
    (h : ∀ e ∈ acc, 1 ≤ e.2) :
    (∀ e ∈ tokens.foldl increment acc, 1 ≤ e.2) ∧
    ((tokens.foldl increment acc).map Prod.snd).sum =
      (acc.map Prod.snd).sum + tokens.length := by
  induction tokens generalizing acc with
  | nil => exact ⟨h, by simp⟩
  | cons x xs ih =>
    simp only [List.foldl_cons, List.length_cons]
    obtain ⟨h1, h2⟩ := counts_increment acc x h
    obtain ⟨h3, h4⟩ := ih (increment acc x) h1
    exact ⟨h3, by omega⟩

/-- C35. Every count of `frequency tokens` is at least 1 and the counts add up to the
number of tokens; so for a non-empty map produced by `frequency` the count `maxFreq` found
by `score` is at least 1, and the divisor of `score` is not zero. -/
theorem frequency_counts_positive (tokens : List Str) :
    (∀ e ∈ frequency tokens, 1 ≤ e.2) ∧
    ((frequency tokens).map Prod.snd).sum = tokens.length ∧
    (frequency tokens ≠ [] →
      ∃ m, maxElement (frequency tokens) = some m ∧ 1 ≤ m.2 ∧ ((m.2 : ℕ) : ℚ) ≠ 0 ∧
        Dbl.ofNat m.2 ≠ Dbl.fin 0) := by
  obtain ⟨h1, h2⟩ := counts_foldl_increment tokens [] (by simp)
  refine ⟨h1, by simpa [frequency] using h2, ?_⟩
  intro hne
  obtain ⟨m, hm⟩ := maxElement_isSome (frequency tokens) hne
  have hpos : 1 ≤ m.2 := h1 m (maxElement_spec _ m hm).1
  have hq : ((m.2 : ℕ) : ℚ) ≠ 0 := by exact_mod_cast (Nat.pos_iff_ne_zero.1 hpos)
  refine ⟨m, hm, hpos, hq, ?_⟩
  intro h
  exact hq (Dbl.fin.inj h)

/-! ## Ranking and the enumeration of the map -/

/-- Two entries neither of which ranks before the other are the same entry. -/
theorem rankBefore_antisymm (a b : Str × Nat) (hab : rankBefore b a = false)
    (hba : rankBefore a b = false) : a = b := by
  rcases rankBefore_false_iff a b hab with h1 | ⟨h1, h2⟩
  · rcases rankBefore_false_iff b a hba with h3 | ⟨h3, _⟩
    · omega
    · omega
  · rcases rankBefore_false_iff b a hba with h3 | ⟨_, h4⟩
    · omega
    · have hkey : a.1 = b.1 := by
        rcases h2 with h2 | h2
        · exact h2
        · rcases h4 with h4 | h4
          · exact h4.symm
          · have := strLt_trans _ _ _ h2 h4
            rw [strLt_irrefl] at this
            cases this
      exact Prod.ext hkey h1

/-- The full ranking does not depend on the enumeration of the entries. -/
theorem sortBy_rankBefore_perm (m1 m2 : FrequencyMap) (h : m1.Perm m2) :
    sortBy rankBefore m1 = sortBy rankBefore m2 := by
  haveI : IsAntisymm (Str × Nat) (fun a b => rankBefore b a = false) :=
    ⟨fun a b hab hba => rankBefore_antisymm a b hab hba⟩
  exact List.eq_of_perm_of_sorted
    (((sortBy_perm rankBefore m1).trans h).trans (sortBy_perm rankBefore m2).symm)
    (sortBy_rankBefore_sorted m1) (sortBy_rankBefore_sorted m2)

/-- C36. For two enumerations of the entries of the same map with distinct tokens,
`topKeywords` returns the same sequence at the same limit, and the tokens of the
returned sequence are pairwise distinct. -/
theorem topKeywords_enumeration (m1 m2 : FrequencyMap) (limit : Nat)
    (hperm : m1.Perm m2) (hnd : NodupKeys m1) :
    topKeywords m1 limit = topKeywords m2 limit ∧
    ((topKeywords m1 limit).map Prod.fst).Nodup := by
  constructor
  · rw [topKeywords_eq_take, topKeywords_eq_take, sortBy_rankBefore_perm m1 m2 hperm]
  · rw [topKeywords_eq_take]
    have h1 : ((sortBy rankBefore m1).map Prod.fst).Nodup :=
      ((sortBy_perm rankBefore m1).map Prod.fst).nodup_iff.2 hnd
    exact h1.sublist ((List.take_sublist limit _).map Prod.fst)

/-- Witness of C36: the map `{a:3, b:1, c:1}` enumerated in two orders. -/
theorem topKeywords_enumeration_witness :
    topKeywords [("c".toList, 1), ("a".toList, 3), ("b".toList, 1)] 2 =
      topKeywords [("b".toList, 1), ("c".toList, 1), ("a".toList, 3)] 2 ∧
    ((topKeywords [("c".toList, 1), ("a".toList, 3), ("b".toList, 1)] 2).map
      Prod.fst).Nodup :=
  topKeywords_enumeration [("c".toList, 1), ("a".toList, 3), ("b".toList, 1)]
    [("b".toList, 1), ("c".toList, 1), ("a".toList, 3)] 2 (by decide) (by decide)

/-! ## The exported file path -/

/-- No character of the set occurs in a text on which `findLastOf` finds none. -/
theorem findLastOf_none (chars : List Char) (s : Str) (h : findLastOf chars s = none) :
    ∀ x ∈ s, x ∉ chars := by
  induction s with
  | nil => intro x hx; simp at hx
  | cons a rest ih =>
    unfold findLastOf at h
    cases hrest : findLastOf chars rest with
    | some _ => rw [hrest] at h; cases h
    | none =>
      rw [hrest] at h
      simp only at h
      split at h
      · cases h
      · rename_i ha
        intro x hx
        rcases List.mem_cons.1 hx with rfl | hx
        · exact ha
        · exact ih hrest x hx

/-- The position returned by `findLastOf` holds one of the characters and none of them
occurs after it. -/
theorem findLastOf_some (chars : List Char) (s : Str) (i : Nat)
    (h : findLastOf chars s = some i) :
    ∃ c post, s = s.take i ++ c :: post ∧ c ∈ chars ∧ i < s.length ∧
      s.drop (i + 1) = post ∧ ∀ x ∈ post, x ∉ chars := by
  induction s generalizing i with
  | nil => simp [findLastOf] at h
  | cons a rest ih =>
    unfold findLastOf at h
    cases hrest : findLastOf chars rest with
    | some j =>
      rw [hrest] at h
      simp only [Option.some.injEq] at h
      subst h
      obtain ⟨c, post, hsplit, hc, hj, hdrop, hpost⟩ := ih j hrest
      refine ⟨c, post, ?_, hc, by simpa using hj, by simpa using hdrop, hpost⟩
      rw [List.take_succ_cons, List.cons_append, ← hsplit]
    | none =>
      rw [hrest] at h
      simp only at h
      split at h
      · rename_i ha
        simp only [Option.some.injEq] at h
        subst h
        refine ⟨a, rest, by simp, ha, by simp, by simp, ?_⟩
        intro x hx hxc
        exact findLastOf_none chars rest hrest x hx hxc
      · cases h

/-- The last dot of a path followed by `.txt` is the dot of `.txt`. -/
theorem findLastOf_dot_txt (p : Str) :
    findLastOf ['.'] (p ++ ".txt".toList) = some p.length := by
  induction p with
  | nil => decide
  | cons a rest ih =>
    rw [List.cons_append]
    unfold findLastOf
    rw [ih]
    rfl

/-- The last separator of a path followed by `.txt`, if any, lies in the path. -/
theorem findLastOf_slash_txt (p : Str) :
    findLastOf ['/', '\\'] (p ++ ".txt".toList) = none ∨
    ∃ sl, findLastOf ['/', '\\'] (p ++ ".txt".toList) = some sl ∧ sl < p.length := by
  induction p with
  | nil => exact Or.inl (by decide)
  | cons a rest ih =>
    rw [List.cons_append]
    unfold findLastOf
    rcases ih with h | ⟨sl, h, hlt⟩
    · rw [h]
      simp only
      split
      · exact Or.inr ⟨0, rfl, by simp⟩
      · exact Or.inl rfl
    · rw [h]
      exact Or.inr ⟨sl + 1, rfl, by simpa using hlt⟩

/-- A path that ends in `.txt` is returned as it is. -/
theorem ensureTxtExtension_append_txt (p : Str) :
    ensureTxtExtension (p ++ ".txt".toList) = p ++ ".txt".toList := by
  have hext : lower ((p ++ ".txt".toList).drop (p.length + 1)) = "txt".toList := by
    rw [List.drop_append_eq_append_drop]
    have h1 : List.drop (p.length + 1) p = [] := List.drop_of_length_le (by omega)
    have h2 : p.length + 1 - p.length = 1 := by omega
    rw [h1, h2]
    decide
  unfold ensureTxtExtension
  simp only
  rw [findLastOf_dot_txt]
  rcases findLastOf_slash_txt p with h | ⟨sl, h, hlt⟩
  · rw [h]
    simp only [if_true]
    rw [if_pos hext]
  · rw [h]
    simp only [gt_iff_lt, decide_eq_true_eq]
    rw [if_pos hlt, if_pos hext]

/-- The two outcomes of `ensureTxtExtension`: the path itself, whose text after its last
dot is `txt` ignoring case, or the path followed by `.txt`. -/
theorem ensureTxtExtension_cases (p : Str) :
    (ensureTxtExtension p = p ∧
      ∃ d, findLastOf ['.'] p = some d ∧ lower (p.drop (d + 1)) = "txt".toList) ∨
    ensureTxtExtension p = p ++ ".txt".toList := by
  unfold ensureTxtExtension
  simp only
  cases hd : findLastOf ['.'] p with
  | none => exact Or.inr rfl
  | some d =>
    simp only
    split
    · split
      · rename_i hext
        exact Or.inl ⟨rfl, d, rfl, hext⟩
      · exact Or.inr rfl
    · exact Or.inr rfl

/-- C33. For every path `p`, `ensureTxtExtension p` is `p` itself or `p` followed by
`.txt`; the text after the last dot of the result is `txt` ignoring case; and applying
`ensureTxtExtension` to the result changes nothing. The path `paper` becomes `paper.txt`,
`paper.TXT` is kept, and a dot in a directory name does not count. -/
theorem ensureTxtExtension_spec (p : Str) :
    (ensureTxtExtension p = p ∨ ensureTxtExtension p = p ++ ".txt".toList) ∧
    (∃ pre ext, ensureTxtExtension p = pre ++ '.' :: ext ∧ '.' ∉ ext ∧
      lower ext = "txt".toList) ∧
    ensureTxtExtension (ensureTxtExtension p) = ensureTxtExtension p ∧
    ensureTxtExtension "paper".toList = "paper.txt".toList ∧
    ensureTxtExtension "paper.TXT".toList = "paper.TXT".toList ∧
    ensureTxtExtension "v1.2/paper".toList = "v1.2/paper.txt".toList := by
  refine ⟨?_, ?_, ?_, by decide, by decide, by decide⟩
  · rcases ensureTxtExtension_cases p with ⟨hsame, _⟩ | happ
    · exact Or.inl hsame
    · exact Or.inr happ
  · rcases ensureTxtExtension_cases p with ⟨hsame, d, hd, hext⟩ | happ
    · obtain ⟨c, post, hsplit, hc, _, hdrop, hpost⟩ := findLastOf_some ['.'] p d hd
      have hcdot : c = '.' := by simpa using hc
      subst hcdot
      rw [hdrop] at hext
      refine ⟨p.take d, post, ?_, ?_, hext⟩
      · rw [hsame]
        exact hsplit
      · intro hmem
        exact hpost '.' hmem (by simp)
    · refine ⟨p, "txt".toList, ?_, by decide, by decide⟩
      rw [happ]
      rfl
  · rcases ensureTxtExtension_cases p with ⟨hsame, _⟩ | happ
    · rw [hsame, hsame]
    · rw [happ, ensureTxtExtension_append_txt]

/-! ## Tokens of a line and masking -/

/-- Every token read from a text is a run of consecutive characters of the text. -/
theorem tokenizeFrom_substring (rest cur : Str) :
    ∀ t ∈ tokenizeFrom rest cur, ∃ pre post, cur ++ rest = pre ++ t ++ post := by
  induction rest generalizing cur with
  | nil =>
    intro t ht
    unfold tokenizeFrom at ht
    cases cur with
    | nil => simp at ht
    | cons a as =>
      simp only [List.isEmpty_cons, Bool.false_eq_true, if_false, List.mem_singleton] at ht
      subst ht
      exact ⟨[], [], by simp⟩
  | cons c rest ih =>
    intro t ht
    unfold tokenizeFrom at ht
    by_cases hc : isspace c = true
    · rw [if_pos hc] at ht
      have hrest : ∀ u ∈ tokenizeFrom rest [],
          ∃ pre post, cur ++ c :: rest = pre ++ u ++ post := by
        intro u hu
        obtain ⟨pre, post, h⟩ := ih [] u hu
        refine ⟨cur ++ [c] ++ pre, post, ?_⟩
        simp only [List.nil_append] at h
        rw [h]
        simp
      cases cur with
      | nil => exact hrest t (by simpa using ht)
      | cons a as =>
        simp only [List.isEmpty_cons, Bool.false_eq_true, if_false, List.mem_cons] at ht
        rcases ht with rfl | ht
        · exact ⟨[], c :: rest, by simp⟩
        · exact hrest t ht
    · rw [if_neg hc] at ht
      obtain ⟨pre, post, h⟩ := ih _ t ht
      refine ⟨pre, post, ?_⟩
      rw [← h]
      simp

theorem tolower_idem (c : Char) : tolower (tolower c) = tolower c := by
  refine char_cases (fun c => tolower (tolower c) = tolower c) (by decide) ?_ c
  intro c h
  show tolower (tolower c) = tolower c
  rw [tolower_high c h, tolower_high c h]

theorem lower_lower (s : Str) : lower (lower s) = lower s := by
  unfold lower
  rw [List.map_map]
  exact List.map_congr_left (fun c _ => tolower_idem c)

/-- Every token of a processed line is the lower-cased form of a run of consecutive
characters of the line, and is not empty. -/
theorem process_token_run (raw t : Str) (ht : t ∈ (process raw).tokens) :
    t ≠ [] ∧ ∃ pre mid post, raw = pre ++ mid ++ post ∧ lower mid = t := by
  unfold process at ht
  simp only at ht
  rw [removeStopWords_eq_filter] at ht
  have htok : t ∈ tokenize (normalize raw) := (List.mem_filter.1 ht).1
  unfold tokenize at htok
  obtain ⟨hne, hchars⟩ := tokenizeFrom_mem (normalize raw) [] t htok
  obtain ⟨pre2, post2, hsplit⟩ := tokenizeFrom_substring (normalize raw) [] t htok
  rw [List.nil_append, normalize_eq_map] at hsplit
  obtain ⟨l12, post, hraw, hl12, _⟩ := List.map_eq_append_iff.1 hsplit
  obtain ⟨pre, mid, hl12split, _, hmid⟩ := List.map_eq_append_iff.1 hl12
  refine ⟨hne, pre, mid, post, by rw [hraw, hl12split], ?_⟩
  rw [← hmid]
  unfold lower
  apply List.map_congr_left
  intro c hc
  have hmem : normalizeChar c ∈ t := by
    rw [← hmid]
    exact List.mem_map_of_mem _ hc
  have hns : isspace (normalizeChar c) = false := by
    rcases hchars _ hmem with h | h
    · simp at h
    · exact h
  rw [isspace_normalizeChar] at hns
  exact (normalizeChar_of_isalnum c hns).symm

/-- No token of a processed line is the empty string: the lines that the pipeline hands to
`generate` meet the condition under which the MCQ skip policy is proved. -/
theorem process_tokens_nonempty (raw : Str) : ([] : Str) ∉ (process raw).tokens :=
  fun h => (process_token_run raw [] h).1 rfl

/-- Masking a keyword that occurs and is not empty shortens the text by the length of
the keyword. -/
theorem maskKeyword_of_occurs (text keyword : Str) (hne : keyword ≠ [])
    (hocc : ∃ pre mid post, OccursAt text keyword pre mid post) :
    maskKeyword text keyword ≠ text ∧
    (maskKeyword text keyword).length = text.length - keyword.length ∧
    keyword.length ≤ text.length := by
  have hsome := (occurs_iff_strFind text keyword).1 hocc
  cases hfind : strFind (lower text) (lower keyword) with
  | none => exact absurd hfind hsome
  | some n =>
    obtain ⟨hsplit, hlow⟩ := occursAt_of_strFind text keyword n hfind
    have hmidlen : ((text.drop n).take keyword.length).length = keyword.length := by
      have := congrArg List.length hlow
      rwa [lower_length, lower_length] at this
    have hlen := congrArg List.length hsplit
    simp only [List.length_append] at hlen
    rw [hmidlen] at hlen
    have hmask : maskKeyword text keyword =
        text.take n ++ text.drop (n + keyword.length) := by
      unfold maskKeyword
      rw [hfind]
      rfl
    have hkpos : 0 < keyword.length := List.length_pos.2 hne
    have hmasklen : (maskKeyword text keyword).length = text.length - keyword.length := by
      rw [hmask, List.length_append]
      omega
    refine ⟨?_, hmasklen, by omega⟩
    intro heq
    rw [heq] at hmasklen
    omega

/-- A token of a processed line occurs in the line ignoring case, and masking it
shortens the line by its length. -/
theorem mask_own_token (raw t : Str) (ht : t ∈ (process raw).tokens) :
    (∃ pre mid post, OccursAt raw t pre mid post) ∧
    maskKeyword raw t ≠ raw ∧
    (maskKeyword raw t).length = raw.length - t.length ∧
    t.length ≤ raw.length := by
  obtain ⟨hne, pre, mid, post, hraw, hmid⟩ := process_token_run raw t ht
  have hocc : ∃ pre mid post, OccursAt raw t pre mid post :=
    ⟨pre, mid, post, hraw, by rw [← hmid, lower_lower]⟩
  exact ⟨hocc, maskKeyword_of_occurs raw t hne hocc⟩

/-- Every fill-in-blank of a paper is a line among those given, with the first keyword
in rank order among its tokens masked. -/
theorem generate_fill_mem (cfg : QuestionGenerator) (ls : List ScoredLine)
    (keywords : List (Str × Nat)) (rng : Rng) (q : Str)
    (hq : q ∈ (generate cfg ls keywords rng).fillInBlanks) :
    ∃ l ∈ ls, ∃ k ∈ l.line.tokens, k ∈ keywords.map Prod.fst ∧
      q = maskKeyword l.line.original k := by
  by_cases hls : ls = []
  · subst hls
    simp [generate] at hq
  · by_cases hkw : keywords = []
    · subst hkw
      simp [generate] at hq
    · rw [generate_nonempty cfg ls keywords rng hls hkw] at hq
      simp only at hq
      rw [foldl_fillStep, List.nil_append, List.mem_filter, List.mem_filterMap] at hq
      obtain ⟨⟨l, hl, hmap⟩, _⟩ := hq
      cases hk : specFillKeyword (keywords.map Prod.fst) l.line.tokens with
      | none =>
        rw [hk] at hmap
        cases hmap
      | some k =>
        rw [hk] at hmap
        simp only [Option.map_some', Option.some.injEq] at hmap
        unfold specFillKeyword at hk
        have hktok : k ∈ l.line.tokens := by simpa using List.find?_some hk
        exact ⟨l, List.mem_of_mem_take hl, k, hktok, List.mem_of_find?_eq_some hk,
          hmap.symm⟩

/-- C34. For every raw line and every token of its processed form, the token occurs in
the line ignoring case, so that masking it gives a text different from the line, shorter
by the length of the token. Hence in a paper generated from lines produced by `process`,
the body of every MCQ prompt and every fill-in-blank is the original line with a keyword
removed. -/
theorem mask_never_falls_back (raw t : Str) (ht : t ∈ (process raw).tokens) :
    (∃ pre mid post, OccursAt raw t pre mid post) ∧
    maskKeyword raw t ≠ raw ∧
    (maskKeyword raw t).length = raw.length - t.length ∧
    t.length ≤ raw.length ∧
    (∀ (cfg : QuestionGenerator) (ls : List ScoredLine) (keywords : List (Str × Nat))
      (rng : Rng), (∀ l ∈ ls, l.line = process l.line.original) →
      (∀ m ∈ (generate cfg ls keywords rng).mcqs, ∃ l ∈ ls, ∃ kw ∈ l.line.tokens,
        m.prompt = mcqLeadIn ++ maskKeyword l.line.original kw ∧
        maskKeyword l.line.original kw ≠ l.line.original ∧
        (maskKeyword l.line.original kw).length =
          l.line.original.length - kw.length) ∧
      (∀ q ∈ (generate cfg ls keywords rng).fillInBlanks, ∃ l ∈ ls, ∃ kw ∈ l.line.tokens,
        q = maskKeyword l.line.original kw ∧
        q ≠ l.line.original ∧
        q.length = l.line.original.length - kw.length)) := by
  obtain ⟨h1, h2, h3, h4⟩ := mask_own_token raw t ht
  refine ⟨h1, h2, h3, h4, ?_⟩
  intro cfg ls keywords rng hproc
  constructor
  · intro m hm
    obtain ⟨l, hl, g, r, hb, rfl⟩ := generate_mcqs_mem cfg ls keywords rng m hm
    obtain ⟨hkw, _, hprompt, _⟩ := buildMcq_ok l _ g r hb
    obtain ⟨_, htok, _⟩ := findKeyword_spec _ _ hkw
    have htok2 : findKeyword l.line.tokens (keywords.map Prod.fst) ∈
        (process l.line.original).tokens := by
      rw [← hproc l hl]
      exact htok
    obtain ⟨_, h6, h7, _⟩ := mask_own_token _ _ htok2
    exact ⟨l, hl, _, htok, hprompt, h6, h7⟩
  · intro q hq
    obtain ⟨l, hl, k, hk, _, rfl⟩ := generate_fill_mem cfg ls keywords rng q hq
    have hk2 : k ∈ (process l.line.original).tokens := by
      rw [← hproc l hl]
      exact hk
    obtain ⟨_, h6, h7, _⟩ := mask_own_token _ _ hk2
    exact ⟨l, hl, k, hk, rfl, h6, h7⟩

/-- Witness of C34: the token `world` of the line `Hello, World! 123`. -/
theorem mask_never_falls_back_witness :
    (∃ pre mid post, OccursAt "Hello, World! 123".toList "world".toList pre mid post) ∧
    maskKeyword "Hello, World! 123".toList "world".toList ≠ "Hello, World! 123".toList ∧
    (maskKeyword "Hello, World! 123".toList "world".toList).length =
      "Hello, World! 123".toList.length - "world".toList.length ∧
    "world".toList.length ≤ "Hello, World! 123".toList.length ∧
    (∀ (cfg : QuestionGenerator) (ls : List ScoredLine) (keywords : List (Str × Nat))
      (rng : Rng), (∀ l ∈ ls, l.line = process l.line.original) →
      (∀ m ∈ (generate cfg ls keywords rng).mcqs, ∃ l ∈ ls, ∃ kw ∈ l.line.tokens,
        m.prompt = mcqLeadIn ++ maskKeyword l.line.original kw ∧
        maskKeyword l.line.original kw ≠ l.line.original ∧
        (maskKeyword l.line.original kw).length =
          l.line.original.length - kw.length) ∧
      (∀ q ∈ (generate cfg ls keywords rng).fillInBlanks, ∃ l ∈ ls, ∃ kw ∈ l.line.tokens,
        q = maskKeyword l.line.original kw ∧
        q ≠ l.line.original ∧
        q.length = l.line.original.length - kw.length)) :=
  mask_never_falls_back "Hello, World! 123".toList "world".toList (by decide)

/-- C39. Masking works on characters, not on tokens: `art` is a token of the line
`Smart art`, and masking it deletes the characters 2 to 4, which lie inside the earlier
word `Smart`, giving `Sm art`; the fill-in-blank of that line for the keyword `art` is
that text. In general the span deleted starts at the leftmost occurrence of the keyword
ignoring case, whether or not it is a whole word. -/
theorem mask_is_substring_based :
    (process "Smart art".toList).tokens = ["smart".toList, "art".toList] ∧
    maskKeyword "Smart art".toList "art".toList = "Sm art".toList ∧
    strFind (lower "Smart art".toList) (lower "art".toList) = some 2 ∧
    OccursAt "Smart art".toList "art".toList "Sm".toList "art".toList " art".toList ∧
    buildFillBlank { line := process "Smart art".toList, score := 1 } ["art".toList] =
      "Sm art".toList ∧
    (∀ (text keyword : Str) (n : Nat),
      strFind (lower text) (lower keyword) = some n →
      maskKeyword text keyword = text.take n ++ text.drop (n + keyword.length) ∧
      OccursAt text keyword (text.take n) ((text.drop n).take keyword.length)
        (text.drop (n + keyword.length)) ∧
      ∀ pre mid post, OccursAt text keyword pre mid post → n ≤ pre.length) := by
  refine ⟨by decide, by decide, by decide, ⟨by decide, by decide⟩, by decide, ?_⟩
  intro text keyword n hfind
  refine ⟨?_, occursAt_of_strFind text keyword n hfind, ?_⟩
  · unfold maskKeyword
    rw [hfind]
    rfl
  · intro pre mid post hocc
    obtain ⟨_, _, hleast⟩ := strFind_some _ _ n hfind
    have := hleast _ _ (occursAt_lower _ _ _ _ _ hocc)
    rwa [lower_length] at this

/-! ## Distinct options and the part played by randomness -/

/-- With pairwise distinct keywords the options of an MCQ are pairwise distinct. -/
theorem buildMcq_options_nodup (line : ScoredLine) (keywords : List Str) (rng : Rng)
    (r : MCQ × Rng) (hnd : keywords.Nodup) (h : buildMcq line keywords rng = Except.ok r) :
    r.1.options.Nodup := by
  obtain ⟨_, hperm⟩ := buildMcq_options line keywords rng r h
  rw [hperm.nodup_iff]
  have hpool : (specDistractorPool keywords (findKeyword line.line.tokens keywords)).Nodup := by
    unfold specDistractorPool
    exact hnd.filter _
  have hshuffled : (shuffle (specDistractorPool keywords
      (findKeyword line.line.tokens keywords)) rng).1.Nodup :=
    (shuffle_perm _ rng).nodup_iff.2 hpool
  refine List.Nodup.cons ?_ (hshuffled.sublist (List.take_sublist 3 _))
  intro hmem
  have h1 := (shuffle_perm _ rng).mem_iff.1 (List.mem_of_mem_take hmem)
  unfold specDistractorPool at h1
  have h2 := (List.mem_filter.1 h1).2
  simp at h2

/-- C37. For a keyword list with pairwise distinct tokens and every supply of random
draws, the 4 options of every generated MCQ are pairwise distinct, and exactly one option
slot holds the correct keyword, the one masked in the prompt: the slot named by the
answer label. -/
theorem generate_options_distinct (cfg : QuestionGenerator) (ls : List ScoredLine)
    (keywords : List (Str × Nat)) (rng : Rng) (hnd : (keywords.map Prod.fst).Nodup)
    (m : MCQ) (hm : m ∈ (generate cfg ls keywords rng).mcqs) :
    m.options.length = 4 ∧ m.options.Nodup ∧
    ∃ kw, (∃ l ∈ ls, m.prompt = mcqLeadIn ++ maskKeyword l.line.original kw) ∧
      m.options[answerSlot m.answer]? = some kw ∧
      ∀ (i : Nat), m.options[i]? = some kw → i = answerSlot m.answer := by
  obtain ⟨l, hl, g, r, hb, rfl⟩ := generate_mcqs_mem cfg ls keywords rng m hm
  obtain ⟨_, _, hprompt, hlen, _, hslot⟩ := buildMcq_ok l _ g r hb
  have hnodup := buildMcq_options_nodup l _ g r hnd hb
  refine ⟨hlen, hnodup, _, ⟨l, hl, hprompt⟩, hslot, ?_⟩
  · intro i hi
    have hlt : i < r.1.options.length := by
      by_contra hge
      rw [List.getElem?_eq_none (by omega)] at hi
      cases hi
    exact List.getElem?_inj hlt hnodup (hi.trans hslot.symm)

/-- Witness of C37: the MCQ built from the line `Graphs model things` and five distinct
keywords. -/
theorem generate_options_distinct_witness :
    ({ prompt := mcqLeadIn ++ " model things".toList,
       options := ["x".toList, "z".toList, "y".toList, "graphs".toList],
       answer := 'D' } : MCQ).options.length = 4 ∧
    ({ prompt := mcqLeadIn ++ " model things".toList,
       options := ["x".toList, "z".toList, "y".toList, "graphs".toList],
       answer := 'D' } : MCQ).options.Nodup ∧
    ∃ kw,
      (∃ l ∈ [({ line := { original := "Graphs model things".toList,
                            cleaned := "graphs model things".toList,
                            tokens := ["graphs".toList, "model".toList, "things".toList] },
                  score := 1 } : ScoredLine)],
        ({ prompt := mcqLeadIn ++ " model things".toList,
           options := ["x".toList, "z".toList, "y".toList, "graphs".toList],
           answer := 'D' } : MCQ).prompt = mcqLeadIn ++ maskKeyword l.line.original kw) ∧
      ({ prompt := mcqLeadIn ++ " model things".toList,
         options := ["x".toList, "z".toList, "y".toList, "graphs".toList],
         answer := 'D' } : MCQ).options[answerSlot
        ({ prompt := mcqLeadIn ++ " model things".toList,
           options := ["x".toList, "z".toList, "y".toList, "graphs".toList],
           answer := 'D' } : MCQ).answer]? = some kw ∧
      ∀ (i : Nat),
        ({ prompt := mcqLeadIn ++ " model things".toList,
           options := ["x".toList, "z".toList, "y".toList, "graphs".toList],
           answer := 'D' } : MCQ).options[i]? = some kw →
        i = answerSlot
          ({ prompt := mcqLeadIn ++ " model things".toList,
             options := ["x".toList, "z".toList, "y".toList, "graphs".toList],
             answer := 'D' } : MCQ).answer :=
  generate_options_distinct
    { mcqCount := 5, fillCount := 5, shortCount := 5, longCount := 3 }
    [{ line := { original := "Graphs model things".toList,
                 cleaned := "graphs model things".toList,
                 tokens := ["graphs".toList, "model".toList, "things".toList] },
       score := 1 }]
    [("model".toList, 2), ("graphs".toList, 1), ("x".toList, 1), ("y".toList, 1),
      ("z".toList, 1)]
    [3, 1, 4, 1, 5, 8] (by decide)
    { prompt := mcqLeadIn ++ " model things".toList,
      options := ["x".toList, "z".toList, "y".toList, "graphs".toList],
      answer := 'D' }
    (by decide)

theorem forall2_map_eq {α β γ : Type} (G : α → γ) (F : β → γ) (ms : List α) (cs : List β)
    (h : List.Forall₂ (fun m l => G m = F l) ms cs) : ms.map G = cs.map F := by
  induction h with
  | nil => rfl
  | cons hhead _ ih => rw [List.map_cons, List.map_cons, hhead, ih]

/-- The prompts of the MCQs of a paper, and the strings at their answer slots, are
given by the lines and the keywords alone. -/
theorem generate_mcqs_fixed_part (cfg : QuestionGenerator) (ls : List ScoredLine)
    (keywords : List (Str × Nat)) (rng : Rng) (hls : ls ≠ []) (hkeywords : keywords ≠ []) :
    (generate cfg ls keywords rng).mcqs.map
        (fun m => (m.prompt, m.options[answerSlot m.answer]?)) =
      ((ls.take cfg.mcqCount).filter (specMcqLine (keywords.map Prod.fst))).map
        (fun l =>
          (mcqLeadIn ++ maskKeyword l.line.original
              (findKeyword l.line.tokens (keywords.map Prod.fst)),
            some (findKeyword l.line.tokens (keywords.map Prod.fst)))) := by
  apply forall2_map_eq
  refine generate_mcqs_rel cfg ls keywords rng _ ?_ hls hkeywords
  intro line g r hb
  obtain ⟨_, _, hprompt, _, _, hslot⟩ := buildMcq_ok line _ g r hb
  rw [hprompt, hslot]

/-- C38. For identical lines, keywords and counts and any two supplies of random draws,
the two papers have the same fill-in-blank, short-answer and long-answer sequences, the
same number of MCQs, the same prompt for each MCQ and the same string at the answer slot
of each MCQ; the order of the options can differ. -/
theorem randomness_scope (cfg : QuestionGenerator) (ls : List ScoredLine)
    (keywords : List (Str × Nat)) (rng1 rng2 : Rng) :
    (generate cfg ls keywords rng1).fillInBlanks =
      (generate cfg ls keywords rng2).fillInBlanks ∧
    (generate cfg ls keywords rng1).shortQuestions =
      (generate cfg ls keywords rng2).shortQuestions ∧
    (generate cfg ls keywords rng1).longQuestions =
      (generate cfg ls keywords rng2).longQuestions ∧
    (generate cfg ls keywords rng1).mcqs.length =
      (generate cfg ls keywords rng2).mcqs.length ∧
    (generate cfg ls keywords rng1).mcqs.map (fun m => m.prompt) =
      (generate cfg ls keywords rng2).mcqs.map (fun m => m.prompt) ∧
    (generate cfg ls keywords rng1).mcqs.map (fun m => m.options[answerSlot m.answer]?) =
      (generate cfg ls keywords rng2).mcqs.map (fun m => m.options[answerSlot m.answer]?) ∧
    (generate { mcqCount := 1, fillCount := 0, shortCount := 0, longCount := 0 }
        [{ line := { original := "b a".toList, cleaned := "b a".toList,
                     tokens := ["b".toList, "a".toList] },
           score := 1 }]
        [("a".toList, 1), ("b".toList, 1), ("c".toList, 1), ("d".toList, 1)]
        [2, 7, 1, 8]).mcqs.map (fun m => m.options) ≠
      (generate { mcqCount := 1, fillCount := 0, shortCount := 0, longCount := 0 }
        [{ line := { original := "b a".toList, cleaned := "b a".toList,
                     tokens := ["b".toList, "a".toList] },
           score := 1 }]
        [("a".toList, 1), ("b".toList, 1), ("c".toList, 1), ("d".toList, 1)]
        []).mcqs.map (fun m => m.options) := by
  by_cases hls : ls = []
  · subst hls
    refine ⟨?_, ?_, ?_, ?_, ?_, ?_, by decide⟩ <;> simp [generate]
  · by_cases hkw : keywords = []
    · subst hkw
      refine ⟨?_, ?_, ?_, ?_, ?_, ?_, by decide⟩ <;> simp [generate]
    · have h1 := generate_mcqs_fixed_part cfg ls keywords rng1 hls hkw
      have h2 := generate_mcqs_fixed_part cfg ls keywords rng2 hls hkw
      have h12 := h1.trans h2.symm
      have hlen := congrArg List.length h12
      have hfst := congrArg (List.map Prod.fst) h12
      have hsnd := congrArg (List.map Prod.snd) h12
      have e1 := generate_nonempty cfg ls keywords rng1 hls hkw
      have e2 := generate_nonempty cfg ls keywords rng2 hls hkw
      refine ⟨?_, ?_, ?_, ?_, ?_, ?_, by decide⟩
      · rw [e1, e2]
      · rw [e1, e2]
      · rw [e1, e2]
      · simpa using hlen
      · simpa [List.map_map, Function.comp] using hfst
      · simpa [List.map_map, Function.comp] using hsnd

end QPG
